import Mathlib

/-!
# SingleLinkedList: a heap-level embedding of `single_linked_list.h`

The container is pointer based, and several properties of it speak about node
identity (iterators compare by the node they reference).  The embedding is
therefore a small memory model:

* an address is a natural number, a pointer is `Option Nat` (`none` is `nullptr`);
* the memory maps an address to the object that lives there: a heap `Node`
  or a `SingleLinkedList` object (whose `head_` member is addressed by the
  address of the object itself);
* `new`, and the storage of automatic (stack) list objects, take the next
  unused address `brk`, and never run out of memory; `delete` empties the cell;
* `size_t` arithmetic wraps modulo `2 ^ 64`;
* the copy constructor of the element type is a parameter: it may throw and it
  may change an environment `E` (a countdown of the copies left, say);
* loops take a `fuel` argument; running out of it is the fault `Fault.fuel`.
-/

namespace SLL

/-- The number of values of `size_t` (64-bit). -/
abbrev SIZE_MOD : Nat := 2 ^ 64

/-- `Node *`: `none` is `nullptr`. -/
abbrev Ptr := Option Nat

/-- `struct Node { Type value; Node *next_node = nullptr; }`. -/
structure Node (α : Type) where
  value : α
  next_node : Ptr

/-- The data members of `SingleLinkedList`: `Node head_; size_t size_ = 0;`. -/
structure SingleLinkedList (α : Type) where
  head_ : Node α
  size_ : Nat

/-- What lives at an address: a heap node, or a list object. A pointer to a list
object doubles as the pointer `&head_` to its sentinel node. -/
inductive Cell (α : Type) where
  | node (n : Node α)
  | list (l : SingleLinkedList α)

/-- The machine state: memory, the next unused address, and the environment
the element copy constructor works on. -/
structure State (α E : Type) where
  mem : Nat → Option (Cell α)
  brk : Nat
  env : E

/-- Ways an execution stops without a result: a failed `assert`, undefined
behaviour (access through a null or dangling pointer), or a loop that did not
finish within its fuel. -/
inductive Fault where
  | assertion
  | undefined
  | fuel
  deriving DecidableEq, Repr

/-- Outcome of a state-changing operation: normal return of `r` in state `s`, an
exception leaving the operation in state `s`, or a fault. -/
inductive Result (σ β : Type) where
  | ok (r : β) (s : σ)
  | throw (s : σ)
  | fault (f : Fault)

/-- The copy constructor of the element type: `(true, e)` when the copy is made,
`(false, e)` when it throws; `e` is the environment afterwards. -/
abbrev CopyCtor (α E : Type) := E → α → Bool × E

variable {α E : Type}

/-! ## Memory primitives -/

/-- Overwrite the cell at address `a`. -/
def State.write (s : State α E) (a : Nat) (c : Cell α) : State α E :=
  { s with mem := fun b => if b = a then some c else s.mem b }

/-- Release the cell at address `a` (`delete`, or the end of an automatic object). -/
def State.free (s : State α E) (a : Nat) : State α E :=
  { s with mem := fun b => if b = a then none else s.mem b }

/-- Place a new object at the next unused address and return that address. -/
def State.alloc (s : State α E) (c : Cell α) : Nat × State α E :=
  (s.brk, { mem := fun b => if b = s.brk then some c else s.mem b, brk := s.brk + 1, env := s.env })

/-- Read `p->next_node`; `none` when nothing lives at `p`. -/
def nextOf (s : State α E) (a : Nat) : Option Ptr :=
  match s.mem a with
  | some (.node n) => some n.next_node
  | some (.list l) => some l.head_.next_node
  | none => none

/-- Read `p->value`; `none` when nothing lives at `p`. -/
def valueOf (s : State α E) (a : Nat) : Option α :=
  match s.mem a with
  | some (.node n) => some n.value
  | some (.list l) => some l.head_.value
  | none => none

/-- Store `p->next_node = q`. -/
def setNext (s : State α E) (a : Nat) (q : Ptr) : State α E :=
  match s.mem a with
  | some (.node n) => s.write a (.node { n with next_node := q })
  | some (.list l) => s.write a (.list { l with head_ := { l.head_ with next_node := q } })
  | none => s

/-- The list object at address `this`, if there is one. -/
def getList (s : State α E) (this : Nat) : Option (SingleLinkedList α) :=
  match s.mem this with
  | some (.list l) => some l
  | _ => none

/-- Store `this->size_ = n`. -/
def setSize (s : State α E) (this : Nat) (n : Nat) : State α E :=
  match s.mem this with
  | some (.list l) => s.write this (.list { l with size_ := n })
  | _ => s

/-- `new Node(value, next)`: the element is copy-constructed into the node; when
the copy throws no node is left behind. -/
def newNode (cp : CopyCtor α E) (s : State α E) (value : α) (next : Ptr) :
    Result (State α E) Nat :=
  match cp s.env value with
  | (true, e) =>
    let (a, s1) := ({ s with env := e } : State α E).alloc (.node ⟨value, next⟩)
    .ok a s1
  | (false, e) => .throw { s with env := e }

/-- `delete p` for a `Node *p`: the node must be a live heap node. -/
def deleteNode (s : State α E) (a : Nat) : Option (State α E) :=
  match s.mem a with
  | some (.node _) => some (s.free a)
  | _ => none

/-! ## BasicIterator -/

/-- `BasicIterator<ValueType>`: a wrapper of `Node *node_`. `Iterator` and
`ConstIterator` differ only in the access they give to the value. -/
structure BasicIterator where
  node_ : Ptr
  deriving DecidableEq, Repr

namespace BasicIterator

/-- `operator==`: identity of the referenced node. -/
def eq (a b : BasicIterator) : Bool := decide (a.node_ = b.node_)

/-- `operator!=`. -/
def ne (a b : BasicIterator) : Bool := !(eq a b)

/-- `operator++()`: `assert(node_); node_ = node_->next_node;`. -/
def inc (s : State α E) (it : BasicIterator) : Except Fault BasicIterator :=
  match it.node_ with
  | none => .error .assertion
  | some a =>
    match nextOf s a with
    | some q => .ok ⟨q⟩
    | none => .error .undefined

/-- `operator*()`: `assert(node_); return node_->value;`. -/
def deref (s : State α E) (it : BasicIterator) : Except Fault α :=
  match it.node_ with
  | none => .error .assertion
  | some a =>
    match valueOf s a with
    | some v => .ok v
    | none => .error .undefined

end BasicIterator

/-! ## SingleLinkedList member functions

Every member function takes the address `this` of the list object. -/

/-- `begin()` / `cbegin()`: `Iterator(head_.next_node)`. -/
def begin (s : State α E) (this : Nat) : Option BasicIterator :=
  (getList s this).map fun l => ⟨l.head_.next_node⟩

/-- `end()` / `cend()`: `Iterator(nullptr)`. -/
def end_ : BasicIterator := ⟨none⟩

/-- `before_begin()` / `cbefore_begin()`: `Iterator(&head_)`. -/
def before_begin (this : Nat) : BasicIterator := ⟨some this⟩

/-- `size()`: `return size_;`. -/
def size (s : State α E) (this : Nat) : Option Nat :=
  (getList s this).map fun l => l.size_

/-- `empty()`: `return size_ == 0;`. -/
def empty (s : State α E) (this : Nat) : Option Bool :=
  (getList s this).map fun l => decide (l.size_ = 0)

/-- The default constructor, placing the object at a new address:
`head_` is a default `Node` (null `next_node`), `size_ = 0`. -/
def SingleLinkedList.ctor [Inhabited α] (s : State α E) : Nat × State α E :=
  s.alloc (.list ⟨⟨default, none⟩, 0⟩)

/-- `++size_`. -/
def incSize (s : State α E) (this : Nat) : Option (State α E) :=
  (getList s this).map fun l => setSize s this ((l.size_ + 1) % SIZE_MOD)

/-- `--size_`. -/
def decSize (s : State α E) (this : Nat) : Option (State α E) :=
  (getList s this).map fun l => setSize s this ((l.size_ + SIZE_MOD - 1) % SIZE_MOD)

/-- `push_front(value)`:
`head_.next_node = new Node(value, head_.next_node); ++size_;`. -/
def push_front (cp : CopyCtor α E) (s : State α E) (this : Nat) (value : α) :
    Result (State α E) Unit :=
  match getList s this with
  | none => .fault .undefined
  | some l =>
    match newNode cp s value l.head_.next_node with
    | .ok a s1 =>
      match incSize (setNext s1 this (some a)) this with
      | some s2 => .ok () s2
      | none => .fault .undefined
    | .throw s1 => .throw s1
    | .fault f => .fault f

/-- `insert_after(pos, value)`:
`assert(prev_node); prev_node->next_node = new Node(value, prev_node->next_node);
++size_; return Iterator{prev_node->next_node};`. -/
def insert_after (cp : CopyCtor α E) (s : State α E) (this : Nat) (pos : BasicIterator)
    (value : α) : Result (State α E) BasicIterator :=
  match pos.node_ with
  | none => .fault .assertion
  | some prev =>
    match nextOf s prev with
    | none => .fault .undefined
    | some nxt =>
      match newNode cp s value nxt with
      | .ok a s1 =>
        match incSize (setNext s1 prev (some a)) this with
        | some s2 =>
          match nextOf s2 prev with
          | some q => .ok ⟨q⟩ s2
          | none => .fault .undefined
        | none => .fault .undefined
      | .throw s1 => .throw s1
      | .fault f => .fault f

/-- `erase_after(pos)`:
`Node *removed_node = pos.node_->next_node;
pos.node_->next_node = removed_node->next_node; delete removed_node; --size_;
return Iterator(pos.node_->next_node);` (no assertion: a null or dangling
pointer is undefined behaviour). -/
def erase_after (s : State α E) (this : Nat) (pos : BasicIterator) :
    Result (State α E) BasicIterator :=
  match pos.node_ with
  | none => .fault .undefined
  | some prev =>
    match nextOf s prev with
    | some (some removed) =>
      match nextOf s removed with
      | some nxt =>
        match deleteNode (setNext s prev nxt) removed with
        | some s1 =>
          match decSize s1 this with
          | some s2 =>
            match nextOf s2 prev with
            | some q => .ok ⟨q⟩ s2
            | none => .fault .undefined
          | none => .fault .undefined
        | none => .fault .undefined
      | none => .fault .undefined
    | _ => .fault .undefined

/-- `pop_front()`: `assert(head_.next_node != nullptr); erase_after(before_begin());`. -/
def pop_front (s : State α E) (this : Nat) : Result (State α E) Unit :=
  match getList s this with
  | none => .fault .undefined
  | some l =>
    match l.head_.next_node with
    | none => .fault .assertion
    | some _ =>
      match erase_after s this (before_begin this) with
      | .ok _ s1 => .ok () s1
      | .throw s1 => .throw s1
      | .fault f => .fault f

/-- `clear()`:
`while (head_.next_node) { delete std::exchange(head_.next_node,
head_.next_node->next_node); --size_; }`. -/
def clear : Nat → State α E → Nat → Except Fault (State α E)
  | 0, _, _ => .error .fuel
  | fuel + 1, s, this =>
    match getList s this with
    | none => .error .undefined
    | some l =>
      match l.head_.next_node with
      | none => .ok s
      | some first =>
        match nextOf s first with
        | none => .error .undefined
        | some nxt =>
          match deleteNode (setNext s this nxt) first with
          | none => .error .undefined
          | some s1 =>
            match decSize s1 this with
            | none => .error .undefined
            | some s2 => clear fuel s2 this

/-- `swap(other)`:
`std::swap(head_.next_node, other.head_.next_node); std::swap(size_, other.size_);`. -/
def swap (s : State α E) (this other : Nat) : Option (State α E) :=
  match getList s this, getList s other with
  | some l, some r =>
    let s1 := setNext (setNext s this r.head_.next_node) other l.head_.next_node
    some (setSize (setSize s1 this r.size_) other l.size_)
  | _, _ => none

/-- The destructor followed by the release of the object: `clear()`, then the
storage of the object goes away. -/
def destroy (fuel : Nat) (s : State α E) (this : Nat) : Except Fault (State α E) :=
  match clear fuel s this with
  | .ok s1 => .ok (s1.free this)
  | .error f => .error f

/-- `std::next(it, k)`: `k` applications of `operator++`. -/
def std_next (s : State α E) : BasicIterator → Nat → Except Fault BasicIterator
  | it, 0 => .ok it
  | it, k + 1 =>
    match BasicIterator.inc s it with
    | .ok it1 => std_next s it1 k
    | .error f => .error f

namespace BasicIterator

/-- Assignment through a mutable `Iterator`, `*it = w` (or a change of the value
through `operator->`): `assert(node_);` then the value of the node becomes `w`. -/
def store (s : State α E) (it : BasicIterator) (w : α) : Except Fault (State α E) :=
  match it.node_ with
  | none => .error .assertion
  | some a =>
    match s.mem a with
    | some (.node n) => .ok (s.write a (.node { n with value := w }))
    | some (.list l) => .ok (s.write a (.list { l with head_ := { l.head_ with value := w } }))
    | none => .error .undefined

end BasicIterator

/-! ## Building a list from a range: `assign` -/

/-- The operations `assign` needs from its `InputIterator` template argument. -/
structure InputIterator (α E I : Type) where
  ne : I → I → Bool
  deref : State α E → I → Except Fault α
  inc : State α E → I → Except Fault I

/-- `ConstIterator` as the input iterator of `assign` (copy construction). -/
def constIterator : InputIterator α E BasicIterator where
  ne := BasicIterator.ne
  deref := BasicIterator.deref
  inc := BasicIterator.inc

/-- The iterator of `std::initializer_list<Type>`: a `const Type *` into the array
of the literal values, here its index. -/
def initializerListIterator (values : List α) : InputIterator α E Nat where
  ne := fun i j => decide (i ≠ j)
  deref := fun _ i => match values[i]? with
    | some v => .ok v
    | none => .error .undefined
  inc := fun _ i => .ok (i + 1)

/-- The loop of `assign`:
`while (from != to) { node_ptr = tmp.insert_after(node_ptr, *from); ++from; }`. -/
def assignLoop {I : Type} (cp : CopyCtor α E) (it : InputIterator α E I) :
    Nat → State α E → Nat → BasicIterator → I → I → Result (State α E) Unit
  | 0, _, _, _, _, _ => .fault .fuel
  | fuel + 1, s, tmp, node_ptr, first, last =>
    if it.ne first last then
      match it.deref s first with
      | .error f => .fault f
      | .ok v =>
        match insert_after cp s tmp node_ptr v with
        | .ok np s1 =>
          match it.inc s1 first with
          | .error f => .fault f
          | .ok first1 => assignLoop cp it fuel s1 tmp np first1 last
        | .throw s1 => .throw s1
        | .fault f => .fault f
    else .ok () s

/-- `assign(from, to)`:
`SingleLinkedList<Type> tmp; auto node_ptr = tmp.before_begin(); while ...; swap(tmp);`
and `tmp` is destroyed when the scope is left, by return or by exception. -/
def assign [Inhabited α] {I : Type} (cp : CopyCtor α E) (it : InputIterator α E I)
    (fuel : Nat) (s : State α E) (this : Nat) (first last : I) : Result (State α E) Unit :=
  let (tmp, s0) := SingleLinkedList.ctor s
  match assignLoop cp it fuel s0 tmp (before_begin tmp) first last with
  | .ok _ s1 =>
    match swap s1 this tmp with
    | none => .fault .undefined
    | some s2 =>
      match destroy fuel s2 tmp with
      | .ok s3 => .ok () s3
      | .error f => .fault f
  | .throw s1 =>
    match destroy fuel s1 tmp with
    | .ok s2 => .throw s2
    | .error f => .fault f
  | .fault f => .fault f

/-- `SingleLinkedList(std::initializer_list<Type> values)`:
`assign(values.begin(), values.end());` on a new object. When `assign` throws, the
object never came to be and its storage is released. -/
def SingleLinkedList.ctor_initializer_list [Inhabited α] (cp : CopyCtor α E) (fuel : Nat)
    (s : State α E) (values : List α) : Result (State α E) Nat :=
  let (this, s0) := SingleLinkedList.ctor s
  match assign cp (initializerListIterator values) fuel s0 this 0 values.length with
  | .ok _ s1 => .ok this s1
  | .throw s1 => .throw (s1.free this)
  | .fault f => .fault f

/-- `SingleLinkedList(const SingleLinkedList &other) : SingleLinkedList()`:
`assign(other.begin(), other.end());` on a new object. It delegates to the default
constructor, so when `assign` throws the destructor of the new object runs. -/
def SingleLinkedList.ctor_copy [Inhabited α] (cp : CopyCtor α E) (fuel : Nat)
    (s : State α E) (other : Nat) : Result (State α E) Nat :=
  let (this, s0) := SingleLinkedList.ctor s
  match begin s0 other with
  | none => .fault .undefined
  | some b =>
    match assign cp constIterator fuel s0 this b end_ with
    | .ok _ s1 => .ok this s1
    | .throw s1 =>
      match destroy fuel s1 this with
      | .ok s2 => .throw s2
      | .error f => .fault f
    | .fault f => .fault f

/-- `operator=(other)`:
`if (this != &other) { SingleLinkedList temp(other); this->swap(temp); } return *this;`. -/
def operator_assign [Inhabited α] (cp : CopyCtor α E) (fuel : Nat) (s : State α E)
    (this other : Nat) : Result (State α E) Unit :=
  if this ≠ other then
    match SingleLinkedList.ctor_copy cp fuel s other with
    | .ok temp s1 =>
      match swap s1 this temp with
      | none => .fault .undefined
      | some s2 =>
        match destroy fuel s2 temp with
        | .ok s3 => .ok () s3
        | .error f => .fault f
    | .throw s1 => .throw s1
    | .fault f => .fault f
  else .ok () s

/-! ## Free functions -/

/-- The free function `swap(lhs, rhs)`: `lhs.swap(rhs);`. -/
def swap_free (s : State α E) (lhs rhs : Nat) : Option (State α E) :=
  swap s lhs rhs

/-- `std::equal(first1, last1, first2)` of the C++ standard library, with
`operator==` of the element type given by `eq`:
`for (; first1 != last1; ++first1, ++first2) if (!(*first1 == *first2)) return false;
return true;`. -/
def std_equal (eq : α → α → Bool) :
    Nat → State α E → BasicIterator → BasicIterator → BasicIterator → Except Fault Bool
  | 0, _, _, _, _ => .error .fuel
  | fuel + 1, s, first1, last1, first2 =>
    if BasicIterator.ne first1 last1 then
      match BasicIterator.deref s first1 with
      | .error f => .error f
      | .ok a =>
        match BasicIterator.deref s first2 with
        | .error f => .error f
        | .ok b =>
          if !(eq a b) then .ok false
          else
            match BasicIterator.inc s first1 with
            | .error f => .error f
            | .ok n1 =>
              match BasicIterator.inc s first2 with
              | .error f => .error f
              | .ok n2 => std_equal eq fuel s n1 last1 n2
    else .ok true

/-- `std::lexicographical_compare(first1, last1, first2, last2)` of the C++
standard library, with `operator<` of the element type given by `lt`:
`for (; first1 != last1 && first2 != last2; ++first1, ++first2) {
if (*first1 < *first2) return true; if (*first2 < *first1) return false; }
return first1 == last1 && first2 != last2;`. -/
def std_lexicographical_compare (lt : α → α → Bool) :
    Nat → State α E → BasicIterator → BasicIterator → BasicIterator → BasicIterator →
      Except Fault Bool
  | 0, _, _, _, _, _ => .error .fuel
  | fuel + 1, s, first1, last1, first2, last2 =>
    if BasicIterator.ne first1 last1 && BasicIterator.ne first2 last2 then
      match BasicIterator.deref s first1 with
      | .error f => .error f
      | .ok a =>
        match BasicIterator.deref s first2 with
        | .error f => .error f
        | .ok b =>
          if lt a b then .ok true
          else if lt b a then .ok false
          else
            match BasicIterator.inc s first1 with
            | .error f => .error f
            | .ok n1 =>
              match BasicIterator.inc s first2 with
              | .error f => .error f
              | .ok n2 => std_lexicographical_compare lt fuel s n1 last1 n2 last2
    else .ok (BasicIterator.eq first1 last1 && BasicIterator.ne first2 last2)

/-- `operator==(lhs, rhs)`: `(&lhs == &rhs) || (lhs.size() == rhs.size()
&& std::equal(lhs.begin(), lhs.end(), rhs.begin()))`. -/
def operator_eq (eq : α → α → Bool) (fuel : Nat) (s : State α E) (lhs rhs : Nat) :
    Except Fault Bool :=
  if lhs = rhs then .ok true
  else
    match size s lhs, size s rhs, begin s lhs, begin s rhs with
    | some n, some m, some b1, some b2 =>
      if n = m then std_equal eq fuel s b1 end_ b2 else .ok false
    | _, _, _, _ => .error .undefined

/-- `operator!=(lhs, rhs)`: `!(lhs == rhs)`. -/
def operator_ne (eq : α → α → Bool) (fuel : Nat) (s : State α E) (lhs rhs : Nat) :
    Except Fault Bool :=
  match operator_eq eq fuel s lhs rhs with
  | .ok b => .ok (!b)
  | .error f => .error f

/-- `operator<(lhs, rhs)`:
`std::lexicographical_compare(lhs.begin(), lhs.end(), rhs.begin(), rhs.end())`. -/
def operator_lt (lt : α → α → Bool) (fuel : Nat) (s : State α E) (lhs rhs : Nat) :
    Except Fault Bool :=
  match begin s lhs, begin s rhs with
  | some b1, some b2 => std_lexicographical_compare lt fuel s b1 end_ b2 end_
  | _, _ => .error .undefined

/-- `operator<=(lhs, rhs)`: `!(rhs < lhs)`. -/
def operator_le (lt : α → α → Bool) (fuel : Nat) (s : State α E) (lhs rhs : Nat) :
    Except Fault Bool :=
  match operator_lt lt fuel s rhs lhs with
  | .ok b => .ok (!b)
  | .error f => .error f

/-- `operator>(lhs, rhs)`: `(rhs < lhs)`. -/
def operator_gt (lt : α → α → Bool) (fuel : Nat) (s : State α E) (lhs rhs : Nat) :
    Except Fault Bool :=
  operator_lt lt fuel s rhs lhs

/-- `operator>=(lhs, rhs)`: `!(lhs < rhs)`. -/
def operator_ge (lt : α → α → Bool) (fuel : Nat) (s : State α E) (lhs rhs : Nat) :
    Except Fault Bool :=
  match operator_lt lt fuel s lhs rhs with
  | .ok b => .ok (!b)
  | .error f => .error f

/-- The values met by the loop `for (it = first; it != last; ++it) use(*it);`, the
way the tests and the standard algorithms walk a list. -/
def traverse : Nat → State α E → BasicIterator → BasicIterator → Except Fault (List α)
  | 0, _, _, _ => .error .fuel
  | fuel + 1, s, first, last =>
    if BasicIterator.ne first last then
      match BasicIterator.deref s first with
      | .error f => .error f
      | .ok v =>
        match BasicIterator.inc s first with
        | .error f => .error f
        | .ok n1 =>
          match traverse fuel s n1 last with
          | .ok vs => .ok (v :: vs)
          | .error f => .error f
    else .ok []

/-- The state before any object exists. -/
def State.init (e : E) : State α E := { mem := fun _ => none, brk := 0, env := e }

/-- An element type whose copy constructor never throws (`int`, say). -/
def copyAlways : CopyCtor α Unit := fun e _ => (true, e)

/-- An element type in the manner of `ThrowOnCopy` of the tests, all elements sharing
one countdown, which is the environment: a copy made at countdown `0` throws, any
other copy decrements it. -/
def throwOnCopy : CopyCtor α Nat := fun e _ =>
  match e with
  | 0 => (false, 0)
  | n + 1 => (true, n)

/-! ## Representation predicates -/

/-- `Seg m p l q`: following `next_node` from the pointer `p` visits exactly the
heap nodes listed in `l` (address and value, in order) and arrives at `q`. -/
def Seg (m : Nat → Option (Cell α)) : Ptr → List (Nat × α) → Ptr → Prop
  | p, [], q => p = q
  | p, (a, x) :: rest, q => p = some a ∧ ∃ nxt, m a = some (.node ⟨x, nxt⟩) ∧ Seg m nxt rest q

/-- A chain that ends in `nullptr`. -/
def Chain (m : Nat → Option (Cell α)) (p : Ptr) (l : List (Nat × α)) : Prop :=
  Seg m p l none

/-- The object at `this` is a list whose nodes are `l`: the chain hanging off its
sentinel is `l`, and `size_` is the number of nodes, a `size_t`. -/
def IsList (s : State α E) (this : Nat) (l : List (Nat × α)) : Prop :=
  ∃ L, s.mem this = some (.list L) ∧ Chain s.mem L.head_.next_node l ∧
    L.size_ = l.length ∧ l.length < SIZE_MOD

/-- Addresses from `brk` on are unused. -/
def State.Wf (s : State α E) : Prop := ∀ a, s.brk ≤ a → s.mem a = none

/-- The addresses of the nodes of a list. -/
abbrev addrs (l : List (Nat × α)) : List Nat := l.map Prod.fst

/-- The values of the nodes of a list. -/
abbrev vals (l : List (Nat × α)) : List α := l.map Prod.snd

/-- The iterator at position `k` of the list `l` of the object `this`: position `0`
is `before_begin()`, position `k` with `1 ≤ k ≤ n` references the `k`-th node, and
position `n + 1` is `end()`. -/
def iterAt (this : Nat) (l : List (Nat × α)) (k : Nat) : BasicIterator :=
  ⟨(this :: addrs l)[k]?⟩

/-- What `std::equal` computes on two value sequences of the same length (and
`false` when the lengths differ): the list-level counterpart of `std_equal`. -/
def listEq (eq : α → α → Bool) : List α → List α → Bool
  | [], [] => true
  | x :: xs, y :: ys => eq x y && listEq eq xs ys
  | _, _ => false

/-- What `std::lexicographical_compare` computes on two value sequences: the
list-level counterpart of `std_lexicographical_compare`. -/
def lexLt (lt : α → α → Bool) : List α → List α → Bool
  | [], [] => false
  | [], _ :: _ => true
  | _ :: _, [] => false
  | x :: xs, y :: ys => if lt x y then true else if lt y x then false else lexLt lt xs ys

/-- Exactly one of three Booleans is `true`. -/
def ExactlyOne (p q r : Bool) : Prop :=
  (p = true ∧ q = false ∧ r = false) ∨ (p = false ∧ q = true ∧ r = false) ∨
    (p = false ∧ q = false ∧ r = true)

/-- The environment after copy-constructing the values `xs` in order, or `none`
when one of these copies throws. -/
def copyAll (cp : CopyCtor α E) : E → List α → Option E
  | e, [] => some e
  | e, x :: xs =>
    match cp e x with
    | (true, e1) => copyAll cp e1 xs
    | (false, _) => none

/-- The range `[pos 0, pos n)` of the input iterator `it` reads the values `xs`, in
every state whose memory below `brk0` is `m0`. -/
structure ReadsRange {I : Type} (it : InputIterator α E I) (m0 : Nat → Option (Cell α))
    (brk0 : Nat) (pos : Nat → I) (xs : List α) : Prop where
  ne_lt : ∀ j, j < xs.length → it.ne (pos j) (pos xs.length) = true
  ne_end : it.ne (pos xs.length) (pos xs.length) = false
  deref : ∀ s1 : State α E, (∀ b, b < brk0 → s1.mem b = m0 b) →
    ∀ j x, xs[j]? = some x → it.deref s1 (pos j) = .ok x
  inc : ∀ s1 : State α E, (∀ b, b < brk0 → s1.mem b = m0 b) →
    ∀ j, j < xs.length → it.inc s1 (pos j) = .ok (pos (j + 1))

/-- The invariant of the loop of `assign`: the temporary list at `tmp` has the nodes
`acc`, all above `tmp`; memory below `tmp` is `m0`; nothing else lives above `tmp`. -/
def TmpInv (m0 : Nat → Option (Cell α)) (tmp : Nat) (s : State α E) (acc : List (Nat × α)) :
    Prop :=
  IsList s tmp acc ∧ s.Wf ∧ tmp < s.brk ∧ (∀ b ∈ addrs acc, tmp < b) ∧
    (∀ b, b < tmp → s.mem b = m0 b) ∧ (∀ b, tmp < b → b ∉ addrs acc → s.mem b = none)

/-! ## Programs: sequences of calls -/

/-- The calls a program makes on list objects and through their iterators. -/
inductive Op (α : Type) where
  | ctor
  | ctor_initializer_list (values : List α)
  | ctor_copy (other : Nat)
  | dtor (this : Nat)
  | push_front (this : Nat) (value : α)
  | pop_front (this : Nat)
  | insert_after (this : Nat) (pos : BasicIterator) (value : α)
  | erase_after (this : Nat) (pos : BasicIterator)
  | clear (this : Nat)
  | swap (this other : Nat)
  | operator_assign (this other : Nat)
  | store (it : BasicIterator) (w : α)

/-- Run one call; the value a call returns is dropped. -/
def exec [Inhabited α] (cp : CopyCtor α E) (fuel : Nat) (s : State α E) :
    Op α → Result (State α E) Unit
  | .ctor => .ok () (SingleLinkedList.ctor s).2
  | .ctor_initializer_list values =>
    match SingleLinkedList.ctor_initializer_list cp fuel s values with
    | .ok _ s1 => .ok () s1
    | .throw s1 => .throw s1
    | .fault f => .fault f
  | .ctor_copy other =>
    match SingleLinkedList.ctor_copy cp fuel s other with
    | .ok _ s1 => .ok () s1
    | .throw s1 => .throw s1
    | .fault f => .fault f
  | .dtor this =>
    match destroy fuel s this with
    | .ok s1 => .ok () s1
    | .error f => .fault f
  | .push_front this value => push_front cp s this value
  | .pop_front this => pop_front s this
  | .insert_after this pos value =>
    match insert_after cp s this pos value with
    | .ok _ s1 => .ok () s1
    | .throw s1 => .throw s1
    | .fault f => .fault f
  | .erase_after this pos =>
    match erase_after s this pos with
    | .ok _ s1 => .ok () s1
    | .throw s1 => .throw s1
    | .fault f => .fault f
  | .clear this =>
    match clear fuel s this with
    | .ok s1 => .ok () s1
    | .error f => .fault f
  | .swap this other =>
    match swap s this other with
    | some s1 => .ok () s1
    | none => .fault .undefined
  | .operator_assign this other => operator_assign cp fuel s this other
  | .store it w =>
    match BasicIterator.store s it w with
    | .ok s1 => .ok () s1
    | .error f => .fault f

/-- The call `op` is a mutation of the list object `c`, made within its contract in
the state `s`: a `push_front`, `pop_front` (of a non-empty list), `insert_after` or
`erase_after` (at a position of that list, with a successor for `erase_after`),
`clear`, or a write through an iterator to one of its elements. The size stays a
`size_t`, and the loop of `clear` has the fuel to finish. -/
def MutationOf (fuel : Nat) (s : State α E) (c : Nat) : Op α → Prop
  | .push_front this _ => this = c ∧ ∃ l, IsList s c l ∧ l.length + 1 < SIZE_MOD
  | .pop_front this => this = c ∧ ∃ l, IsList s c l ∧ l ≠ []
  | .insert_after this pos _ => this = c ∧
      ∃ l k, IsList s c l ∧ k ≤ l.length ∧ pos = iterAt c l k ∧ l.length + 1 < SIZE_MOD
  | .erase_after this pos => this = c ∧
      ∃ l k, IsList s c l ∧ k < l.length ∧ pos = iterAt c l k
  | .clear this => this = c ∧ ∃ l, IsList s c l ∧ l.length < fuel
  | .store it _ => ∃ l k, IsList s c l ∧ k < l.length ∧ it = iterAt c l (k + 1)
  | _ => False

/-- The call `op` is made within its contract in the state `s`: every object it names
is a list, positions are positions of the list they are used with, sizes stay
`size_t`, and loops have the fuel to finish. -/
def Valid (fuel : Nat) (s : State α E) : Op α → Prop
  | .ctor => True
  | .ctor_initializer_list values => values.length < SIZE_MOD ∧ values.length < fuel
  | .ctor_copy other => ∃ l, IsList s other l ∧ l.length < fuel
  | .dtor this => ∃ l, IsList s this l ∧ l.length < fuel
  | .swap this other => (∃ l, IsList s this l) ∧ ∃ l, IsList s other l
  | .operator_assign this other =>
      ∃ lD lS, IsList s this lD ∧ IsList s other lS ∧ lS.length < fuel ∧ lD.length < fuel
  | .push_front this value => ∃ c, MutationOf fuel s c (.push_front this value)
  | .pop_front this => ∃ c, MutationOf fuel s c (.pop_front this)
  | .insert_after this pos value => ∃ c, MutationOf fuel s c (.insert_after this pos value)
  | .erase_after this pos => ∃ c, MutationOf fuel s c (.erase_after this pos)
  | .clear this => ∃ c, MutationOf fuel s c (.clear this)
  | .store it w => ∃ c, MutationOf fuel s c (.store it w)

/-- The states a program reaches from the empty state by calls made within their
contracts, whether a call returns or throws. -/
inductive Reach [Inhabited α] (cp : CopyCtor α E) : State α E → Prop where
  | init (e : E) : Reach cp (State.init e)
  | ok (fuel : Nat) (op : Op α) (s s1 : State α E) : Reach cp s → Valid fuel s op →
      exec cp fuel s op = .ok () s1 → Reach cp s1
  | throw (fuel : Nat) (op : Op α) (s s1 : State α E) : Reach cp s → Valid fuel s op →
      exec cp fuel s op = .throw s1 → Reach cp s1

/-- The states reached from `s` by mutations of the list object `c` alone. -/
inductive Mutated [Inhabited α] (cp : CopyCtor α E) (c : Nat) (s : State α E) :
    State α E → Prop where
  | refl : Mutated cp c s s
  | ok (fuel : Nat) (op : Op α) (s1 s2 : State α E) : Mutated cp c s s1 →
      MutationOf fuel s1 c op → exec cp fuel s1 op = .ok () s2 → Mutated cp c s s2
  | throw (fuel : Nat) (op : Op α) (s1 s2 : State α E) : Mutated cp c s s1 →
      MutationOf fuel s1 c op → exec cp fuel s1 op = .throw s2 → Mutated cp c s s2

/-- All list objects of a state are well formed and own their nodes: `L` gives the
nodes of each live list object; two list objects share no node; and every live
object is a list object of `L` or a node of one of them. -/
def World (s : State α E) (L : Nat → Option (List (Nat × α))) : Prop :=
  s.Wf ∧
  (∀ o l, L o = some l → IsList s o l) ∧
  (∀ o1 o2 l1 l2, o1 ≠ o2 → L o1 = some l1 → L o2 = some l2 → ∀ b ∈ addrs l1, b ∉ addrs l2) ∧
  (∀ b c, s.mem b = some c → (∃ l, L b = some l) ∨ ∃ o l, L o = some l ∧ b ∈ addrs l)

/-- What a mutation of the list `this` with nodes `l` does to the state: the list has
the nodes `l1`, each an old node of it or a new one; the objects outside the list
are untouched; and the nodes it lost are dead. -/
def LocalStep (s s1 : State α E) (this : Nat) (l l1 : List (Nat × α)) : Prop :=
  IsList s1 this l1 ∧ s1.Wf ∧
  (∀ b, b ≠ this → b ∉ addrs l → b < s.brk → s1.mem b = s.mem b) ∧
  (∀ b ∈ addrs l1, b ∈ addrs l ∨ s.brk ≤ b) ∧
  (∀ b, b ≠ this → b ∉ addrs l1 → (b ∈ addrs l ∨ s.brk ≤ b) → s1.mem b = none)

/-- Two separate lists: `C` (object `c`, nodes `lC`) and `S` (object `o`, nodes `lS`)
are distinct objects that share no node. -/
def Separate (s : State α E) (c o : Nat) (lC lS : List (Nat × α)) : Prop :=
  s.Wf ∧ IsList s c lC ∧ IsList s o lS ∧ c ≠ o ∧ ∀ b ∈ addrs lC, b ∉ addrs lS

/-- The list `C` (object `c`) is an independent copy of the list `S` (object `other`,
nodes `lS`) in the state `s`: `C` holds the values of `S` in the same order, `C` and
`S` are distinct objects that share no node, for a non-empty `S` the iterators
`C.begin()` and `S.begin()` differ, and in every state reached from `s` by mutations
of `C` alone (each of which returns or throws, and never faults) `S` has the same
nodes with the same values, the same size, and the same element sequence on a
traversal from `begin()` to `end()`. -/
def IndependentCopy [Inhabited α] (cp : CopyCtor α E) (s : State α E) (c other : Nat)
    (lS : List (Nat × α)) : Prop :=
  ∃ lC, IsList s c lC ∧ vals lC = vals lS ∧ IsList s other lS ∧ c ≠ other ∧
    (∀ b ∈ addrs lC, b ∉ addrs lS) ∧
    (lS ≠ [] → begin s c ≠ begin s other) ∧
    ∀ s2, Mutated cp c s s2 →
      IsList s2 other lS ∧ size s2 other = some lS.length ∧
      (∀ fuel, lS.length < fuel →
        ∃ it, begin s2 other = some it ∧ traverse fuel s2 it end_ = .ok (vals lS)) ∧
      ∀ fuel op, MutationOf fuel s2 c op →
        ∃ s3, exec cp fuel s2 op = .ok () s3 ∨ exec cp fuel s2 op = .throw s3

/-- The number of live heap nodes. -/
def liveNodes (s : State α E) : Nat :=
  ((List.range s.brk).filter fun b =>
    match s.mem b with
    | some (.node _) => true
    | _ => false).length

/-- The sum of `size()` over the live list objects. -/
def sumSizes (s : State α E) : Nat :=
  ((List.range s.brk).map fun b =>
    match s.mem b with
    | some (.list l) => l.size_
    | _ => 0).sum

/-! ## The front operations as the specification words them -/

/-- What the specification says `push_front(value)` is: the call
`insert_after(before_begin(), value)`, its returned iterator dropped. -/
def push_front_spec (cp : CopyCtor α E) (s : State α E) (this : Nat) (value : α) :
    Result (State α E) Unit :=
  match insert_after cp s this (before_begin this) value with
  | .ok _ s1 => .ok () s1
  | .throw s1 => .throw s1
  | .fault f => .fault f

/-- What the specification says `pop_front()` is: the call
`erase_after(before_begin())`, its returned iterator dropped. -/
def pop_front_spec (s : State α E) (this : Nat) : Result (State α E) Unit :=
  match erase_after s this (before_begin this) with
  | .ok _ s1 => .ok () s1
  | .throw s1 => .throw s1
  | .fault f => .fault f

/-! ## A concrete state

Two lists of `int`: `{10, 20}` at address `0` (nodes at `1`, `2`) and `{10, 30, 5}` at
address `3` (nodes at `4`, `5`, `6`). -/

/-- The memory of `exampleState`. -/
def exampleMem : Nat → Option (Cell Nat)
  | 0 => some (.list ⟨⟨0, some 1⟩, 2⟩)
  | 1 => some (.node ⟨10, some 2⟩)
  | 2 => some (.node ⟨20, none⟩)
  | 3 => some (.list ⟨⟨0, some 4⟩, 3⟩)
  | 4 => some (.node ⟨10, some 5⟩)
  | 5 => some (.node ⟨30, some 6⟩)
  | 6 => some (.node ⟨5, none⟩)
  | _ => none

/-- A state holding the two lists, for an element type whose copies never throw. -/
def exampleState : State Nat Unit := { mem := exampleMem, brk := 7, env := () }

/-- The same memory with `ThrowOnCopy`-like elements and a countdown of `n` copies. -/
def exampleThrowState (n : Nat) : State Nat Nat := { mem := exampleMem, brk := 7, env := n }

/-- The nodes of the list at address `0`. -/
def exampleA : List (Nat × Nat) := [(1, 10), (2, 20)]

/-- The nodes of the list at address `3`. -/
def exampleB : List (Nat × Nat) := [(4, 10), (5, 30), (6, 5)]

/-! ## Assertions of `tests.h`, as computations on the embedding -/

/-- `SingleLinkedList<int> list{values}` of the tests: the new object and the state
after the construction. -/
def intList (s : State Nat Unit) (values : List Nat) : Option (Nat × State Nat Unit) :=
  match SingleLinkedList.ctor_initializer_list copyAlways 16 s values with
  | .ok c s1 => some (c, s1)
  | _ => none

/-- `operator==` of `int`. -/
def intEq (x y : Nat) : Bool := decide (x = y)

/-- `operator<` of `int`. -/
def intLt (x y : Nat) : Bool := decide (x < y)

/-- The values of the list `c`, read from `begin()` to `end()`. -/
def contents (s : State Nat Unit) (c : Nat) : Option (List Nat) :=
  match begin s c with
  | some b => (traverse 16 s b end_).toOption
  | none => none

/-- `tests.h`, lexicographic comparison: `{1,2,3} < {1,2,3,1}`, `{1,2,3} <= {1,2,3}`,
`{1,2,4} > {1,2,3}`, `{1,2,3} >= {1,2,3}`. -/
def testLexicographic : Option (List Bool) := do
  let (a, s) ← intList (State.init ()) [1, 2, 3]
  let (b, s) ← intList s [1, 2, 3, 1]
  let (c, s) ← intList s [1, 2, 4]
  let r1 ← (operator_lt intLt 16 s a b).toOption
  let r2 ← (operator_le intLt 16 s a a).toOption
  let r3 ← (operator_gt intLt 16 s c a).toOption
  let r4 ← (operator_ge intLt 16 s a a).toOption
  pure [r1, r2, r3, r4]

/-- `tests.h`, insertion after a position: into `{1,2,3}` insert `123` after
`before_begin()`, then `555` after `begin()`; the result is compared with
`{123, 555, 1, 2, 3}`, and each returned iterator is dereferenced. -/
def testInsertAfter : Option (List Nat × Bool × Nat × Nat) := do
  let (a, s) ← intList (State.init ()) [1, 2, 3]
  let (i1, s) ← match insert_after copyAlways s a (before_begin a) 123 with
    | .ok it s1 => some (it, s1)
    | _ => none
  let v1 ← (BasicIterator.deref s i1).toOption
  let b ← begin s a
  let (i2, s) ← match insert_after copyAlways s a b 555 with
    | .ok it s1 => some (it, s1)
    | _ => none
  let v2 ← (BasicIterator.deref s i2).toOption
  let (e, s) ← intList s [123, 555, 1, 2, 3]
  let r ← (operator_eq intEq 16 s a e).toOption
  let xs ← contents s a
  pure (xs, r, v1, v2)

/-- `tests.h`, erasing after a position: from `{1,2,3,4}` erase after
`cbefore_begin()`, after `cbegin()` and after the third position; the three results
and whether the last returned iterator is `end()`. -/
def testEraseAfter : Option (List Nat × List Nat × List Nat × Bool) := do
  let (a, s) ← intList (State.init ()) [1, 2, 3, 4]
  let s1 ← match erase_after s a (before_begin a) with
    | .ok _ s1 => some s1
    | _ => none
  let x1 ← contents s1 a
  let b ← begin s a
  let s2 ← match erase_after s a b with
    | .ok _ s2 => some s2
    | _ => none
  let x2 ← contents s2 a
  let b1 ← (BasicIterator.inc s b).toOption
  let b2 ← (BasicIterator.inc s b1).toOption
  let (it, s3) ← match erase_after s a b2 with
    | .ok it s3 => some (it, s3)
    | _ => none
  let x3 ← contents s3 a
  pure (x1, x2, x3, BasicIterator.eq it end_)

/-- `tests.h`, assignment: `receiver{5,4,3,2,1} = source{1,2,3,4}`; the contents of
both afterwards, `receiver == source`, and `receiver.begin() != source.begin()`. -/
def testAssign : Option (List Nat × List Nat × Bool × Bool) := do
  let (src, s) ← intList (State.init ()) [1, 2, 3, 4]
  let (rcv, s) ← intList s [5, 4, 3, 2, 1]
  let s ← match operator_assign copyAlways 16 s rcv src with
    | .ok _ s1 => some s1
    | _ => none
  let x ← contents s rcv
  let y ← contents s src
  let r ← (operator_eq intEq 16 s rcv src).toOption
  let b1 ← begin s rcv
  let b2 ← begin s src
  pure (x, y, r, BasicIterator.ne b1 b2)

/-- `tests.h`, `pop_front` of `{3, 14, 15, 92, 6}`. -/
def testPopFront : Option (List Nat) := do
  let (a, s) ← intList (State.init ()) [3, 14, 15, 92, 6]
  let s ← match pop_front s a with
    | .ok _ s1 => some s1
    | _ => none
  contents s a

/-- A state a program reaches: `SingleLinkedList<T> a{1, 2, 3};` run in the empty
state, with a countdown of `10` copies before a copy throws. The list object is at
`0`, its nodes at `2`, `3`, `4` (the temporary of `assign` was at `1`). -/
def exampleReached : State Nat Nat :=
  match exec throwOnCopy 5 (State.init 10) (.ctor_initializer_list [1, 2, 3]) with
  | .ok _ s => s
  | _ => State.init 10

/-- A state with one empty list: `SingleLinkedList<int> a;` run in the empty state,
the list object at `0`. -/
def exampleEmptyState : State Nat Unit := (SingleLinkedList.ctor (State.init ())).2

/-! # Theorems

## Memory and chains -/

@[simp] theorem State.write_mem (s : State α E) (a : Nat) (c : Cell α) (b : Nat) :
    (s.write a c).mem b = if b = a then some c else s.mem b := rfl
@[simp] theorem State.write_brk (s : State α E) (a : Nat) (c : Cell α) :
    (s.write a c).brk = s.brk := rfl
@[simp] theorem State.write_env (s : State α E) (a : Nat) (c : Cell α) :
    (s.write a c).env = s.env := rfl
@[simp] theorem State.free_mem (s : State α E) (a b : Nat) :
    (s.free a).mem b = if b = a then none else s.mem b := rfl
@[simp] theorem State.free_brk (s : State α E) (a : Nat) : (s.free a).brk = s.brk := rfl
@[simp] theorem State.free_env (s : State α E) (a : Nat) : (s.free a).env = s.env := rfl

theorem Seg.frame {m m1 : Nat → Option (Cell α)} {l : List (Nat × α)} {p q : Ptr}
    (h : Seg m p l q) (hfr : ∀ a ∈ addrs l, m1 a = m a) : Seg m1 p l q := by
  induction l generalizing p with
  | nil => exact h
  | cons hd tl ih =>
    obtain ⟨a, x⟩ := hd
    obtain ⟨hp, nxt, hm, hrest⟩ := h
    refine ⟨hp, nxt, ?_, ih hrest (fun b hb => hfr b (by simp [addrs] at hb ⊢; exact Or.inr hb))⟩
    rw [hfr a (by simp [addrs]), hm]

theorem Seg.append {m : Nat → Option (Cell α)} {l1 l2 : List (Nat × α)} {p r q : Ptr}
    (h1 : Seg m p l1 r) (h2 : Seg m r l2 q) : Seg m p (l1 ++ l2) q := by
  induction l1 generalizing p with
  | nil => cases h1; exact h2
  | cons hd tl ih =>
    obtain ⟨a, x⟩ := hd
    obtain ⟨hp, nxt, hm, hrest⟩ := h1
    exact ⟨hp, nxt, hm, ih hrest⟩

theorem Seg.split {m : Nat → Option (Cell α)} {l1 l2 : List (Nat × α)} {p q : Ptr}
    (h : Seg m p (l1 ++ l2) q) : ∃ r, Seg m p l1 r ∧ Seg m r l2 q := by
  induction l1 generalizing p with
  | nil => exact ⟨p, rfl, h⟩
  | cons hd tl ih =>
    obtain ⟨a, x⟩ := hd
    obtain ⟨hp, nxt, hm, hrest⟩ := h
    obtain ⟨r, h1, h2⟩ := ih hrest
    exact ⟨r, ⟨hp, nxt, hm, h1⟩, h2⟩

/-- Every node of a segment is a live heap node. -/
theorem Seg.node_of_mem {m : Nat → Option (Cell α)} {l : List (Nat × α)} {p q : Ptr}
    (h : Seg m p l q) {a : Nat} (ha : a ∈ addrs l) : ∃ n, m a = some (.node n) := by
  induction l generalizing p with
  | nil => simp [addrs] at ha
  | cons hd tl ih =>
    obtain ⟨b, x⟩ := hd
    obtain ⟨_, nxt, hm, hrest⟩ := h
    simp only [addrs, List.map_cons, List.mem_cons] at ha
    rcases ha with rfl | ha
    · exact ⟨_, hm⟩
    · exact ih hrest ha

/-- A pointer is the start of at most one null-terminated chain. -/
theorem Chain.functional {m : Nat → Option (Cell α)} {l1 l2 : List (Nat × α)} {p : Ptr}
    (h1 : Chain m p l1) (h2 : Chain m p l2) : l1 = l2 := by
  induction l1 generalizing p l2 with
  | nil =>
    cases l2 with
    | nil => rfl
    | cons hd tl =>
      obtain ⟨a, x⟩ := hd
      have e1 : p = none := h1
      have e2 : p = some a := h2.1
      rw [e1] at e2; cases e2
  | cons hd tl ih =>
    obtain ⟨a, x⟩ := hd
    obtain ⟨hp, nxt, hm, hrest⟩ := h1
    cases l2 with
    | nil =>
      have e2 : p = none := h2
      rw [hp] at e2; cases e2
    | cons hd2 tl2 =>
      obtain ⟨b, y⟩ := hd2
      obtain ⟨hp2, nxt2, hm2, hrest2⟩ := h2
      rw [hp] at hp2
      cases hp2
      rw [hm] at hm2
      cases hm2
      rw [ih hrest hrest2]

/-- A null-terminated chain visits no node twice. -/
theorem Chain.nodup {m : Nat → Option (Cell α)} {l : List (Nat × α)} {p : Ptr}
    (h : Chain m p l) : (addrs l).Nodup := by
  induction l generalizing p with
  | nil => simp [addrs]
  | cons hd tl ih =>
    obtain ⟨a, x⟩ := hd
    have h0 := h
    obtain ⟨hp, nxt, hm, hrest⟩ := h
    simp only [addrs, List.map_cons, List.nodup_cons]
    refine ⟨?_, ih hrest⟩
    intro hmem
    obtain ⟨⟨a1, y⟩, hy, ha1⟩ := List.mem_map.mp hmem
    simp only at ha1
    subst ha1
    obtain ⟨r1, r2, hsplit⟩ := List.append_of_mem hy
    have hrest2 : Seg m nxt (r1 ++ (a1, y) :: r2) none := hsplit ▸ hrest
    obtain ⟨r, _, hs2⟩ := Seg.split hrest2
    have hr : r = some a1 := hs2.1
    have hc : Chain m (some a1) ((a1, y) :: r2) := hr ▸ hs2
    have hc0 : Chain m (some a1) ((a1, x) :: tl) := hp ▸ h0
    have := Chain.functional hc hc0
    have hlen := congrArg List.length this
    rw [hsplit] at hlen
    simp at hlen
    omega

theorem Seg.setNext_last {m m1 : Nat → Option (Cell α)} {l1 : List (Nat × α)} {p r : Ptr}
    {a : Nat} {x : α} (r1 : Ptr) (h : Seg m p (l1 ++ [(a, x)]) r) (hm1 : m1 a = some (.node ⟨x, r1⟩))
    (hfr : ∀ b ∈ addrs l1, m1 b = m b) : Seg m1 p (l1 ++ [(a, x)]) r1 := by
  obtain ⟨q, h1, _, _, _, _⟩ := Seg.split h
  exact Seg.append (h1.frame hfr) ⟨by assumption, r1, hm1, rfl⟩

theorem IsList.lt_brk {s : State α E} {this : Nat} {l : List (Nat × α)} (h : IsList s this l)
    (hwf : s.Wf) : this < s.brk ∧ ∀ a ∈ addrs l, a < s.brk := by
  obtain ⟨L, hm, hch, _⟩ := h
  refine ⟨?_, fun a ha => ?_⟩
  · by_contra hc
    rw [hwf this (by omega)] at hm
    cases hm
  · obtain ⟨n, hn⟩ := hch.node_of_mem ha
    by_contra hc
    rw [hwf a (by omega)] at hn
    cases hn

theorem IsList.this_not_mem {s : State α E} {this : Nat} {l : List (Nat × α)}
    (h : IsList s this l) : this ∉ addrs l := by
  obtain ⟨L, hm, hch, _⟩ := h
  intro ha
  obtain ⟨n, hn⟩ := hch.node_of_mem ha
  rw [hm] at hn
  cases hn

theorem IsList.intro {s : State α E} {this : Nat} {l : List (Nat × α)} {d : α} {p : Ptr} {n : Nat}
    (hm : s.mem this = some (.list ⟨⟨d, p⟩, n⟩)) (hch : Seg s.mem p l none)
    (hn : n = l.length) (hb : l.length < SIZE_MOD) : IsList s this l :=
  ⟨_, hm, hch, hn, hb⟩

theorem insert_after_ok (cp : CopyCtor α E) (s : State α E) (this : Nat) (l : List (Nat × α))
    (k : Nat) (v : α) (e : E) (hwf : s.Wf) (hl : IsList s this l) (hk : k ≤ l.length)
    (hcp : cp s.env v = (true, e)) (hsz : l.length + 1 < SIZE_MOD) :
    ∃ s1, insert_after cp s this (iterAt this l k) v = .ok ⟨some s.brk⟩ s1 ∧
      IsList s1 this (l.take k ++ (s.brk, v) :: l.drop k) ∧
      s1.brk = s.brk + 1 ∧ s1.env = e ∧ s1.Wf ∧
      ∀ b, b ≠ this → b ∉ addrs l → b ≠ s.brk → s1.mem b = s.mem b := by
  have hlt := hl.lt_brk hwf
  have hnm := hl.this_not_mem
  obtain ⟨L, hm, hch, hsize, hbound⟩ := hl
  have hmod : (l.length + 1) % SIZE_MOD = l.length + 1 := Nat.mod_eq_of_lt hsz
  cases k with
  | zero =>
    have hne : this ≠ s.brk := by omega
    simp [insert_after, iterAt, nextOf, hm, newNode, hcp, State.alloc, setNext, incSize,
      getList, setSize, hne]
    refine ⟨⟨⟨⟨L.head_.value, some s.brk⟩, (L.size_ + 1) % SIZE_MOD⟩, by simp,
      ⟨rfl, L.head_.next_node, by simp [hne.symm], ?_⟩, by simp [hsize, hmod],
      by simpa using hsz⟩, ?_, ?_⟩
    · refine Seg.frame hch (fun a ha => ?_)
      have h0 := hlt.2 a ha
      have h1 : a ≠ this := fun h => hnm (h ▸ ha)
      have h2 : a ≠ s.brk := by omega
      simp [h1, h2]
    · intro a ha
      have h1 : a ≠ this := by simp at ha; omega
      have h2 : a ≠ s.brk := by simp at ha; omega
      simp [h1, h2]
      exact hwf a (by simp at ha; omega)
    · intro b hb _ hb2
      simp [hb, hb2]
  | succ k =>
    have hk1 : k < l.length := hk
    rcases hax : l[k] with ⟨a, x⟩
    have hsplit : l = l.take k ++ [(a, x)] ++ l.drop (k + 1) := by
      rw [← hax]; simp
    have hget : (this :: addrs l)[k + 1]? = some a := by
      simp [addrs, hk1, hax]
    have hch0 := hch
    unfold Chain at hch
    rw [hsplit] at hch
    obtain ⟨r, hs1, hs2⟩ := Seg.split hch
    obtain ⟨q, hs0, hq, nxt, hma, hr⟩ := Seg.split hs1
    have hr : nxt = r := hr
    subst hr
    have hamem : a ∈ addrs l := by
      rw [hsplit]; simp [addrs]
    have halt := hlt.2 a hamem
    have hane : a ≠ this := fun h => hnm (h ▸ hamem)
    have hnd := Chain.nodup hch0
    rw [hsplit] at hnd
    simp [addrs, List.nodup_append] at hnd
    simp [insert_after, iterAt, hget, nextOf, hma, newNode, hcp, State.alloc, setNext, incSize,
      getList, setSize, hm, hane, hane.symm, Nat.ne_of_lt halt, Nat.ne_of_lt hlt.1]
    have htake : l.take (k + 1) = l.take k ++ [(a, x)] := by
      rw [List.take_succ]; simp [hk1, hax]
    have hlen : (l.take (k + 1) ++ (s.brk, v) :: l.drop (k + 1)).length = l.length + 1 := by
      simp; omega
    refine ⟨⟨⟨L.head_, (L.size_ + 1) % SIZE_MOD⟩, by simp, ?_, by rw [hlen]; simp [hsize, hmod],
      by rw [hlen]; exact hsz⟩, ?_, ?_⟩
    · rw [htake]
      refine Seg.append (Seg.setNext_last (some s.brk) hs1 (by simp [hane]) ?_)
        ⟨rfl, nxt, by simp [Nat.ne_of_gt halt, Nat.ne_of_gt hlt.1], ?_⟩
      · intro b hb
        have hbl : b ∈ addrs l := by
          obtain ⟨y, hy, rfl⟩ := List.mem_map.mp hb
          exact List.mem_map.mpr ⟨y, List.mem_of_mem_take hy, rfl⟩
        have h1 : b ≠ this := fun h => hnm (h ▸ hbl)
        have h2 : b ≠ s.brk := Nat.ne_of_lt (hlt.2 b hbl)
        have h3 : b ≠ a := fun h => hnd.2.2.1 (by simpa [addrs, h] using hb)
        simp [h1, h2, h3]
      · refine Seg.frame hs2 (fun b hb => ?_)
        have hbl : b ∈ addrs l := by
          obtain ⟨y, hy, rfl⟩ := List.mem_map.mp hb
          exact List.mem_map.mpr ⟨y, List.mem_of_mem_drop hy, rfl⟩
        have h1 : b ≠ this := fun h => hnm (h ▸ hbl)
        have h2 : b ≠ s.brk := Nat.ne_of_lt (hlt.2 b hbl)
        have h3 : b ≠ a := fun h => hnd.2.1.1 (by simpa [addrs, h] using hb)
        simp [h1, h2, h3]
    · intro b hb
      simp at hb
      have h1 : b ≠ this := by omega
      have h2 : b ≠ s.brk := by omega
      have h3 : b ≠ a := by omega
      simp [h1, h2, h3]
      exact hwf b (by omega)
    · intro b hb hbl hb2
      have hxl : (a, x) ∈ l := by rw [← hax]; apply List.getElem_mem
      have h3 : b ≠ a := fun h => hbl x (by rw [h]; exact hxl)
      simp [hb, hb2, h3]

/-! ## Reading a list through its iterators -/

theorem Seg.head_eq {m : Nat → Option (Cell α)} {l : List (Nat × α)} {p : Ptr}
    (h : Seg m p l none) : p = (addrs l)[0]? := by
  cases l with
  | nil => exact h
  | cons hd tl => obtain ⟨a, x⟩ := hd; simpa [addrs] using h.1

theorem Seg.getElem {m : Nat → Option (Cell α)} {l : List (Nat × α)} {p : Ptr}
    (h : Seg m p l none) {k : Nat} (hk : k < l.length) :
    m (l[k].1) = some (.node ⟨l[k].2, (addrs l)[k + 1]?⟩) := by
  induction l generalizing p k with
  | nil => simp at hk
  | cons hd tl ih =>
    obtain ⟨a, x⟩ := hd
    obtain ⟨_, nxt, hm, hrest⟩ := h
    cases k with
    | zero =>
      have hn := hrest.head_eq
      simp [addrs] at hn ⊢
      rw [hm, hn]
    | succ k =>
      simp at hk
      simpa [addrs] using ih hrest hk

theorem IsList.size_eq {s : State α E} {this : Nat} {l : List (Nat × α)} (h : IsList s this l) :
    size s this = some l.length := by
  obtain ⟨L, hm, _, hsz, _⟩ := h
  simp [size, getList, hm, hsz]

theorem IsList.empty_eq {s : State α E} {this : Nat} {l : List (Nat × α)} (h : IsList s this l) :
    empty s this = some (decide (l.length = 0)) := by
  obtain ⟨L, hm, _, hsz, _⟩ := h
  simp [empty, getList, hm, hsz]

theorem IsList.begin_eq {s : State α E} {this : Nat} {l : List (Nat × α)} (h : IsList s this l) :
    begin s this = some (iterAt this l 1) := by
  obtain ⟨L, hm, hch, _, _⟩ := h
  simp [begin, getList, hm, iterAt, Seg.head_eq hch]

theorem iterAt_zero (this : Nat) (l : List (Nat × α)) : iterAt this l 0 = before_begin this := by
  simp [iterAt, before_begin]

theorem iterAt_end (this : Nat) (l : List (Nat × α)) : iterAt this l (l.length + 1) = end_ := by
  simp [iterAt, end_, addrs]

/-- Advancing the iterator at position `k ≤ n` gives the iterator at position `k + 1`. -/
theorem IsList.inc_eq {s : State α E} {this : Nat} {l : List (Nat × α)} (h : IsList s this l)
    {k : Nat} (hk : k ≤ l.length) :
    BasicIterator.inc s (iterAt this l k) = .ok (iterAt this l (k + 1)) := by
  obtain ⟨L, hm, hch, _, _⟩ := h
  cases k with
  | zero => simp [BasicIterator.inc, iterAt, nextOf, hm, Seg.head_eq hch]
  | succ k =>
    have hk1 : k < l.length := hk
    have hg := Seg.getElem hch hk1
    simp [BasicIterator.inc, iterAt, nextOf, addrs, hk1, hg]

/-- Dereferencing the iterator at the `k`-th node gives the `k`-th value. -/
theorem IsList.deref_eq {s : State α E} {this : Nat} {l : List (Nat × α)} (h : IsList s this l)
    {k : Nat} (hk : k < l.length) :
    BasicIterator.deref s (iterAt this l (k + 1)) = .ok (l[k].2) := by
  obtain ⟨L, hm, hch, _, _⟩ := h
  have hg := Seg.getElem hch hk
  simp [BasicIterator.deref, iterAt, valueOf, addrs, hk, hg]

theorem iterAt_ne_end {this : Nat} {l : List (Nat × α)} {k : Nat}
    (hk : k < l.length) : BasicIterator.ne (iterAt this l (k + 1)) end_ = true := by
  simp [BasicIterator.ne, BasicIterator.eq, iterAt, end_, addrs, hk]

/-- Walking from position `k + 1` to `end()` meets the values from index `k` on. -/
theorem IsList.traverse_from {s : State α E} {this : Nat} {l : List (Nat × α)}
    (h : IsList s this l) (k fuel : Nat) (hk : k ≤ l.length) (hf : l.length - k < fuel) :
    traverse fuel s (iterAt this l (k + 1)) end_ = .ok ((vals l).drop k) := by
  induction fuel generalizing k with
  | zero => omega
  | succ fuel ih =>
    rcases Nat.lt_or_ge k l.length with hlt | hge
    · have hne := @iterAt_ne_end α this l k hlt
      have hrec := ih (k + 1) hlt (by omega)
      have hd : (vals l).drop k = l[k].2 :: (vals l).drop (k + 1) := by
        rw [List.drop_eq_getElem_cons (by simpa [vals] using hlt)]
        simp [vals]
      simp [traverse, hne, h.deref_eq hlt, h.inc_eq hlt, hrec, hd]
    · have hkl : k = l.length := by omega
      subst hkl
      simp [traverse, iterAt_end, BasicIterator.ne, BasicIterator.eq, vals]

theorem IsList.traverse_eq {s : State α E} {this : Nat} {l : List (Nat × α)}
    (h : IsList s this l) (fuel : Nat) (hf : l.length < fuel) :
    traverse fuel s (iterAt this l 1) end_ = .ok (vals l) := by
  simpa using h.traverse_from 0 fuel (Nat.zero_le _) (by omega)

/-! ## The mutating member functions on a well-formed list -/

theorem mem_addrs_take {l : List (Nat × α)} {k b : Nat} (hb : b ∈ addrs (l.take k)) :
    b ∈ addrs l := by
  obtain ⟨y, hy, rfl⟩ := List.mem_map.mp hb
  exact List.mem_map.mpr ⟨y, List.mem_of_mem_take hy, rfl⟩

theorem mem_addrs_drop {l : List (Nat × α)} {k b : Nat} (hb : b ∈ addrs (l.drop k)) :
    b ∈ addrs l := by
  obtain ⟨y, hy, rfl⟩ := List.mem_map.mp hb
  exact List.mem_map.mpr ⟨y, List.mem_of_mem_drop hy, rfl⟩

theorem dec_mod {n : Nat} (h0 : 0 < n) (h : n < SIZE_MOD) :
    (n + SIZE_MOD - 1) % SIZE_MOD = n - 1 := by
  have e : n + SIZE_MOD - 1 = (n - 1) + SIZE_MOD := by omega
  rw [e, Nat.add_mod_right, Nat.mod_eq_of_lt (by omega)]

theorem ne_of_nodup_append {l1 l2 : List Nat} (h : (l1 ++ l2).Nodup) {a b : Nat}
    (ha : a ∈ l1) (hb : b ∈ l2) : a ≠ b :=
  fun e => List.disjoint_of_nodup_append h ha (e ▸ hb)

/-- Erasing the first node. -/
theorem erase_after_front (s : State α E) (this c : Nat) (y : α) (l2 : List (Nat × α))
    (hl : IsList s this ((c, y) :: l2)) :
    ∃ s1, erase_after s this ⟨some this⟩ = .ok ⟨(addrs l2)[0]?⟩ s1 ∧
      IsList s1 this l2 ∧ s1.brk = s.brk ∧ s1.env = s.env ∧ s1.mem c = none ∧
      ∀ b, b ≠ this → b ≠ c → s1.mem b = s.mem b := by
  have hnm := hl.this_not_mem
  obtain ⟨L, hm, hch, hsize, hbound⟩ := hl
  have hnd := Chain.nodup hch
  obtain ⟨hp, nxt, hmc, hrest⟩ := hch
  have hnx := Seg.head_eq hrest
  have hcne : c ≠ this := fun h => hnm (by simp [addrs, h])
  simp only [List.length_cons] at hsize hbound
  have hmod : (l2.length + 1 + SIZE_MOD - 1) % SIZE_MOD = l2.length := dec_mod (by omega) hbound
  rw [← hnx]
  simp [erase_after, nextOf, hm, hp, hmc, setNext, deleteNode, hcne, hcne.symm, decSize,
    getList, setSize]
  refine ⟨⟨⟨⟨L.head_.value, nxt⟩, (L.size_ + SIZE_MOD - 1) % SIZE_MOD⟩, by simp, ?_,
    by show (L.size_ + SIZE_MOD - 1) % SIZE_MOD = _; rw [hsize, hmod], by omega⟩, ?_⟩
  · refine Seg.frame hrest (fun b hb => ?_)
    have h1 : b ≠ this := fun h => hnm (by simp [addrs, ← h] at hb ⊢; exact Or.inr hb)
    have h2 : b ≠ c := by
      intro h
      simp [addrs] at hnd hb
      obtain ⟨z, hz⟩ := hb
      exact hnd.1 z (h ▸ hz)
    simp [h1, h2]
  · intro b hb hbc
    simp [hb, hbc]

/-- Erasing the node after the node `a`. -/
theorem erase_after_mid (s : State α E) (this a c : Nat) (x y : α) (l1 l2 : List (Nat × α))
    (hl : IsList s this (l1 ++ (a, x) :: (c, y) :: l2)) :
    ∃ s1, erase_after s this ⟨some a⟩ = .ok ⟨(addrs l2)[0]?⟩ s1 ∧
      IsList s1 this (l1 ++ (a, x) :: l2) ∧ s1.brk = s.brk ∧ s1.env = s.env ∧
      s1.mem c = none ∧ ∀ b, b ≠ this → b ≠ a → b ≠ c → s1.mem b = s.mem b := by
  have hnm := hl.this_not_mem
  obtain ⟨L, hm, hch, hsize, hbound⟩ := hl
  have hnd := Chain.nodup hch
  obtain ⟨q, hs1, hq, r, hma, hc, nxt, hmc, hrest⟩ := Seg.split hch
  subst hc
  have hnx := Seg.head_eq hrest
  have hane : a ≠ this := fun h => hnm (by simp [addrs, h])
  have hcne : c ≠ this := fun h => hnm (by simp [addrs, h])
  have hndl : (addrs l1 ++ a :: c :: addrs l2).Nodup := by simpa [addrs] using hnd
  have hac : a ≠ c := by
    have := (List.nodup_append.mp hndl).2.1
    simp at this
    exact this.1.1
  simp only [List.length_append, List.length_cons] at hsize hbound
  have hmod : (l1.length + (l2.length + 1 + 1) + SIZE_MOD - 1) % SIZE_MOD
      = l1.length + (l2.length + 1) := dec_mod (by omega) hbound
  rw [← hnx]
  simp [erase_after, nextOf, hm, hma, hmc, setNext, deleteNode, hcne, hcne.symm, hane, hane.symm,
    hac, hac.symm, decSize, getList, setSize]
  refine ⟨⟨⟨L.head_, (L.size_ + SIZE_MOD - 1) % SIZE_MOD⟩, by simp, ?_,
    by show (L.size_ + SIZE_MOD - 1) % SIZE_MOD = _; rw [hsize, hmod]; simp,
    by simp; omega⟩, ?_⟩
  · refine Seg.append (Seg.frame hs1 (fun b hb => ?_))
      (show Seg _ q ((a, x) :: l2) none from
        ⟨hq, nxt, by simp [hane, hac], Seg.frame hrest (fun b hb => ?_)⟩)
    · have h1 : b ≠ this := fun h => hnm (by simp [addrs, ← h] at hb ⊢; exact Or.inl hb)
      have h2 : b ≠ a := ne_of_nodup_append hndl hb (by simp)
      have h3 : b ≠ c := ne_of_nodup_append hndl hb (by simp)
      simp [h1, h2, h3]
    · have h1 : b ≠ this := fun h => hnm (by simp [addrs, ← h] at hb ⊢; exact Or.inr (Or.inr (Or.inr hb)))
      have hndl2 : ((addrs l1 ++ [a, c]) ++ addrs l2).Nodup := by simpa using hndl
      have h2 : b ≠ a := (ne_of_nodup_append hndl2 (by simp) hb).symm
      have h3 : b ≠ c := (ne_of_nodup_append hndl2 (by simp) hb).symm
      simp [h1, h2, h3]
  · intro b hb hba hbc
    simp [hb, hba, hbc]

theorem erase_after_ok (s : State α E) (this : Nat) (l : List (Nat × α)) (k : Nat)
    (hl : IsList s this l) (hk : k < l.length) :
    ∃ s1, erase_after s this (iterAt this l k) = .ok (iterAt this l (k + 2)) s1 ∧
      IsList s1 this (l.take k ++ l.drop (k + 1)) ∧
      s1.brk = s.brk ∧ s1.env = s.env ∧ s1.mem (l[k].1) = none ∧
      ∀ b, b ≠ this → b ∉ addrs l → s1.mem b = s.mem b := by
  cases k with
  | zero =>
    cases l with
    | nil => simp at hk
    | cons hd l2 =>
      obtain ⟨c, y⟩ := hd
      obtain ⟨s1, h1, h2, h3, h4, h5, h6⟩ := erase_after_front s this c y l2 hl
      refine ⟨s1, ?_, by simpa using h2, h3, h4, by simpa using h5, fun b hb hbl => ?_⟩
      · simpa [iterAt, addrs] using h1
      · exact h6 b hb (fun h => hbl (by simp [addrs, h]))
  | succ k =>
    have hk1 : k < l.length := by omega
    have hsplit : l = l.take k ++ l[k] :: l[k + 1] :: l.drop (k + 2) := by
      simp
    obtain ⟨l1, hl1⟩ : ∃ l1, l.take k = l1 := ⟨_, rfl⟩
    obtain ⟨l2, hl2⟩ : ∃ l2, l.drop (k + 2) = l2 := ⟨_, rfl⟩
    rw [hl1, hl2] at hsplit
    rcases hax : l[k] with ⟨a, x⟩
    rcases hcy : l[k + 1] with ⟨c, y⟩
    rw [hax, hcy] at hsplit
    have hlen1 : l1.length = k := by rw [← hl1]; simp; omega
    have hl0 := hl
    rw [hsplit] at hl0
    obtain ⟨s1, h1, h2, h3, h4, h5, h6⟩ := erase_after_mid s this a c x y l1 l2 hl0
    have hit0 : iterAt this l (k + 1) = ⟨some a⟩ := by
      simp [iterAt, addrs, hk1, hax]
    have hit2 : iterAt this l (k + 1 + 2) = ⟨(addrs l2)[0]?⟩ := by
      simp [iterAt, addrs, ← hl2]
    have htd : l.take (k + 1) ++ l.drop (k + 1 + 1) = l1 ++ (a, x) :: l2 := by
      rw [List.take_succ, hl1, hl2]; simp [hk1, hax]
    refine ⟨s1, by rw [hit0, hit2]; exact h1, by rw [htd]; exact h2, h3, h4, h5, fun b hb hbl => ?_⟩
    refine h6 b hb (fun h => hbl ?_) (fun h => hbl ?_)
    · rw [hsplit]; simp [addrs, h]
    · rw [hsplit]; simp [addrs, h]

theorem IsList.transport {s s1 : State α E} {this : Nat} {l : List (Nat × α)} (h : IsList s this l)
    (hthis : s1.mem this = s.mem this) (hfr : ∀ b ∈ addrs l, s1.mem b = s.mem b) :
    IsList s1 this l := by
  obtain ⟨L, hm, hch, hsz, hb⟩ := h
  exact ⟨L, by rw [hthis, hm], Seg.frame hch hfr, hsz, hb⟩

/-- `push_front` does to the state what `insert_after` at `before_begin()` does. -/
theorem push_front_eq_insert_after (cp : CopyCtor α E) (s : State α E) (this : Nat) (v : α)
    (L : SingleLinkedList α) (hm : s.mem this = some (.list L)) :
    push_front cp s this v =
      match insert_after cp s this (before_begin this) v with
      | .ok _ s1 => .ok () s1
      | .throw s1 => .throw s1
      | .fault f => .fault f := by
  simp only [push_front, insert_after, before_begin, getList, nextOf, hm, newNode]
  rcases hcp : cp s.env v with ⟨ok, e⟩
  cases ok with
  | false => simp
  | true =>
    by_cases hb : this = s.brk
    · simp [State.alloc, setNext, incSize, getList, setSize, hb]
    · simp [State.alloc, setNext, incSize, getList, setSize, hb, hm, nextOf]

theorem push_front_ok (cp : CopyCtor α E) (s : State α E) (this : Nat) (l : List (Nat × α))
    (v : α) (e : E) (hwf : s.Wf) (hl : IsList s this l)
    (hcp : cp s.env v = (true, e)) (hsz : l.length + 1 < SIZE_MOD) :
    ∃ s1, push_front cp s this v = .ok () s1 ∧ IsList s1 this ((s.brk, v) :: l) ∧
      s1.brk = s.brk + 1 ∧ s1.env = e ∧ s1.Wf ∧
      ∀ b, b ≠ this → b ∉ addrs l → b ≠ s.brk → s1.mem b = s.mem b := by
  obtain ⟨s1, h1, h2, h3⟩ := insert_after_ok cp s this l 0 v e hwf hl (Nat.zero_le _) hcp hsz
  obtain ⟨L, hm, _⟩ := hl
  refine ⟨s1, ?_, by simpa using h2, h3⟩
  rw [push_front_eq_insert_after cp s this v L hm, ← iterAt_zero this l, h1]

theorem pop_front_ok (s : State α E) (this c : Nat) (y : α) (l2 : List (Nat × α))
    (hl : IsList s this ((c, y) :: l2)) :
    ∃ s1, pop_front s this = .ok () s1 ∧ IsList s1 this l2 ∧ s1.brk = s.brk ∧ s1.env = s.env ∧
      s1.mem c = none ∧ ∀ b, b ≠ this → b ≠ c → s1.mem b = s.mem b := by
  obtain ⟨s1, h1, h2⟩ := erase_after_front s this c y l2 hl
  obtain ⟨L, hm, hch, _⟩ := hl
  refine ⟨s1, ?_, h2⟩
  have hp : L.head_.next_node = some c := hch.1
  simp [pop_front, getList, hm, hp, before_begin, h1]

/-- One round of the loop of `clear` is `erase_after(before_begin())`. -/
theorem clear_step (fuel : Nat) (s s1 : State α E) (this : Nat) (L : SingleLinkedList α)
    (c : Nat) (it : BasicIterator) (hm : s.mem this = some (.list L))
    (hp : L.head_.next_node = some c)
    (he : erase_after s this ⟨some this⟩ = .ok it s1) :
    clear (fuel + 1) s this = clear fuel s1 this := by
  simp only [erase_after, nextOf, hm, hp] at he
  simp only [clear, getList, hm, hp]
  cases hn : nextOf s c with
  | none =>
    simp only [nextOf] at hn
    simp [hn] at he
  | some nxt =>
    simp only [nextOf] at hn
    rw [hn] at he
    simp only at he ⊢
    cases hd : deleteNode (setNext s this nxt) c with
    | none => simp [hd] at he
    | some s2 =>
      simp only [hd] at he ⊢
      cases hs : decSize s2 this with
      | none => simp [hs] at he
      | some s3 =>
        simp only [hs] at he ⊢
        split at he
        · cases he; rfl
        · cases he

theorem clear_ok (fuel : Nat) (s : State α E) (this : Nat) (l : List (Nat × α))
    (hl : IsList s this l) (hf : l.length < fuel) :
    ∃ s1, clear fuel s this = .ok s1 ∧ IsList s1 this [] ∧ s1.brk = s.brk ∧ s1.env = s.env ∧
      (∀ b ∈ addrs l, s1.mem b = none) ∧ ∀ b, b ≠ this → b ∉ addrs l → s1.mem b = s.mem b := by
  induction l generalizing s fuel with
  | nil =>
    cases fuel with
    | zero => simp at hf
    | succ fuel =>
      obtain ⟨L, hm, hch, hsz, hb⟩ := hl
      have hp : L.head_.next_node = none := hch
      exact ⟨s, by simp [clear, getList, hm, hp], ⟨L, hm, hch, hsz, hb⟩, rfl, rfl, by simp [addrs],
        fun _ _ _ => rfl⟩
  | cons hd tl ih =>
    obtain ⟨c, y⟩ := hd
    cases fuel with
    | zero => simp at hf
    | succ fuel =>
      obtain ⟨s1, h1, h2, h3, h4, h5, h6⟩ := erase_after_front s this c y tl hl
      have hnm := hl.this_not_mem
      obtain ⟨L, hm, hch, _⟩ := hl
      have hnd := Chain.nodup hch
      have hp : L.head_.next_node = some c := hch.1
      obtain ⟨s2, g1, g2, g3, g4, g5, g6⟩ := ih fuel s1 h2 (by simpa using hf)
      refine ⟨s2, by rw [clear_step fuel s s1 this L c _ hm hp h1, g1], g2, by rw [g3, h3],
        by rw [g4, h4], ?_, ?_⟩
      · intro b hb
        simp only [addrs, List.map_cons, List.mem_cons] at hb
        rcases hb with rfl | hb
        · have hbt : b ∉ addrs tl := by
            simp only [addrs, List.map_cons, List.nodup_cons] at hnd
            exact hnd.1
          rw [g6 b (fun h => hnm (by simp [addrs, h])) hbt, h5]
        · exact g5 b hb
      · intro b hb hbl
        simp only [addrs, List.map_cons, List.mem_cons, not_or] at hbl
        rw [g6 b hb hbl.2, h6 b hb hbl.1]

theorem destroy_ok (fuel : Nat) (s : State α E) (this : Nat) (l : List (Nat × α))
    (hl : IsList s this l) (hf : l.length < fuel) :
    ∃ s1, destroy fuel s this = .ok s1 ∧ s1.brk = s.brk ∧ s1.env = s.env ∧
      s1.mem this = none ∧ (∀ b ∈ addrs l, s1.mem b = none) ∧
      ∀ b, b ≠ this → b ∉ addrs l → s1.mem b = s.mem b := by
  obtain ⟨s1, h1, h2, h3, h4, h5, h6⟩ := clear_ok fuel s this l hl hf
  have hnm := hl.this_not_mem
  refine ⟨s1.free this, by simp [destroy, h1], h3, h4, by simp, fun b hb => ?_, fun b hb hbl => ?_⟩
  · have : b ≠ this := fun h => hnm (h ▸ hb)
    simp [this, h5 b hb]
  · simp [hb, h6 b hb hbl]

theorem swap_ok (s : State α E) (a b : Nat) (la lb : List (Nat × α))
    (ha : IsList s a la) (hb : IsList s b lb) :
    ∃ s1, swap s a b = some s1 ∧ IsList s1 a lb ∧ IsList s1 b la ∧ s1.brk = s.brk ∧
      s1.env = s.env ∧ ∀ c, c ≠ a → c ≠ b → s1.mem c = s.mem c := by
  have hna := ha.this_not_mem
  have hnb := hb.this_not_mem
  obtain ⟨A, hma, hca, hsa, hba⟩ := ha
  obtain ⟨B, hmb, hcb, hsb, hbb⟩ := hb
  have hab : a ∉ addrs lb := fun h => by
    obtain ⟨n, hn⟩ := hcb.node_of_mem h
    rw [hma] at hn; cases hn
  have hba2 : b ∉ addrs la := fun h => by
    obtain ⟨n, hn⟩ := hca.node_of_mem h
    rw [hmb] at hn; cases hn
  by_cases hab0 : a = b
  · subst hab0
    rw [hma] at hmb
    cases hmb
    have hll := Chain.functional hca hcb
    subst hll
    simp only [swap, getList, hma, setNext, setSize, State.write_mem, if_true, Option.some.injEq,
      exists_eq_left']
    refine ⟨?_, ?_, rfl, rfl, ?_⟩
    · exact ⟨A, by simp, Seg.frame hca (fun c hc => by
        have : c ≠ a := fun h => hna (h ▸ hc)
        simp [this]), hsa, hba⟩
    · exact ⟨A, by simp, Seg.frame hca (fun c hc => by
        have : c ≠ a := fun h => hna (h ▸ hc)
        simp [this]), hsa, hba⟩
    · intro c hc _
      simp [hc]
  · have hba0 : b ≠ a := fun h => hab0 h.symm
    simp only [swap, getList, hma, hmb, setNext, setSize, State.write_mem, if_true, if_false, hab0,
      hba0, Option.some.injEq, exists_eq_left']
    refine ⟨?_, ?_, rfl, rfl, ?_⟩
    · exact ⟨⟨⟨A.head_.value, B.head_.next_node⟩, B.size_⟩, by simp [hab0],
        Seg.frame hcb (fun c hc => by
          have h1 : c ≠ a := fun h => hab (h ▸ hc)
          have h2 : c ≠ b := fun h => hnb (h ▸ hc)
          simp [h1, h2]), hsb, hbb⟩
    · exact ⟨⟨⟨B.head_.value, A.head_.next_node⟩, A.size_⟩, by simp [hab0],
        Seg.frame hca (fun c hc => by
          have h1 : c ≠ a := fun h => hna (h ▸ hc)
          have h2 : c ≠ b := fun h => hba2 (h ▸ hc)
          simp [h1, h2]), hsa, hba⟩
    · intro c hc1 hc2
      simp [hc1, hc2]

/-! ## Comparison operators -/

theorem iterAt_succ_eq_end {this : Nat} {l : List (Nat × α)} {k : Nat} (hk : l.length ≤ k) :
    iterAt this l (k + 1) = end_ := by
  simp [iterAt, end_, addrs, hk]

theorem vals_drop_cons {l : List (Nat × α)} {k : Nat} (hk : k < l.length) :
    (vals l).drop k = l[k].2 :: (vals l).drop (k + 1) := by
  rw [List.drop_eq_getElem_cons (by simpa [vals] using hk)]
  simp [vals]

theorem vals_drop_nil {l : List (Nat × α)} {k : Nat} (hk : l.length ≤ k) :
    (vals l).drop k = [] := by
  simp [vals, hk]

theorem std_equal_from (eq : α → α → Bool) {s : State α E} {a b : Nat} {la lb : List (Nat × α)}
    (ha : IsList s a la) (hb : IsList s b lb) (hlen : la.length = lb.length)
    (k fuel : Nat) (hk : k ≤ la.length) (hf : la.length - k < fuel) :
    std_equal eq fuel s (iterAt a la (k + 1)) end_ (iterAt b lb (k + 1))
      = .ok (listEq eq ((vals la).drop k) ((vals lb).drop k)) := by
  induction fuel generalizing k with
  | zero => omega
  | succ fuel ih =>
    rcases Nat.lt_or_ge k la.length with hlt | hge
    · have hlt2 : k < lb.length := by omega
      have hrec := ih (k + 1) hlt (by omega)
      rw [vals_drop_cons hlt, vals_drop_cons hlt2]
      simp only [std_equal, iterAt_ne_end hlt, if_true, ha.deref_eq hlt, hb.deref_eq hlt2,
        ha.inc_eq hlt, hb.inc_eq hlt2, hrec, listEq]
      cases eq la[k].2 lb[k].2 <;>
        simp [hb.inc_eq hlt2, ha.inc_eq hlt, hrec]
    · rw [vals_drop_nil hge, vals_drop_nil (by omega : lb.length ≤ k), iterAt_succ_eq_end hge]
      simp [std_equal, BasicIterator.ne, BasicIterator.eq, listEq]

theorem listEq_length {eq : α → α → Bool} {xs ys : List α} (h : listEq eq xs ys = true) :
    xs.length = ys.length := by
  induction xs generalizing ys with
  | nil => cases ys <;> simp_all [listEq]
  | cons x xs ih =>
    cases ys with
    | nil => simp [listEq] at h
    | cons y ys =>
      simp [listEq] at h
      simp [ih h.2]

theorem listEq_iff (eq : α → α → Bool) (xs ys : List α) :
    listEq eq xs ys = true ↔ List.Forall₂ (fun x y => eq x y = true) xs ys := by
  induction xs generalizing ys with
  | nil => cases ys <;> simp [listEq]
  | cons x xs ih =>
    cases ys with
    | nil => simp [listEq]
    | cons y ys => simp [listEq, ih]

theorem listEq_refl {eq : α → α → Bool} (hrefl : ∀ x, eq x x = true) (xs : List α) :
    listEq eq xs xs = true := by
  induction xs with
  | nil => rfl
  | cons x xs ih => simp [listEq, hrefl, ih]

/-- On two distinct list objects `operator==` computes `listEq` of the values. -/
theorem operator_eq_ok (eq : α → α → Bool) {s : State α E} {a b : Nat} {la lb : List (Nat × α)}
    (ha : IsList s a la) (hb : IsList s b lb) (hab : a ≠ b) (fuel : Nat) (hf : la.length < fuel) :
    operator_eq eq fuel s a b = .ok (listEq eq (vals la) (vals lb)) := by
  simp only [operator_eq, hab, if_false, ha.size_eq, hb.size_eq, ha.begin_eq, hb.begin_eq]
  by_cases hlen : la.length = lb.length
  · simpa [hlen] using std_equal_from eq ha hb hlen 0 fuel (Nat.zero_le _) (by omega)
  · simp only [hlen, if_false]
    cases h : listEq eq (vals la) (vals lb) with
    | false => rfl
    | true => exact absurd (by simpa [vals] using listEq_length h) hlen

theorem std_lexicographical_compare_from (lt : α → α → Bool) {s : State α E} {a b : Nat}
    {la lb : List (Nat × α)} (ha : IsList s a la) (hb : IsList s b lb)
    (k fuel : Nat) (hk : k ≤ la.length) (hf : la.length - k < fuel) :
    std_lexicographical_compare lt fuel s (iterAt a la (k + 1)) end_ (iterAt b lb (k + 1)) end_
      = .ok (lexLt lt ((vals la).drop k) ((vals lb).drop k)) := by
  induction fuel generalizing k with
  | zero => omega
  | succ fuel ih =>
    rcases Nat.lt_or_ge k la.length with hlt | hge
    · rcases Nat.lt_or_ge k lb.length with hlt2 | hge2
      · have hrec := ih (k + 1) hlt (by omega)
        rw [vals_drop_cons hlt, vals_drop_cons hlt2]
        simp only [std_lexicographical_compare, iterAt_ne_end hlt, iterAt_ne_end hlt2, Bool.and_self,
          if_true, ha.deref_eq hlt, hb.deref_eq hlt2, ha.inc_eq hlt, hb.inc_eq hlt2,
          hrec, lexLt]
        cases lt la[k].2 lb[k].2 <;> cases lt lb[k].2 la[k].2 <;>
          simp [hb.inc_eq hlt2, ha.inc_eq hlt, hrec]
      · rw [vals_drop_cons hlt, vals_drop_nil hge2, iterAt_succ_eq_end hge2]
        simp [std_lexicographical_compare, iterAt_ne_end hlt, BasicIterator.ne, BasicIterator.eq,
          lexLt, iterAt, end_, addrs, hlt]
    · rw [vals_drop_nil hge, iterAt_succ_eq_end hge]
      rcases Nat.lt_or_ge k lb.length with hlt2 | hge2
      · rw [vals_drop_cons hlt2]
        simp [std_lexicographical_compare, BasicIterator.ne, BasicIterator.eq,
          lexLt, iterAt, end_, addrs, hlt2]
      · rw [vals_drop_nil hge2, iterAt_succ_eq_end hge2]
        simp [std_lexicographical_compare, BasicIterator.ne, BasicIterator.eq, lexLt]

theorem operator_lt_ok (lt : α → α → Bool) {s : State α E} {a b : Nat} {la lb : List (Nat × α)}
    (ha : IsList s a la) (hb : IsList s b lb) (fuel : Nat) (hf : la.length < fuel) :
    operator_lt lt fuel s a b = .ok (lexLt lt (vals la) (vals lb)) := by
  simp only [operator_lt, ha.begin_eq, hb.begin_eq]
  simpa using std_lexicographical_compare_from lt ha hb 0 fuel (Nat.zero_le _) (by omega)

/-- `lexLt` in words: the first position where the two sequences are not equivalent
has the smaller element on the left, or the left sequence runs out first with all
its positions equivalent. -/
theorem lexLt_iff (lt : α → α → Bool) (A B : List α) :
    lexLt lt A B = true ↔
      (∃ (i : Nat) (x y : α), A[i]? = some x ∧ B[i]? = some y ∧ lt x y = true ∧
        ∀ (j : Nat), j < i → ∀ (u v : α), A[j]? = some u → B[j]? = some v → lt u v = false ∧ lt v u = false) ∨
      (A.length < B.length ∧
        ∀ (j : Nat) (u v : α), A[j]? = some u → B[j]? = some v → lt u v = false ∧ lt v u = false) := by
  induction A generalizing B with
  | nil =>
    cases B with
    | nil => simp [lexLt]
    | cons y ys => simp [lexLt]
  | cons x xs ih =>
    cases B with
    | nil => simp [lexLt]
    | cons y ys =>
      simp only [lexLt]
      by_cases hxy : lt x y = true
      · simp only [hxy, if_true, true_iff]
        exact Or.inl ⟨0, x, y, by simp, by simp, hxy, fun j hj => absurd hj (Nat.not_lt_zero _)⟩
      · have hxy0 : lt x y = false := by simpa using hxy
        by_cases hyx : lt y x = true
        · simp only [hxy0, hyx, if_true, Bool.false_eq_true, if_false, false_iff]
          rintro (⟨i, u, v, hu, hv, huv, hall⟩ | ⟨_, hall⟩)
          · cases i with
            | zero =>
              simp at hu hv
              subst hu hv
              rw [hxy0] at huv
              cases huv
            | succ i =>
              have := (hall 0 (Nat.succ_pos _) x y (by simp) (by simp)).2
              rw [hyx] at this
              cases this
          · have := (hall 0 x y (by simp) (by simp)).2
            rw [hyx] at this
            cases this
        · have hyx0 : lt y x = false := by simpa using hyx
          simp only [hxy0, hyx0, Bool.false_eq_true, if_false, ih ys]
          constructor
          · rintro (⟨i, u, v, hu, hv, huv, hall⟩ | ⟨hlen, hall⟩)
            · refine Or.inl ⟨i + 1, u, v, by simpa using hu, by simpa using hv, huv, ?_⟩
              intro j hj a b ha hb
              cases j with
              | zero =>
                simp at ha hb
                subst ha hb
                exact ⟨hxy0, hyx0⟩
              | succ j =>
                exact hall j (by omega) a b (by simpa using ha) (by simpa using hb)
            · refine Or.inr ⟨by simpa using hlen, ?_⟩
              intro j a b ha hb
              cases j with
              | zero =>
                simp at ha hb
                subst ha hb
                exact ⟨hxy0, hyx0⟩
              | succ j => exact hall j a b (by simpa using ha) (by simpa using hb)
          · rintro (⟨i, u, v, hu, hv, huv, hall⟩ | ⟨hlen, hall⟩)
            · cases i with
              | zero =>
                simp at hu hv
                subst hu hv
                rw [hxy0] at huv
                cases huv
              | succ i =>
                refine Or.inl ⟨i, u, v, by simpa using hu, by simpa using hv, huv, ?_⟩
                intro j hj a b ha hb
                exact hall (j + 1) (by omega) a b (by simpa using ha) (by simpa using hb)
            · refine Or.inr ⟨by simpa using hlen, ?_⟩
              intro j a b ha hb
              exact hall (j + 1) a b (by simpa using ha) (by simpa using hb)

theorem lex_trichotomy (eq lt : α → α → Bool)
    (hasym : ∀ x y, lt x y = true → lt y x = false)
    (hcons : ∀ x y, eq x y = true ↔ (lt x y = false ∧ lt y x = false)) (A B : List α) :
    ExactlyOne (lexLt lt A B) (listEq eq A B) (lexLt lt B A) := by
  induction A generalizing B with
  | nil =>
    cases B with
    | nil => simp [ExactlyOne, lexLt, listEq]
    | cons y ys => simp [ExactlyOne, lexLt, listEq]
  | cons x xs ih =>
    cases B with
    | nil => simp [ExactlyOne, lexLt, listEq]
    | cons y ys =>
      have ih1 := ih ys
      simp only [lexLt, listEq]
      by_cases hxy : lt x y = true
      · have hyx := hasym x y hxy
        have he : eq x y = false := by
          cases h : eq x y with
          | false => rfl
          | true => rw [((hcons x y).mp h).1] at hxy; cases hxy
        simp [ExactlyOne, hxy, hyx, he]
      · have hxy0 : lt x y = false := by simpa using hxy
        by_cases hyx : lt y x = true
        · have he : eq x y = false := by
            cases h : eq x y with
            | false => rfl
            | true => rw [((hcons x y).mp h).2] at hyx; cases hyx
          simp [ExactlyOne, hxy0, hyx, he]
        · have hyx0 : lt y x = false := by simpa using hyx
          have he : eq x y = true := (hcons x y).mpr ⟨hxy0, hyx0⟩
          simpa [ExactlyOne, hxy0, hyx0, he] using ih1

theorem lexLt_irrefl {lt : α → α → Bool} (hasym : ∀ x y, lt x y = true → lt y x = false)
    (A : List α) : lexLt lt A A = false := by
  have hirr : ∀ x, lt x x = false := fun x => by
    cases h : lt x x with
    | false => rfl
    | true => rw [hasym x x h] at h; cases h
  induction A with
  | nil => rfl
  | cons x xs ih => simp [lexLt, hirr, ih]

/-! ## Building a list: `assign`, the constructors, `operator=` -/

theorem insert_after_throw (cp : CopyCtor α E) (s : State α E) (this : Nat) (l : List (Nat × α))
    (k : Nat) (v : α) (e : E) (hl : IsList s this l) (hk : k ≤ l.length)
    (hcp : cp s.env v = (false, e)) :
    insert_after cp s this (iterAt this l k) v = .throw { s with env := e } := by
  cases k with
  | zero =>
    obtain ⟨L, hm, _⟩ := hl
    simp [insert_after, iterAt, nextOf, hm, newNode, hcp]
  | succ k =>
    have hk1 : k < l.length := hk
    obtain ⟨L, hm, hch, _⟩ := hl
    have hg := Seg.getElem hch hk1
    simp [insert_after, iterAt, addrs, hk1, nextOf, hg, newNode, hcp]

theorem iterAt_last_append (tmp : Nat) (acc : List (Nat × α)) (a : Nat) (v : α) :
    iterAt tmp (acc ++ [(a, v)]) (acc ++ [(a, v)]).length = ⟨some a⟩ := by
  simp [iterAt, addrs]

theorem assignLoop_spec {I : Type} (cp : CopyCtor α E) (it : InputIterator α E I)
    (m0 : Nat → Option (Cell α)) (tmp : Nat) (pos : Nat → I) (xs : List α)
    (hsrc : ReadsRange it m0 tmp pos xs) (fuel j : Nat) (s : State α E) (acc : List (Nat × α))
    (hj : j ≤ xs.length) (hf : xs.length - j < fuel) (hinv : TmpInv m0 tmp s acc)
    (hsz : acc.length + (xs.length - j) < SIZE_MOD) :
    ∃ s1 acc1, TmpInv m0 tmp s1 acc1 ∧ acc1.length ≤ acc.length + (xs.length - j) ∧
      ((copyAll cp s.env (xs.drop j) = some s1.env ∧
          assignLoop cp it fuel s tmp (iterAt tmp acc acc.length) (pos j) (pos xs.length)
            = .ok () s1 ∧ vals acc1 = vals acc ++ xs.drop j) ∨
        (copyAll cp s.env (xs.drop j) = none ∧
          assignLoop cp it fuel s tmp (iterAt tmp acc acc.length) (pos j) (pos xs.length)
            = .throw s1)) := by
  induction fuel generalizing j s acc with
  | zero => omega
  | succ fuel ih =>
    rcases Nat.lt_or_ge j xs.length with hlt | hge
    · obtain ⟨hl, hwf, hbrk, habove, hold, hnone⟩ := hinv
      have hx : xs[j]? = some xs[j] := by simp [hlt]
      have hdrop : xs.drop j = xs[j] :: xs.drop (j + 1) := List.drop_eq_getElem_cons hlt
      rw [hdrop]
      simp only [assignLoop, hsrc.ne_lt j hlt, if_true, hsrc.deref s hold j _ hx, copyAll]
      rcases hcp : cp s.env xs[j] with ⟨ok, e1⟩
      cases ok with
      | false =>
        refine ⟨{ s with env := e1 }, acc, ⟨?_, hwf, hbrk, habove, hold, hnone⟩, by omega,
          Or.inr ⟨rfl, ?_⟩⟩
        · exact hl.transport rfl (fun _ _ => rfl)
        · rw [insert_after_throw cp s tmp acc acc.length _ e1 hl (Nat.le_refl _) hcp]
      | true =>
        obtain ⟨s1, h1, h2, h3, h4, h5, h6⟩ :=
          insert_after_ok cp s tmp acc acc.length _ e1 hwf hl (Nat.le_refl _) hcp (by omega)
        have hacc : acc.take acc.length ++ (s.brk, xs[j]) :: acc.drop acc.length
            = acc ++ [(s.brk, xs[j])] := by simp
        rw [hacc] at h2
        have hinv1 : TmpInv m0 tmp s1 (acc ++ [(s.brk, xs[j])]) := by
          refine ⟨h2, h5, by omega, ?_, ?_, ?_⟩
          · intro b hb
            simp only [addrs, List.map_append, List.map_cons, List.map_nil, List.mem_append,
              List.mem_singleton] at hb
            rcases hb with hb | rfl
            · exact habove b hb
            · exact hbrk
          · intro b hb
            rw [h6 b (by omega) (fun hm => by have := habove b hm; omega) (by omega)]
            exact hold b hb
          · intro b hb hbn
            simp only [addrs, List.map_append, List.map_cons, List.map_nil, List.mem_append,
              List.mem_singleton, not_or] at hbn
            rw [h6 b (by omega) hbn.1 hbn.2]
            exact hnone b hb hbn.1
        obtain ⟨s2, acc2, g1, g2, g3⟩ := ih (j + 1) s1 (acc ++ [(s.brk, xs[j])]) hlt (by omega)
          hinv1 (by simp; omega)
        refine ⟨s2, acc2, g1, by simp at g2; omega, ?_⟩
        have hit : iterAt tmp (acc ++ [(s.brk, xs[j])]) (acc ++ [(s.brk, xs[j])]).length
            = ⟨some s.brk⟩ := iterAt_last_append tmp acc s.brk xs[j]
        rw [hit, h4] at g3
        simp only [h1, hsrc.inc s1 hinv1.2.2.2.2.1 j hlt]
        rcases g3 with ⟨g3a, g3b, g3c⟩ | ⟨g3a, g3b⟩
        · exact Or.inl ⟨g3a, g3b, by simp [g3c, vals]⟩
        · exact Or.inr ⟨g3a, g3b⟩
    · have hjn : j = xs.length := by omega
      subst hjn
      refine ⟨s, acc, hinv, by omega, Or.inl ⟨by simp [copyAll], ?_, by simp⟩⟩
      simp [assignLoop, hsrc.ne_end]

theorem ctor_spec [Inhabited α] (s : State α E) (hwf : s.Wf) :
    (SingleLinkedList.ctor s).1 = s.brk ∧ TmpInv s.mem s.brk (SingleLinkedList.ctor s).2 [] ∧
      (SingleLinkedList.ctor s).2.env = s.env ∧ (SingleLinkedList.ctor s).2.brk = s.brk + 1 := by
  refine ⟨rfl, ⟨⟨⟨⟨default, none⟩, 0⟩, by simp [SingleLinkedList.ctor, State.alloc], rfl, rfl,
    by simp⟩, ?_, by simp [SingleLinkedList.ctor, State.alloc], by simp [addrs], ?_, ?_⟩, rfl, rfl⟩
  · intro b hb
    simp only [SingleLinkedList.ctor, State.alloc] at hb ⊢
    have : b ≠ s.brk := by omega
    simp [this, hwf b (by omega)]
  · intro b hb
    have : b ≠ s.brk := by omega
    simp [SingleLinkedList.ctor, State.alloc, this]
  · intro b hb _
    have : b ≠ s.brk := by omega
    simp [SingleLinkedList.ctor, State.alloc, this, hwf b (by omega)]

theorem assign_spec [Inhabited α] {I : Type} (cp : CopyCtor α E) (it : InputIterator α E I)
    (pos : Nat → I) (xs : List α) (fuel : Nat) (s : State α E) (this : Nat)
    (lD : List (Nat × α)) (hwf : s.Wf) (hl : IsList s this lD)
    (hsrc : ReadsRange it s.mem s.brk pos xs) (hxs : xs.length < SIZE_MOD)
    (hf1 : xs.length < fuel) (hf2 : lD.length < fuel) :
    ∃ s1, s1.Wf ∧ s.brk ≤ s1.brk ∧
      ((∃ l1, copyAll cp s.env xs = some s1.env ∧
          assign cp it fuel s this (pos 0) (pos xs.length) = .ok () s1 ∧
          IsList s1 this l1 ∧ vals l1 = xs ∧ (∀ b ∈ addrs l1, s.brk < b) ∧
          (∀ b ∈ addrs lD, s1.mem b = none) ∧
          ∀ b, b ≠ this → b ∉ addrs lD → b ∉ addrs l1 → s1.mem b = s.mem b) ∨
        (copyAll cp s.env xs = none ∧
          assign cp it fuel s this (pos 0) (pos xs.length) = .throw s1 ∧
          ∀ b, s1.mem b = s.mem b)) := by
  obtain ⟨htmp, hinv0, henv0, hbrk0⟩ := ctor_spec s hwf
  have hlt := hl.lt_brk hwf
  obtain ⟨s1, acc1, hinv1, hlen1, hres⟩ := assignLoop_spec cp it s.mem s.brk pos xs hsrc fuel 0
    (SingleLinkedList.ctor s).2 [] (Nat.zero_le _) (by omega) hinv0 (by simpa using hxs)
  obtain ⟨hl1, hwf1, hbrk1, habove1, hold1, hnone1⟩ := hinv1
  simp only [List.drop_zero, henv0, List.length_nil, iterAt_zero, vals, List.map_nil,
    List.nil_append, Nat.sub_zero, Nat.zero_add] at hres hlen1
  rcases hres with ⟨hc, hloop, hvals⟩ | ⟨hc, hloop⟩
  · have hD1 : IsList s1 this lD :=
      hl.transport (hold1 this hlt.1) (fun b hb => hold1 b (hlt.2 b hb))
    obtain ⟨s2, hsw, hA, hB, hb2, he2, hfr2⟩ := swap_ok s1 this s.brk lD acc1 hD1 hl1
    obtain ⟨s3, hde, hb3, he3, htm3, hfree3, hfr3⟩ := destroy_ok fuel s2 s.brk lD hB hf2
    have hthis : this ≠ s.brk := by omega
    have hA3 : IsList s3 this acc1 := by
      refine hA.transport (hfr3 this hthis hl.this_not_mem) (fun b hb => hfr3 b ?_ ?_)
      · have := habove1 b hb; omega
      · intro hbd
        have h1 := habove1 b hb
        have h2 := hlt.2 b hbd
        omega
    refine ⟨s3, ?_, by rw [hb3, hb2]; omega, Or.inl ⟨acc1, by rw [he3, he2]; exact hc, ?_, hA3,
      hvals, habove1, hfree3, ?_⟩⟩
    · intro b hb
      rw [hb3, hb2] at hb
      have h0 := hwf1 b hb
      rw [hfr3 b (by omega) (fun hbd => by have := hlt.2 b hbd; omega),
        hfr2 b (by omega) (by omega), h0]
    · simp only [assign]
      rw [htmp, hloop]
      simp only [hsw, hde]
    · intro b hb hbd hba
      rcases Nat.lt_trichotomy b s.brk with h | h | h
      · rw [hfr3 b (by omega) hbd, hfr2 b hb (by omega)]
        exact hold1 b h
      · subst h
        rw [htm3, hwf _ (Nat.le_refl _)]
      · rw [hfr3 b (by omega) hbd, hfr2 b hb (by omega), hnone1 b h hba, hwf b (by omega)]
  · obtain ⟨s2, hde, hb2, he2, htm2, hfree2, hfr2⟩ := destroy_ok fuel s1 s.brk acc1 hl1 (by omega)
    refine ⟨s2, ?_, by rw [hb2]; omega, Or.inr ⟨hc, by simp only [assign]; rw [htmp, hloop]; simp only [hde], ?_⟩⟩
    · intro b hb
      rw [hb2] at hb
      by_cases hba : b ∈ addrs acc1
      · exact hfree2 b hba
      · rw [hfr2 b (by omega) hba]
        exact hwf1 b hb
    · intro b
      rcases Nat.lt_trichotomy b s.brk with h | h | h
      · rw [hfr2 b (by omega) (fun hba => by have := habove1 b hba; omega)]
        exact hold1 b h
      · subst h
        rw [htm2, hwf _ (Nat.le_refl _)]
      · rw [hwf b (by omega)]
        by_cases hba : b ∈ addrs acc1
        · exact hfree2 b hba
        · rw [hfr2 b (by omega) hba]
          exact hnone1 b h hba

theorem IsList.length_lt {s : State α E} {this : Nat} {l : List (Nat × α)}
    (h : IsList s this l) : l.length < SIZE_MOD := by
  obtain ⟨_, _, _, _, hb⟩ := h
  exact hb

theorem readsRange_initializer_list (values : List α) (m0 : Nat → Option (Cell α)) (brk0 : Nat) :
    ReadsRange (initializerListIterator values : InputIterator α E Nat) m0 brk0 (fun j => j)
      values where
  ne_lt := fun j hj => by simp [initializerListIterator]; omega
  ne_end := by simp [initializerListIterator]
  deref := fun s1 _ j x hx => by simp [initializerListIterator, hx]
  inc := fun s1 _ j _ => rfl

theorem readsRange_constIterator {s : State α E} {other : Nat} {lS : List (Nat × α)}
    (hS : IsList s other lS) (hwf : s.Wf) :
    ReadsRange (constIterator : InputIterator α E BasicIterator) s.mem s.brk
      (fun j => iterAt other lS (j + 1)) (vals lS) := by
  have hlt := hS.lt_brk hwf
  have hfr : ∀ s1 : State α E, (∀ b, b < s.brk → s1.mem b = s.mem b) → IsList s1 other lS :=
    fun s1 h => hS.transport (h other hlt.1) (fun b hb => h b (hlt.2 b hb))
  have hlen : (vals lS).length = lS.length := by simp [vals]
  refine ⟨fun j hj => ?_, ?_, fun s1 h j x hx => ?_, fun s1 h j hj => ?_⟩
  · rw [hlen] at hj ⊢
    rw [iterAt_end]
    exact iterAt_ne_end hj
  · rw [hlen, iterAt_end]
    simp [constIterator, BasicIterator.ne, BasicIterator.eq]
  · have hj : j < lS.length := by
      by_contra hc
      rw [List.getElem?_eq_none (by simpa [vals] using Nat.le_of_not_lt hc)] at hx
      cases hx
    have hxe : x = lS[j].2 := by
      rw [List.getElem?_eq_getElem (by simpa [vals] using hj)] at hx
      simp only [vals, List.getElem_map, Option.some.injEq] at hx
      exact hx.symm
    rw [hxe]
    exact (hfr s1 h).deref_eq hj
  · rw [hlen] at hj
    exact (hfr s1 h).inc_eq hj

/-- Construction from a literal sequence. -/
theorem ctor_initializer_list_spec [Inhabited α] (cp : CopyCtor α E) (fuel : Nat)
    (s : State α E) (values : List α) (hwf : s.Wf) (hn : values.length < SIZE_MOD)
    (hf : values.length < fuel) :
    ∃ s1, s1.Wf ∧ s.brk ≤ s1.brk ∧
      ((∃ l1, copyAll cp s.env values = some s1.env ∧
          SingleLinkedList.ctor_initializer_list cp fuel s values = .ok s.brk s1 ∧
          IsList s1 s.brk l1 ∧ vals l1 = values ∧ (∀ b ∈ addrs l1, s.brk < b) ∧
          ∀ b, b ≠ s.brk → b ∉ addrs l1 → s1.mem b = s.mem b) ∨
        (copyAll cp s.env values = none ∧
          SingleLinkedList.ctor_initializer_list cp fuel s values = .throw s1 ∧
          ∀ b, s1.mem b = s.mem b)) := by
  obtain ⟨hthis, hinv0, henv0, hbrk0⟩ := ctor_spec s hwf
  obtain ⟨hl0, hwf0, _, _, hold0, _⟩ := hinv0
  obtain ⟨s1, hwf1, hbrk1, hres⟩ := assign_spec cp (initializerListIterator values)
    (fun j => j) values fuel (SingleLinkedList.ctor s).2 s.brk [] hwf0 hl0
    (readsRange_initializer_list values _ _) hn hf (by simp; omega)
  have hmem0 : ∀ b, b ≠ s.brk → (SingleLinkedList.ctor s).2.mem b = s.mem b := by
    intro b hb
    simp [SingleLinkedList.ctor, State.alloc, hb]
  rcases hres with ⟨l1, hc, hrun, hl1, hv, hab, _, hfr⟩ | ⟨hc, hrun, hfr⟩
  · refine ⟨s1, hwf1, by omega, Or.inl ⟨l1, by rw [← henv0]; exact hc, ?_, hl1, hv, ?_, ?_⟩⟩
    · simp only [SingleLinkedList.ctor_initializer_list]
      rw [hthis, hrun]
    · intro b hb
      have := hab b hb
      omega
    · intro b hb hbl
      rw [hfr b hb (by simp [addrs]) hbl, hmem0 b hb]
  · refine ⟨s1.free s.brk, ?_, by simp; omega, Or.inr ⟨by rw [← henv0]; exact hc, ?_, ?_⟩⟩
    · intro b hb
      simp only [State.free_brk] at hb
      simp [hwf1 b hb]
    · simp only [SingleLinkedList.ctor_initializer_list]
      rw [hthis, hrun]
    · intro b
      by_cases hb : b = s.brk
      · subst hb
        simp [hwf _ (Nat.le_refl _)]
      · simp [hb, hfr b, hmem0 b hb]

/-- Copy construction. -/
theorem ctor_copy_spec [Inhabited α] (cp : CopyCtor α E) (fuel : Nat) (s : State α E)
    (other : Nat) (lS : List (Nat × α)) (hwf : s.Wf) (hS : IsList s other lS)
    (hf : lS.length < fuel) :
    ∃ s1, s1.Wf ∧ s.brk ≤ s1.brk ∧
      ((∃ l1, copyAll cp s.env (vals lS) = some s1.env ∧
          SingleLinkedList.ctor_copy cp fuel s other = .ok s.brk s1 ∧
          IsList s1 s.brk l1 ∧ vals l1 = vals lS ∧ (∀ b ∈ addrs l1, s.brk < b) ∧
          ∀ b, b ≠ s.brk → b ∉ addrs l1 → s1.mem b = s.mem b) ∨
        (copyAll cp s.env (vals lS) = none ∧
          SingleLinkedList.ctor_copy cp fuel s other = .throw s1 ∧
          ∀ b, s1.mem b = s.mem b)) := by
  obtain ⟨hthis, hinv0, henv0, hbrk0⟩ := ctor_spec s hwf
  obtain ⟨hl0, hwf0, _, _, hold0, _⟩ := hinv0
  have hlt := hS.lt_brk hwf
  have hS0 : IsList (SingleLinkedList.ctor s).2 other lS :=
    hS.transport (hold0 other hlt.1) (fun b hb => hold0 b (hlt.2 b hb))
  have hlen : (vals lS).length = lS.length := by simp [vals]
  obtain ⟨s1, hwf1, hbrk1, hres⟩ := assign_spec cp constIterator
    (fun j => iterAt other lS (j + 1)) (vals lS) fuel (SingleLinkedList.ctor s).2 s.brk [] hwf0 hl0
    (readsRange_constIterator hS0 hwf0) (by rw [hlen]; exact hS.length_lt) (by omega)
    (by simp; omega)
  simp only [hlen, iterAt_end, Nat.zero_add] at hres
  have hmem0 : ∀ b, b ≠ s.brk → (SingleLinkedList.ctor s).2.mem b = s.mem b := by
    intro b hb
    simp [SingleLinkedList.ctor, State.alloc, hb]
  rcases hres with ⟨l1, hc, hrun, hl1, hv, hab, _, hfr⟩ | ⟨hc, hrun, hfr⟩
  · refine ⟨s1, hwf1, by omega, Or.inl ⟨l1, by rw [← henv0]; exact hc, ?_, hl1, hv, ?_, ?_⟩⟩
    · simp only [SingleLinkedList.ctor_copy]
      rw [hS0.begin_eq, hthis]
      simp only [hrun]
    · intro b hb
      have := hab b hb
      omega
    · intro b hb hbl
      rw [hfr b hb (by simp [addrs]) hbl, hmem0 b hb]
  · have hl1 : IsList s1 s.brk [] := hl0.transport (hfr _) (fun b _ => hfr b)
    obtain ⟨s2, hde, hb2, he2, htm2, _, hfr2⟩ := destroy_ok fuel s1 s.brk [] hl1 (by simp; omega)
    refine ⟨s2, ?_, by omega, Or.inr ⟨by rw [← henv0]; exact hc, ?_, ?_⟩⟩
    · intro b hb
      rw [hb2] at hb
      by_cases hbb : b = s.brk
      · rw [hbb, htm2]
      · rw [hfr2 b hbb (by simp [addrs]), hwf1 b hb]
    · simp only [SingleLinkedList.ctor_copy]
      rw [hS0.begin_eq, hthis]
      simp only [hrun, hde]
    · intro b
      by_cases hb : b = s.brk
      · subst hb
        rw [htm2, hwf _ (Nat.le_refl _)]
      · rw [hfr2 b hb (by simp [addrs]), hfr b, hmem0 b hb]

theorem IsList.not_mem_of_isList {s : State α E} {a b : Nat} {la lb : List (Nat × α)}
    (ha : IsList s a la) (hb : IsList s b lb) : a ∉ addrs lb := by
  obtain ⟨A, hma, _⟩ := ha
  obtain ⟨B, _, hcb, _⟩ := hb
  intro h
  obtain ⟨n, hn⟩ := hcb.node_of_mem h
  rw [hma] at hn
  cases hn

/-- Copy assignment between two distinct list objects that share no node. -/
theorem operator_assign_spec [Inhabited α] (cp : CopyCtor α E) (fuel : Nat) (s : State α E)
    (this other : Nat) (lD lS : List (Nat × α)) (hwf : s.Wf) (hD : IsList s this lD)
    (hS : IsList s other lS) (hne : this ≠ other) (hdisj : ∀ b ∈ addrs lD, b ∉ addrs lS)
    (hf1 : lS.length < fuel) (hf2 : lD.length < fuel) :
    ∃ s1, s1.Wf ∧ IsList s1 other lS ∧
      ((∃ l1, copyAll cp s.env (vals lS) = some s1.env ∧
          operator_assign cp fuel s this other = .ok () s1 ∧
          IsList s1 this l1 ∧ vals l1 = vals lS ∧ (∀ b ∈ addrs l1, s.brk < b) ∧
          (∀ b ∈ addrs lD, s1.mem b = none) ∧
          ∀ b, b ≠ this → b ∉ addrs lD → b ∉ addrs l1 → s1.mem b = s.mem b) ∨
        (copyAll cp s.env (vals lS) = none ∧
          operator_assign cp fuel s this other = .throw s1 ∧ IsList s1 this lD ∧
          ∀ b, s1.mem b = s.mem b)) := by
  have hltD := hD.lt_brk hwf
  have hltS := hS.lt_brk hwf
  obtain ⟨s1, hwf1, hbrk1, hres⟩ := ctor_copy_spec cp fuel s other lS hwf hS hf1
  rcases hres with ⟨l1, hc, hrun, hl1, hv, hab, hfr⟩ | ⟨hc, hrun, hfr⟩
  · have hfr1 : ∀ b, b < s.brk → s1.mem b = s.mem b := fun b hb =>
      hfr b (by omega) (fun hm => by have h9 := hab b hm; omega)
    have hD1 : IsList s1 this lD := hD.transport (hfr1 _ hltD.1) (fun b hb => hfr1 b (hltD.2 b hb))
    have hS1 : IsList s1 other lS := hS.transport (hfr1 _ hltS.1) (fun b hb => hfr1 b (hltS.2 b hb))
    obtain ⟨s2, hsw, hA, hB, hb2, he2, hfr2⟩ := swap_ok s1 this s.brk lD l1 hD1 hl1
    obtain ⟨s3, hde, hb3, he3, htm3, hfree3, hfr3⟩ := destroy_ok fuel s2 s.brk lD hB hf2
    have hfr4 : ∀ b, b ≠ this → b ≠ s.brk → b ∉ addrs lD → s3.mem b = s1.mem b := fun b h1 h2 h3 => by
      rw [hfr3 b h2 h3, hfr2 b h1 h2]
    have hA3 : IsList s3 this l1 := by
      refine hA.transport (hfr3 this (by omega) hD.this_not_mem) (fun b hb => hfr3 b ?_ ?_)
      · have h9 := hab b hb; omega
      · intro hbd
        have h1 := hab b hb
        have h2 := hltD.2 b hbd
        omega
    have hS3 : IsList s3 other lS := by
      refine hS1.transport (hfr4 other (Ne.symm hne) (by omega) (hS.not_mem_of_isList hD))
        (fun b hb => hfr4 b ?_ ?_ ?_)
      · exact fun h => hD.not_mem_of_isList hS (h ▸ hb)
      · have h9 := hltS.2 b hb; omega
      · exact fun h => hdisj b h hb
    refine ⟨s3, ?_, hS3, Or.inl ⟨l1, by rw [he3, he2]; exact hc, ?_, hA3, hv, hab, hfree3, ?_⟩⟩
    · intro b hb
      rw [hb3, hb2] at hb
      have h7 := hltD.1
      have h5 := (hl1.lt_brk hwf1).1
      have h8 : b ≠ this := by omega
      have h6 : b ≠ s.brk := by omega
      rw [hfr4 b h8 h6 (fun hbd => by have h9 := hltD.2 b hbd; omega), hwf1 b hb]
    · simp only [operator_assign, hne, ne_eq, not_false_eq_true, if_true, hrun, hsw, hde]
    · intro b hb hbd hba
      by_cases hbt : b = s.brk
      · rw [hbt, htm3, hwf _ (Nat.le_refl _)]
      · rw [hfr4 b hb hbt hbd, hfr b hbt hba]
  · have hD1 : IsList s1 this lD := hD.transport (hfr _) (fun b _ => hfr b)
    have hS1 : IsList s1 other lS := hS.transport (hfr _) (fun b _ => hfr b)
    refine ⟨s1, hwf1, hS1, Or.inr ⟨hc, ?_, hD1, hfr⟩⟩
    simp only [operator_assign, hne, ne_eq, not_false_eq_true, if_true, hrun]

/-- `copyAll` fails exactly when at some position `k` the copy throws after the
copies at the positions before `k` were made. -/
theorem copyAll_eq_none_iff (cp : CopyCtor α E) (e : E) (xs : List α) :
    copyAll cp e xs = none ↔
      ∃ (k : Nat) (x : α) (e1 : E), xs[k]? = some x ∧ copyAll cp e (xs.take k) = some e1 ∧
        (cp e1 x).1 = false := by
  induction xs generalizing e with
  | nil => simp [copyAll]
  | cons y ys ih =>
    rcases hcp : cp e y with ⟨ok, e2⟩
    cases ok with
    | false =>
      simp only [copyAll, hcp, true_iff]
      exact ⟨0, y, e, by simp, by simp [copyAll], by simp [hcp]⟩
    | true =>
      simp only [copyAll, hcp, ih e2]
      constructor
      · rintro ⟨k, x, e1, hx, hc, hf⟩
        exact ⟨k + 1, x, e1, by simpa using hx, by simpa [copyAll, hcp] using hc, hf⟩
      · rintro ⟨k, x, e1, hx, hc, hf⟩
        cases k with
        | zero =>
          simp at hx
          subst hx
          simp [copyAll] at hc
          subst hc
          simp [hcp] at hf
        | succ k =>
          exact ⟨k, x, e1, by simpa using hx, by simpa [copyAll, hcp] using hc, hf⟩

/-! ## The concrete state is well formed -/

theorem exampleMem_none (a : Nat) (h : 7 ≤ a) : exampleMem a = none := by
  match a, h with
  | a + 7, _ => rfl

theorem exampleState_wf : exampleState.Wf := fun a h => exampleMem_none a h

theorem exampleThrowState_wf (n : Nat) : (exampleThrowState n).Wf := fun a h => exampleMem_none a h

theorem exampleState_A : IsList exampleState 0 exampleA :=
  ⟨_, rfl, ⟨rfl, _, rfl, rfl, _, rfl, rfl⟩, rfl, by decide⟩

theorem exampleState_B : IsList exampleState 3 exampleB :=
  ⟨_, rfl, ⟨rfl, _, rfl, rfl, _, rfl, rfl, _, rfl, rfl⟩, rfl, by decide⟩

theorem exampleThrowState_A (n : Nat) : IsList (exampleThrowState n) 0 exampleA :=
  ⟨_, rfl, ⟨rfl, _, rfl, rfl, _, rfl, rfl⟩, rfl, by decide⟩

theorem exampleThrowState_B (n : Nat) : IsList (exampleThrowState n) 3 exampleB :=
  ⟨_, rfl, ⟨rfl, _, rfl, rfl, _, rfl, rfl, _, rfl, rfl⟩, rfl, by decide⟩

theorem example_disjoint : ∀ b ∈ addrs exampleA, b ∉ addrs exampleB := by decide

theorem listEq_iff_index (eq : α → α → Bool) (xs ys : List α) :
    listEq eq xs ys = true ↔
      (xs.length = ys.length ∧
        ∀ (i : Nat) (x y : α), xs[i]? = some x → ys[i]? = some y → eq x y = true) := by
  induction xs generalizing ys with
  | nil => cases ys <;> simp [listEq]
  | cons x xs ih =>
    cases ys with
    | nil => simp [listEq]
    | cons y ys =>
      simp only [listEq, Bool.and_eq_true, ih ys, List.length_cons, Nat.add_right_cancel_iff]
      constructor
      · rintro ⟨hxy, hlen, hall⟩
        refine ⟨hlen, fun i u v hu hv => ?_⟩
        cases i with
        | zero =>
          simp at hu hv
          subst hu hv
          exact hxy
        | succ i => exact hall i u v (by simpa using hu) (by simpa using hv)
      · rintro ⟨hlen, hall⟩
        exact ⟨hall 0 x y (by simp) (by simp), hlen,
          fun i u v hu hv => hall (i + 1) u v (by simpa using hu) (by simpa using hv)⟩

/-! # The properties of the specification -/

/-- C1. For two lists `A` (object `a`, nodes `la`) and `B` (object `b`, nodes `lb`)
over an element type whose `==` is `eq`, reflexive as an equality comparison is:
`A == B` returns a Boolean `r`, and `r` is `true` exactly when the two lists have
the same size and their elements are pairwise equal in order; when `A` and `B` are
the same object the result is `true`; and `A != B` returns the negation of `r`. -/
theorem C1_operator_eq_iff (eq : α → α → Bool) (hrefl : ∀ x, eq x x = true)
    (s : State α E) (a b : Nat) (la lb : List (Nat × α))
    (ha : IsList s a la) (hb : IsList s b lb) (fuel : Nat) (hf : la.length < fuel) :
    ∃ r, operator_eq eq fuel s a b = .ok r ∧ operator_ne eq fuel s a b = .ok (!r) ∧
      (r = true ↔ (size s a = size s b ∧
        ∀ (i : Nat) (x y : α), (vals la)[i]? = some x → (vals lb)[i]? = some y →
          eq x y = true)) ∧
      (a = b → r = true) := by
  have hsize : size s a = size s b ↔ (vals la).length = (vals lb).length := by
    rw [ha.size_eq, hb.size_eq]
    simp [vals]
  by_cases hab : a = b
  · subst hab
    obtain ⟨A, hma, hca, _⟩ := ha
    obtain ⟨B, hmb, hcb, _⟩ := hb
    rw [hma] at hmb
    cases hmb
    have hll := Chain.functional hca hcb
    subst hll
    refine ⟨true, by simp [operator_eq], by simp [operator_ne, operator_eq], ?_, fun _ => rfl⟩
    simp only [true_iff]
    refine ⟨trivial, fun i x y hx hy => ?_⟩
    rw [hx] at hy
    cases hy
    exact hrefl x
  · have h1 := operator_eq_ok eq ha hb hab fuel hf
    refine ⟨_, h1, by simp [operator_ne, h1], ?_, fun h => absurd h hab⟩
    rw [listEq_iff_index, hsize]

/-- C1, at the two lists of the concrete state: `{10, 20} == {10, 30, 5}`. -/
theorem C1_operator_eq_iff_witness :
    (∀ x : Nat, (x == x) = true) ∧ IsList exampleState 0 exampleA ∧
      IsList exampleState 3 exampleB ∧ exampleA.length < 5 ∧
      ∃ r, operator_eq (fun x y : Nat => x == y) 5 exampleState 0 3 = .ok r ∧
        operator_ne (fun x y : Nat => x == y) 5 exampleState 0 3 = .ok (!r) ∧
        (r = true ↔ (size exampleState 0 = size exampleState 3 ∧
          ∀ (i : Nat) (x y : Nat), (vals exampleA)[i]? = some x → (vals exampleB)[i]? = some y →
            (x == y) = true)) ∧
        ((0 : Nat) = 3 → r = true) :=
  ⟨fun x => by simp, exampleState_A, exampleState_B, by decide,
    C1_operator_eq_iff (fun x y : Nat => x == y) (fun x => by simp) exampleState 0 3 exampleA
      exampleB exampleState_A exampleState_B 5 (by decide)⟩

theorem operator_eq_of_vals_eq (eq : α → α → Bool) (hrefl : ∀ x, eq x x = true) {s : State α E}
    {a b : Nat} {la lb : List (Nat × α)} (ha : IsList s a la) (hb : IsList s b lb)
    (hv : vals la = vals lb) (fuel : Nat) (hf : la.length < fuel) :
    operator_eq eq fuel s a b = .ok true := by
  by_cases hab : a = b
  · simp [operator_eq, hab]
  · rw [operator_eq_ok eq ha hb hab fuel hf, hv, listEq_refl hrefl]

theorem IsList.same_object {s : State α E} {a : Nat} {la lb : List (Nat × α)}
    (ha : IsList s a la) (hb : IsList s a lb) : la = lb := by
  obtain ⟨A, hma, hca, _⟩ := ha
  obtain ⟨B, hmb, hcb, _⟩ := hb
  rw [hma] at hmb
  cases hmb
  exact Chain.functional hca hcb

theorem length_eq_of_vals_eq {l1 l2 : List (Nat × α)} (h : vals l1 = vals l2) :
    l1.length = l2.length := by
  have := congrArg List.length h
  simpa [vals] using this

/-- C2. Let `S` be a list (object `other`, nodes `lS`) all of whose element copies
succeed. Then copy construction from `S` returns a new list object `c` with the
values of `S` in the same order and the size of `S`, equal to `S` under any
reflexive `==`, and `S` keeps its nodes and values. And for every list `D` (object
`this`, nodes `lD` whatever they are, sharing no node with `S` unless `D` is `S`
itself) the assignment `D = S` returns with `D` holding the values of `S` in the same
order, the size of `S`, equal to `S`, and `S` keeps its nodes and values. -/
theorem C2_copy_equals_source [Inhabited α] (cp : CopyCtor α E) (fuel : Nat) (s : State α E)
    (other : Nat) (lS : List (Nat × α)) (e : E) (hwf : s.Wf) (hS : IsList s other lS)
    (hcopy : copyAll cp s.env (vals lS) = some e) (hf1 : lS.length < fuel) :
    (∃ s1 c l1, SingleLinkedList.ctor_copy cp fuel s other = .ok c s1 ∧
        IsList s1 c l1 ∧ vals l1 = vals lS ∧ size s1 c = size s other ∧ IsList s1 other lS ∧
        ∀ eq : α → α → Bool, (∀ x, eq x x = true) → operator_eq eq fuel s1 c other = .ok true) ∧
    (∀ (this : Nat) (lD : List (Nat × α)), IsList s this lD →
      (this ≠ other → ∀ b ∈ addrs lD, b ∉ addrs lS) → lD.length < fuel →
      ∃ s2 l2, operator_assign cp fuel s this other = .ok () s2 ∧
        IsList s2 this l2 ∧ vals l2 = vals lS ∧ size s2 this = size s other ∧
        IsList s2 other lS ∧
        ∀ eq : α → α → Bool, (∀ x, eq x x = true) →
          operator_eq eq fuel s2 this other = .ok true) := by
  have hltS := hS.lt_brk hwf
  constructor
  · obtain ⟨s1, hwf1, hbrk1, hres⟩ := ctor_copy_spec cp fuel s other lS hwf hS hf1
    rcases hres with ⟨l1, hc, hrun, hl1, hv, hab, hfr⟩ | ⟨hc, _⟩
    · have hfr1 : ∀ b, b < s.brk → s1.mem b = s.mem b := fun b hb =>
        hfr b (by omega) (fun hm => by have h9 := hab b hm; omega)
      have hS1 : IsList s1 other lS :=
        hS.transport (hfr1 _ hltS.1) (fun b hb => hfr1 b (hltS.2 b hb))
      refine ⟨s1, s.brk, l1, hrun, hl1, hv, ?_, hS1, fun eq hrefl => ?_⟩
      · rw [hl1.size_eq, hS.size_eq, length_eq_of_vals_eq hv]
      · exact operator_eq_of_vals_eq eq hrefl hl1 hS1 hv fuel
          (by rw [length_eq_of_vals_eq hv]; exact hf1)
    · rw [hcopy] at hc
      cases hc
  · intro this lD hD hsep hf2
    by_cases hne : this = other
    · subst hne
      have hll := hD.same_object hS
      subst hll
      exact ⟨s, lD, by simp [operator_assign], hD, rfl, rfl, hD,
        fun eq _ => by simp [operator_eq]⟩
    · obtain ⟨s1, hwf1, hS1, hres⟩ := operator_assign_spec cp fuel s this other lD lS hwf hD hS
        hne (hsep hne) hf1 hf2
      rcases hres with ⟨l1, hc, hrun, hl1, hv, _⟩ | ⟨hc, _⟩
      · refine ⟨s1, l1, hrun, hl1, hv, ?_, hS1, fun eq hrefl => ?_⟩
        · rw [hl1.size_eq, hS.size_eq, length_eq_of_vals_eq hv]
        · exact operator_eq_of_vals_eq eq hrefl hl1 hS1 hv fuel
            (by rw [length_eq_of_vals_eq hv]; exact hf1)
      · rw [hcopy] at hc
        cases hc

/-- C2, at the concrete state: the list `{10, 30, 5}` at `3` is copied, and assigned
to the list `{10, 20}` at `0`. -/
theorem C2_copy_equals_source_witness :
    exampleState.Wf ∧ IsList exampleState 3 exampleB ∧
      copyAll copyAlways exampleState.env (vals exampleB) = some () ∧ exampleB.length < 5 ∧
      IsList exampleState 0 exampleA ∧
      ((0 : Nat) ≠ 3 → ∀ b ∈ addrs exampleA, b ∉ addrs exampleB) ∧ exampleA.length < 5 ∧
      (∃ s1 c l1, SingleLinkedList.ctor_copy copyAlways 5 exampleState 3 = .ok c s1 ∧
        IsList s1 c l1 ∧ vals l1 = vals exampleB ∧ size s1 c = size exampleState 3 ∧
        IsList s1 3 exampleB ∧
        ∀ eq : Nat → Nat → Bool, (∀ x, eq x x = true) → operator_eq eq 5 s1 c 3 = .ok true) ∧
      (∃ s2 l2, operator_assign copyAlways 5 exampleState 0 3 = .ok () s2 ∧
        IsList s2 0 l2 ∧ vals l2 = vals exampleB ∧ size s2 0 = size exampleState 3 ∧
        IsList s2 3 exampleB ∧
        ∀ eq : Nat → Nat → Bool, (∀ x, eq x x = true) → operator_eq eq 5 s2 0 3 = .ok true) :=
  have h := C2_copy_equals_source copyAlways 5 exampleState 3 exampleB () exampleState_wf
    exampleState_B rfl (by decide)
  ⟨exampleState_wf, exampleState_B, rfl, by decide, exampleState_A, fun _ => example_disjoint,
    by decide, h.1, h.2 0 exampleA exampleState_A (fun _ => example_disjoint) (by decide)⟩

/-- C3. Let `D` (object `this`, nodes `lD`) and `S` (object `other`, nodes `lS`) be
lists, sharing no node unless they are the same object. If `D` and `S` are distinct
objects and one of the copies of the elements of `S`, made in order, throws (at
whatever position: `copyAll` is `none`, see `copyAll_eq_none_iff`), then `D = S` throws, and afterwards `D` has exactly its prior
nodes with their prior values and its prior size, `S` has its prior nodes, values
and size, and the whole memory is as before. The assignment throws only if an
element copy throws: when all copies succeed it returns normally, and the
self-assignment, which copies nothing, returns normally in the same state. -/
theorem C3_assign_strong_guarantee [Inhabited α] (cp : CopyCtor α E) (fuel : Nat)
    (s : State α E) (this other : Nat) (lD lS : List (Nat × α)) (hwf : s.Wf)
    (hD : IsList s this lD) (hS : IsList s other lS)
    (hsep : this ≠ other → ∀ b ∈ addrs lD, b ∉ addrs lS)
    (hf1 : lS.length < fuel) (hf2 : lD.length < fuel) :
    (this ≠ other → copyAll cp s.env (vals lS) = none →
      ∃ s1, operator_assign cp fuel s this other = .throw s1 ∧
        IsList s1 this lD ∧ size s1 this = size s this ∧
        IsList s1 other lS ∧ size s1 other = size s other ∧ ∀ b, s1.mem b = s.mem b) ∧
    (∀ s1, operator_assign cp fuel s this other = .throw s1 →
      this ≠ other ∧ copyAll cp s.env (vals lS) = none) ∧
    (∀ e, copyAll cp s.env (vals lS) = some e →
      ∃ s1, operator_assign cp fuel s this other = .ok () s1) ∧
    (this = other → operator_assign cp fuel s this other = .ok () s) := by
  by_cases hne : this = other
  · have hself : operator_assign cp fuel s this other = .ok () s := by
      simp [operator_assign, hne]
    refine ⟨fun h => absurd hne h, fun s1 h => ?_, fun e _ => ⟨s, hself⟩, fun _ => hself⟩
    rw [hself] at h
    cases h
  · obtain ⟨s1, hwf1, hS1, hres⟩ := operator_assign_spec cp fuel s this other lD lS hwf hD hS
      hne (hsep hne) hf1 hf2
    rcases hres with ⟨l1, hc, hrun, _⟩ | ⟨hc, hrun, hD1, hfr⟩
    · refine ⟨fun _ h => ?_, fun s2 h => ?_, fun e _ => ⟨s1, hrun⟩, fun h => absurd h hne⟩
      · rw [h] at hc
        cases hc
      · rw [hrun] at h
        cases h
    · refine ⟨fun _ _ => ⟨s1, hrun, hD1, ?_, hS1, ?_, hfr⟩, fun _ _ => ⟨hne, hc⟩, fun e h => ?_,
        fun h => absurd h hne⟩
      · rw [hD1.size_eq, hD.size_eq]
      · rw [hS1.size_eq, hS.size_eq]
      · rw [h] at hc
        cases hc

/-- C3, at the concrete state with a countdown of one copy: copying `{10, 30, 5}`
throws at its second element. -/
theorem C3_assign_strong_guarantee_witness :
    (exampleThrowState 1).Wf ∧ IsList (exampleThrowState 1) 0 exampleA ∧
      IsList (exampleThrowState 1) 3 exampleB ∧
      ((0 : Nat) ≠ 3 → ∀ b ∈ addrs exampleA, b ∉ addrs exampleB) ∧
      exampleB.length < 5 ∧ exampleA.length < 5 ∧ (0 : Nat) ≠ 3 ∧
      copyAll throwOnCopy (exampleThrowState 1).env (vals exampleB) = none ∧
      ∃ s1, operator_assign throwOnCopy 5 (exampleThrowState 1) 0 3 = .throw s1 ∧
        IsList s1 0 exampleA ∧ size s1 0 = size (exampleThrowState 1) 0 ∧
        IsList s1 3 exampleB ∧ size s1 3 = size (exampleThrowState 1) 3 ∧
        ∀ b, s1.mem b = (exampleThrowState 1).mem b :=
  ⟨exampleThrowState_wf 1, exampleThrowState_A 1, exampleThrowState_B 1,
    fun _ => example_disjoint, by decide, by decide, by decide, rfl,
    (C3_assign_strong_guarantee throwOnCopy 5 (exampleThrowState 1) 0 3 exampleA exampleB
      (exampleThrowState_wf 1) (exampleThrowState_A 1) (exampleThrowState_B 1)
      (fun _ => example_disjoint) (by decide) (by decide)).1 (by decide) rfl⟩

theorem iterAt_insert_le (this : Nat) (l : List (Nat × α)) (k j : Nat) (p : Nat × α)
    (hk : k ≤ l.length) (hj : j ≤ k) :
    iterAt this (l.take k ++ p :: l.drop k) j = iterAt this l j := by
  cases j with
  | zero => simp [iterAt]
  | succ j =>
    have h1 : j < (List.map Prod.fst (l.take k)).length := by simp; omega
    simp only [iterAt, addrs, List.map_append, List.getElem?_cons_succ,
      List.getElem?_append_left h1]
    simp [List.getElem?_take, show j < k by omega]

theorem iterAt_insert_new (this : Nat) (l : List (Nat × α)) (k : Nat) (p : Nat × α)
    (hk : k ≤ l.length) :
    iterAt this (l.take k ++ p :: l.drop k) (k + 1) = ⟨some p.1⟩ := by
  have h1 : (List.map Prod.fst (l.take k)).length = k := by simp; omega
  simp only [iterAt, addrs, List.map_append, List.getElem?_cons_succ, List.map_cons]
  rw [List.getElem?_append_right (by omega), h1]
  simp

/-- C4. For a list with nodes `l` (values `e_1..e_n`), a position `k` in `0..n`
(`0` is `before_begin()`), a value `v` whose copy succeeds, and a size below the
`size_t` range: `insert_after(position k, v)` returns an iterator `it`; the list then
is `e_1..e_k, v, e_{k+1}..e_n`, the old nodes unchanged and one new node (at an
address unused before) after the `k`-th; its size is `n + 1`; `it` references the new
node, that is, it is the iterator at position `k + 1`; it dereferences to `v`; it is
what advancing the iterator at position `k` once gives; and for `k = 0` it is
`begin()`, so that inserting into the empty list at `before_begin()` gives `{v}`. -/
theorem C4_insert_after (cp : CopyCtor α E) (s : State α E) (this : Nat)
    (l : List (Nat × α)) (k : Nat) (v : α) (e : E) (hwf : s.Wf) (hl : IsList s this l)
    (hk : k ≤ l.length) (hcp : cp s.env v = (true, e)) (hsz : l.length + 1 < SIZE_MOD) :
    ∃ s1 it a, insert_after cp s this (iterAt this l k) v = .ok it s1 ∧
      s.mem a = none ∧ it.node_ = some a ∧
      IsList s1 this (l.take k ++ (a, v) :: l.drop k) ∧
      vals (l.take k ++ (a, v) :: l.drop k) = (vals l).take k ++ v :: (vals l).drop k ∧
      size s1 this = some (l.length + 1) ∧
      it = iterAt this (l.take k ++ (a, v) :: l.drop k) (k + 1) ∧
      BasicIterator.deref s1 it = .ok v ∧
      BasicIterator.inc s1 (iterAt this l k) = .ok it ∧
      (k = 0 → begin s1 this = some it) ∧
      (l = [] → IsList s1 this [(a, v)]) := by
  obtain ⟨s1, h1, h2, _, _, _, _⟩ := insert_after_ok cp s this l k v e hwf hl hk hcp hsz
  have hnew := iterAt_insert_new this l k (s.brk, v) hk
  have hlen : (l.take k ++ (s.brk, v) :: l.drop k).length = l.length + 1 := by
    simp; omega
  have hklt : k < (l.take k ++ (s.brk, v) :: l.drop k).length := by omega
  have hget : (l.take k ++ (s.brk, v) :: l.drop k)[k] = (s.brk, v) := by
    rw [List.getElem_append_right (by simp)]
    simp [Nat.min_eq_left hk]
  refine ⟨s1, ⟨some s.brk⟩, s.brk, h1, hwf _ (Nat.le_refl _), rfl, h2, ?_, ?_, hnew.symm, ?_, ?_,
    ?_, ?_⟩
  · simp [vals, List.map_take, List.map_drop]
  · rw [h2.size_eq, hlen]
  · have hd := h2.deref_eq hklt
    rw [hnew, hget] at hd
    exact hd
  · have hi := h2.inc_eq (Nat.le_of_lt hklt)
    rw [hnew, iterAt_insert_le this l k k _ hk (Nat.le_refl _)] at hi
    exact hi
  · intro hk0
    subst hk0
    rw [h2.begin_eq]
    simp [iterAt, addrs]
  · intro hnil
    subst hnil
    simpa using h2

/-- C4, at the concrete state: `99` is inserted after the first element of `{10, 20}`. -/
theorem C4_insert_after_witness :
    exampleState.Wf ∧ IsList exampleState 0 exampleA ∧ 1 ≤ exampleA.length ∧
      copyAlways exampleState.env 99 = (true, ()) ∧ exampleA.length + 1 < SIZE_MOD ∧
      ∃ s1 it a, insert_after copyAlways exampleState 0 (iterAt 0 exampleA 1) 99 = .ok it s1 ∧
        exampleState.mem a = none ∧ it.node_ = some a ∧
        IsList s1 0 (exampleA.take 1 ++ (a, 99) :: exampleA.drop 1) ∧
        vals (exampleA.take 1 ++ (a, 99) :: exampleA.drop 1)
          = (vals exampleA).take 1 ++ 99 :: (vals exampleA).drop 1 ∧
        size s1 0 = some (exampleA.length + 1) ∧
        it = iterAt 0 (exampleA.take 1 ++ (a, 99) :: exampleA.drop 1) (1 + 1) ∧
        BasicIterator.deref s1 it = .ok 99 ∧
        BasicIterator.inc s1 (iterAt 0 exampleA 1) = .ok it ∧
        (1 = 0 → begin s1 0 = some it) ∧
        (exampleA = [] → IsList s1 0 [(a, 99)]) :=
  ⟨exampleState_wf, exampleState_A, by decide, rfl, by decide,
    C4_insert_after copyAlways exampleState 0 exampleA 1 99 () exampleState_wf exampleState_A
      (by decide) rfl (by decide)⟩

/-- C5. For a list with nodes `l` (values `e_1..e_n`) and a position `k` in
`0..n-1` (`0` is `before_begin()`): `erase_after(position k)` returns an iterator
`it`; the list then is `e_1..e_k, e_{k+2}..e_n`, the other nodes keeping their
addresses, values and order; its size is `n - 1`; the node of `e_{k+1}` is destroyed;
`it` references the node that now follows position `k` (it is the iterator at
position `k + 1` of the new list, and what advancing position `k` once gives), which
is `end()` when the removed element was the last one and `begin()` when `k = 0`. -/
theorem C5_erase_after (s : State α E) (this : Nat) (l : List (Nat × α)) (k : Nat)
    (hl : IsList s this l) (hk : k < l.length) :
    ∃ s1 it, erase_after s this (iterAt this l k) = .ok it s1 ∧
      IsList s1 this (l.take k ++ l.drop (k + 1)) ∧
      vals (l.take k ++ l.drop (k + 1)) = (vals l).take k ++ (vals l).drop (k + 1) ∧
      size s1 this = some (l.length - 1) ∧
      s1.mem (l[k].1) = none ∧
      it = iterAt this (l.take k ++ l.drop (k + 1)) (k + 1) ∧
      BasicIterator.inc s1 (iterAt this l k) = .ok it ∧
      (k + 1 = l.length → it = end_) ∧
      (k = 0 → begin s1 this = some it) := by
  obtain ⟨s1, h1, h2, _, _, h5, _⟩ := erase_after_ok s this l k hl hk
  have hlen : (l.take k ++ l.drop (k + 1)).length = l.length - 1 := by simp; omega
  have hit : iterAt this (l.take k ++ l.drop (k + 1)) (k + 1) = iterAt this l (k + 2) := by
    have h1 : (List.map Prod.fst (l.take k)).length = k := by simp; omega
    simp only [iterAt, addrs, List.map_append, List.getElem?_cons_succ]
    rw [List.getElem?_append_right (by omega), h1]
    simp
  have hpos : iterAt this (l.take k ++ l.drop (k + 1)) k = iterAt this l k := by
    cases k with
    | zero => simp [iterAt]
    | succ j =>
      have h1 : j < (List.map Prod.fst (l.take (j + 1))).length := by simp; omega
      simp only [iterAt, addrs, List.map_append, List.getElem?_cons_succ,
        List.getElem?_append_left h1]
      simp [List.getElem?_take]
  refine ⟨s1, _, h1, h2, ?_, ?_, h5, hit.symm, ?_, ?_, ?_⟩
  · simp [vals, List.map_take, List.map_drop]
  · rw [h2.size_eq, hlen]
  · have hi := h2.inc_eq (k := k) (by omega)
    rw [hit, hpos] at hi
    exact hi
  · intro hlast
    simp [iterAt, end_, addrs, ← hlast]
  · intro hk0
    subst hk0
    rw [h2.begin_eq, hit]

/-- C5, at the concrete state: the element after the first one of `{10, 30, 5}` is
erased. -/
theorem C5_erase_after_witness :
    IsList exampleState 3 exampleB ∧
      ∃ (h : 1 < exampleB.length) (s1 : State Nat Unit) (it : BasicIterator),
        erase_after exampleState 3 (iterAt 3 exampleB 1) = .ok it s1 ∧
        IsList s1 3 (exampleB.take 1 ++ exampleB.drop (1 + 1)) ∧
        vals (exampleB.take 1 ++ exampleB.drop (1 + 1))
          = (vals exampleB).take 1 ++ (vals exampleB).drop (1 + 1) ∧
        size s1 3 = some (exampleB.length - 1) ∧
        s1.mem (exampleB[1].1) = none ∧
        it = iterAt 3 (exampleB.take 1 ++ exampleB.drop (1 + 1)) (1 + 1) ∧
        BasicIterator.inc s1 (iterAt 3 exampleB 1) = .ok it ∧
        (1 + 1 = exampleB.length → it = end_) ∧
        (1 = 0 → begin s1 3 = some it) :=
  ⟨exampleState_B, by decide, C5_erase_after exampleState 3 exampleB 1 exampleState_B (by decide)⟩

/-- C6. For two lists `A` (object `a`, nodes `la`) and `B` (object `b`, nodes `lb`)
over an element type whose `<` is `lt`: `A < B` returns a Boolean `r`, and `r` is
`true` exactly when either there is an index `i` with `A[i] < B[i]` while at every
earlier index the two elements are equivalent (neither is less than the other), or
`A` is strictly shorter than `B` and every element of `A` is equivalent to the element
of `B` at the same index. -/
theorem C6_operator_lt_iff (lt : α → α → Bool) (s : State α E) (a b : Nat)
    (la lb : List (Nat × α)) (ha : IsList s a la) (hb : IsList s b lb) (fuel : Nat)
    (hf : la.length < fuel) :
    ∃ r, operator_lt lt fuel s a b = .ok r ∧
      (r = true ↔
        (∃ (i : Nat) (x y : α), (vals la)[i]? = some x ∧ (vals lb)[i]? = some y ∧
          lt x y = true ∧
          ∀ (j : Nat), j < i → ∀ (u v : α), (vals la)[j]? = some u → (vals lb)[j]? = some v →
            lt u v = false ∧ lt v u = false) ∨
        ((vals la).length < (vals lb).length ∧
          ∀ (j : Nat) (u v : α), (vals la)[j]? = some u → (vals lb)[j]? = some v →
            lt u v = false ∧ lt v u = false)) :=
  ⟨_, operator_lt_ok lt ha hb fuel hf, lexLt_iff lt (vals la) (vals lb)⟩

/-- C6, at the concrete state: `{10, 20} < {10, 30, 5}`. -/
theorem C6_operator_lt_iff_witness :
    IsList exampleState 0 exampleA ∧ IsList exampleState 3 exampleB ∧ exampleA.length < 5 ∧
      ∃ r, operator_lt (fun x y : Nat => decide (x < y)) 5 exampleState 0 3 = .ok r ∧
        (r = true ↔
          (∃ (i : Nat) (x y : Nat), (vals exampleA)[i]? = some x ∧
            (vals exampleB)[i]? = some y ∧ decide (x < y) = true ∧
            ∀ (j : Nat), j < i → ∀ (u v : Nat), (vals exampleA)[j]? = some u →
              (vals exampleB)[j]? = some v → decide (u < v) = false ∧ decide (v < u) = false) ∨
          ((vals exampleA).length < (vals exampleB).length ∧
            ∀ (j : Nat) (u v : Nat), (vals exampleA)[j]? = some u →
              (vals exampleB)[j]? = some v → decide (u < v) = false ∧ decide (v < u) = false)) :=
  ⟨exampleState_A, exampleState_B, by decide,
    C6_operator_lt_iff (fun x y : Nat => decide (x < y)) exampleState 0 3 exampleA exampleB
      exampleState_A exampleState_B 5 (by decide)⟩

/-- C7. Trichotomy. Let `<` of the element type be a strict order (`hasym`: never
both `x < y` and `y < x`) that is total up to `==` and consistent with it (`hcons`:
`x == y` exactly when neither `x < y` nor `y < x`). Then for all lists `A` and `B` the
three comparisons `A < B`, `A == B`, `B < A` return, and exactly one of them returns
`true`. -/
theorem C7_trichotomy (eq lt : α → α → Bool)
    (hasym : ∀ x y, lt x y = true → lt y x = false)
    (hcons : ∀ x y, eq x y = true ↔ (lt x y = false ∧ lt y x = false))
    (s : State α E) (a b : Nat) (la lb : List (Nat × α))
    (ha : IsList s a la) (hb : IsList s b lb) (fuel : Nat)
    (hf1 : la.length < fuel) (hf2 : lb.length < fuel) :
    ∃ p q r, operator_lt lt fuel s a b = .ok p ∧ operator_eq eq fuel s a b = .ok q ∧
      operator_lt lt fuel s b a = .ok r ∧ ExactlyOne p q r := by
  have hrefl : ∀ x, eq x x = true := fun x => by
    have hirr : lt x x = false := by
      cases h : lt x x with
      | false => rfl
      | true => rw [hasym x x h] at h; cases h
    exact (hcons x x).mpr ⟨hirr, hirr⟩
  have hq : operator_eq eq fuel s a b = .ok (listEq eq (vals la) (vals lb)) := by
    by_cases hab : a = b
    · subst hab
      have hll := ha.same_object hb
      subst hll
      simp [operator_eq, listEq_refl hrefl]
    · exact operator_eq_ok eq ha hb hab fuel hf1
  exact ⟨_, _, _, operator_lt_ok lt ha hb fuel hf1, hq, operator_lt_ok lt hb ha fuel hf2,
    lex_trichotomy eq lt hasym hcons (vals la) (vals lb)⟩

/-- C7, at the concrete state, for `int` with its `<` and `==`. -/
theorem C7_trichotomy_witness :
    (∀ x y : Nat, decide (x < y) = true → decide (y < x) = false) ∧
      (∀ x y : Nat, (x == y) = true ↔ (decide (x < y) = false ∧ decide (y < x) = false)) ∧
      IsList exampleState 0 exampleA ∧ IsList exampleState 3 exampleB ∧
      exampleA.length < 5 ∧ exampleB.length < 5 ∧
      ∃ p q r, operator_lt (fun x y : Nat => decide (x < y)) 5 exampleState 0 3 = .ok p ∧
        operator_eq (fun x y : Nat => x == y) 5 exampleState 0 3 = .ok q ∧
        operator_lt (fun x y : Nat => decide (x < y)) 5 exampleState 3 0 = .ok r ∧
        ExactlyOne p q r :=
  ⟨fun x y h => by simp at h ⊢; omega, fun x y => by simp; omega, exampleState_A,
    exampleState_B, by decide, by decide,
    C7_trichotomy (fun x y : Nat => x == y) (fun x y : Nat => decide (x < y))
      (fun x y h => by simp at h ⊢; omega) (fun x y => by simp; omega) exampleState 0 3
      exampleA exampleB exampleState_A exampleState_B 5 (by decide) (by decide)⟩

/-- C8. For two lists `A` (object `a`, nodes `la`) and `B` (object `b`, nodes `lb`):
`A.swap(B)` returns, and the free function `swap(A, B)` does the same; afterwards `A`
has exactly the former nodes of `B`, in order, and the former size of `B`, and `B`
has exactly the former nodes and size of `A`; nothing is allocated, and every object
other than the two list objects (every node in particular) is as before, so no node
is created, destroyed or modified; the iterator that was `A.begin()` is `B.begin()`
afterwards and the one that was `B.begin()` is `A.begin()`, and an iterator to a node
dereferences to the same value as before. -/
theorem C8_swap (s : State α E) (a b : Nat) (la lb : List (Nat × α))
    (ha : IsList s a la) (hb : IsList s b lb) :
    ∃ s1, swap s a b = some s1 ∧ swap_free s a b = some s1 ∧
      IsList s1 a lb ∧ IsList s1 b la ∧
      size s1 a = size s b ∧ size s1 b = size s a ∧
      begin s1 b = begin s a ∧ begin s1 a = begin s b ∧
      s1.brk = s.brk ∧ (∀ c, c ≠ a → c ≠ b → s1.mem c = s.mem c) ∧
      (∀ c, c ∈ addrs la ∨ c ∈ addrs lb →
        BasicIterator.deref s1 ⟨some c⟩ = BasicIterator.deref s ⟨some c⟩) := by
  obtain ⟨s1, h1, h2, h3, h4, _, h6⟩ := swap_ok s a b la lb ha hb
  refine ⟨s1, h1, h1, h2, h3, ?_, ?_, ?_, ?_, h4, h6, fun c hc => ?_⟩
  · rw [h2.size_eq, hb.size_eq]
  · rw [h3.size_eq, ha.size_eq]
  · rw [h3.begin_eq, ha.begin_eq]
    simp [iterAt]
  · rw [h2.begin_eq, hb.begin_eq]
    simp [iterAt]
  · have hca : c ≠ a := by
      rcases hc with hc | hc
      · exact fun h => ha.this_not_mem (h ▸ hc)
      · exact fun h => ha.not_mem_of_isList hb (h ▸ hc)
    have hcb : c ≠ b := by
      rcases hc with hc | hc
      · exact fun h => hb.not_mem_of_isList ha (h ▸ hc)
      · exact fun h => hb.this_not_mem (h ▸ hc)
    simp [BasicIterator.deref, valueOf, h6 c hca hcb]

/-- C8, at the two lists of the concrete state. -/
theorem C8_swap_witness :
    IsList exampleState 0 exampleA ∧ IsList exampleState 3 exampleB ∧
      ∃ s1, swap exampleState 0 3 = some s1 ∧ swap_free exampleState 0 3 = some s1 ∧
        IsList s1 0 exampleB ∧ IsList s1 3 exampleA ∧
        size s1 0 = size exampleState 3 ∧ size s1 3 = size exampleState 0 ∧
        begin s1 3 = begin exampleState 0 ∧ begin s1 0 = begin exampleState 3 ∧
        s1.brk = exampleState.brk ∧
        (∀ c, c ≠ 0 → c ≠ 3 → s1.mem c = exampleState.mem c) ∧
        (∀ c, c ∈ addrs exampleA ∨ c ∈ addrs exampleB →
          BasicIterator.deref s1 ⟨some c⟩ = BasicIterator.deref exampleState ⟨some c⟩) :=
  ⟨exampleState_A, exampleState_B,
    C8_swap exampleState 0 3 exampleA exampleB exampleState_A exampleState_B⟩

/-- C9. For a list with nodes `l`, a value `v` whose copy succeeds, and a size below
the `size_t` range: `push_front(v)` returns, and the list then is `v` followed by
the prior elements, with size `n + 1`; `pop_front()` right after it returns, and the
list then has exactly its prior nodes with their prior values in their prior order,
and its prior size. -/
theorem C9_push_front_pop_front (cp : CopyCtor α E) (s : State α E) (this : Nat)
    (l : List (Nat × α)) (v : α) (e : E) (hwf : s.Wf) (hl : IsList s this l)
    (hcp : cp s.env v = (true, e)) (hsz : l.length + 1 < SIZE_MOD) :
    ∃ s1 s2 a, push_front cp s this v = .ok () s1 ∧
      IsList s1 this ((a, v) :: l) ∧ vals ((a, v) :: l) = v :: vals l ∧
      size s1 this = some (l.length + 1) ∧
      pop_front s1 this = .ok () s2 ∧
      IsList s2 this l ∧ size s2 this = size s this := by
  obtain ⟨s1, h1, h2, _⟩ := push_front_ok cp s this l v e hwf hl hcp hsz
  obtain ⟨s2, g1, g2, _⟩ := pop_front_ok s1 this s.brk v l h2
  refine ⟨s1, s2, s.brk, h1, h2, rfl, ?_, g1, g2, ?_⟩
  · rw [h2.size_eq]
    simp
  · rw [g2.size_eq, hl.size_eq]

/-- C9, at the concrete state: `7` is pushed in front of `{10, 20}` and popped again. -/
theorem C9_push_front_pop_front_witness :
    exampleState.Wf ∧ IsList exampleState 0 exampleA ∧
      copyAlways exampleState.env 7 = (true, ()) ∧ exampleA.length + 1 < SIZE_MOD ∧
      ∃ s1 s2 a, push_front copyAlways exampleState 0 7 = .ok () s1 ∧
        IsList s1 0 ((a, 7) :: exampleA) ∧ vals ((a, 7) :: exampleA) = 7 :: vals exampleA ∧
        size s1 0 = some (exampleA.length + 1) ∧
        pop_front s1 0 = .ok () s2 ∧
        IsList s2 0 exampleA ∧ size s2 0 = size exampleState 0 :=
  ⟨exampleState_wf, exampleState_A, rfl, by decide,
    C9_push_front_pop_front copyAlways exampleState 0 exampleA 7 () exampleState_wf
      exampleState_A rfl (by decide)⟩

/-- C10. For a sequence `values` of `n` values (possibly none) whose copies all
succeed, `n` being a `size_t`: constructing a list from the literal sequence returns
a new list object `c` whose `size()` is `n`, whose `empty()` is `true` exactly when
`n = 0`, and whose traversal from `begin()` to `end()` yields `values` in that same
order. -/
theorem C10_initializer_list [Inhabited α] (cp : CopyCtor α E) (fuel : Nat) (s : State α E)
    (values : List α) (e : E) (hwf : s.Wf) (hn : values.length < SIZE_MOD)
    (hf : values.length < fuel) (hcopy : copyAll cp s.env values = some e) :
    ∃ s1 c l1 b, SingleLinkedList.ctor_initializer_list cp fuel s values = .ok c s1 ∧
      IsList s1 c l1 ∧ vals l1 = values ∧
      size s1 c = some values.length ∧
      empty s1 c = some (decide (values.length = 0)) ∧
      begin s1 c = some b ∧ traverse fuel s1 b end_ = .ok values := by
  obtain ⟨s1, _, _, hres⟩ := ctor_initializer_list_spec cp fuel s values hwf hn hf
  rcases hres with ⟨l1, _, hrun, hl1, hv, _⟩ | ⟨hc, _⟩
  · have hlen : l1.length = values.length := by
      rw [← hv]; simp [vals]
    refine ⟨s1, s.brk, l1, iterAt s.brk l1 1, hrun, hl1, hv, ?_, ?_, hl1.begin_eq, ?_⟩
    · rw [hl1.size_eq, hlen]
    · rw [hl1.empty_eq, hlen]
    · rw [hl1.traverse_eq fuel (by omega), hv]
  · rw [hcopy] at hc
    cases hc

/-- C10, from the empty state: the literal `{1, 2, 3, 4, 5}` of the tests. -/
theorem C10_initializer_list_witness :
    (State.init () : State Nat Unit).Wf ∧ [1, 2, 3, 4, 5].length < SIZE_MOD ∧
      [1, 2, 3, 4, 5].length < 6 ∧
      copyAll copyAlways (State.init () : State Nat Unit).env [1, 2, 3, 4, 5] = some () ∧
      ∃ s1 c l1 b,
        SingleLinkedList.ctor_initializer_list copyAlways 6 (State.init ()) [1, 2, 3, 4, 5]
          = .ok c s1 ∧
        IsList s1 c l1 ∧ vals l1 = [1, 2, 3, 4, 5] ∧
        size s1 c = some [1, 2, 3, 4, 5].length ∧
        empty s1 c = some (decide ([1, 2, 3, 4, 5].length = 0)) ∧
        begin s1 c = some b ∧ traverse 6 s1 b end_ = .ok [1, 2, 3, 4, 5] :=
  ⟨fun _ _ => rfl, by decide, by decide, rfl,
    C10_initializer_list copyAlways 6 (State.init ()) [1, 2, 3, 4, 5] () (fun _ _ => rfl)
      (by decide) (by decide) rfl⟩

theorem wf_of_frame {s s1 : State α E} {this : Nat} {l : List (Nat × α)} (hwf : s.Wf)
    (hl : IsList s this l) (hbrk : s.brk ≤ s1.brk)
    (hfr : ∀ b, b ≠ this → b ∉ addrs l → s.brk ≤ b → s1.mem b = s.mem b) : s1.Wf := by
  have hlt := hl.lt_brk hwf
  intro b hb
  have h1 : b ≠ this := by omega
  have h2 : b ∉ addrs l := fun h => by have h9 := hlt.2 b h; omega
  rw [hfr b h1 h2 (by omega), hwf b (by omega)]

theorem clear_nil (fuel : Nat) (s : State α E) (this : Nat) (hl : IsList s this [])
    (hf : 0 < fuel) : clear fuel s this = .ok s := by
  obtain ⟨L, hm, hch, _⟩ := hl
  have hp : L.head_.next_node = none := hch
  cases fuel with
  | zero => omega
  | succ fuel => simp [clear, getList, hm, hp]

/-- C11. For a list with nodes `l` whose `size_` is the number of its nodes:
`clear()` returns, and afterwards `size()` is `0` (reached by `n` decrements, not by
wrapping), `empty()` is `true`, `begin()` is `end()`, and the object has the null
head pointer and zero count of a default-constructed list; every node of the list is
destroyed and nothing else is touched. The list stays usable: a `push_front(v)`
(with a successful copy) then gives the one-element list `{v}` with size `1`. On an
empty list `clear()` returns the state it was called in. -/
theorem C11_clear (fuel : Nat) (s : State α E) (this : Nat) (l : List (Nat × α))
    (hl : IsList s this l) (hf : l.length < fuel) :
    ∃ s1, clear fuel s this = .ok s1 ∧
      size s1 this = some 0 ∧ empty s1 this = some true ∧ begin s1 this = some end_ ∧
      IsList s1 this [] ∧ (∃ d, getList s1 this = some ⟨⟨d, none⟩, 0⟩) ∧
      (∀ b ∈ addrs l, s1.mem b = none) ∧ (∀ b, b ≠ this → b ∉ addrs l → s1.mem b = s.mem b) ∧
      (∀ (cp : CopyCtor α E) (v : α) (e : E), s.Wf → cp s1.env v = (true, e) →
        ∃ s2 a, push_front cp s1 this v = .ok () s2 ∧ IsList s2 this [(a, v)] ∧
          size s2 this = some 1 ∧ empty s2 this = some false) ∧
      (l = [] → s1 = s) := by
  obtain ⟨s1, h1, h2, h3, h4, h5, h6⟩ := clear_ok fuel s this l hl hf
  refine ⟨s1, h1, ?_, ?_, ?_, h2, ?_, h5, h6, ?_, ?_⟩
  · simpa using h2.size_eq
  · simpa using h2.empty_eq
  · rw [h2.begin_eq]
    simp [iterAt, end_, addrs]
  · obtain ⟨L, hm, hch, hsz, _⟩ := h2
    have hp : L.head_.next_node = none := hch
    refine ⟨L.head_.value, ?_⟩
    simp only [getList, hm]
    cases L with
    | mk hd sz =>
      cases hd with
      | mk v nx =>
        simp only at hp hsz
        simp [hp, hsz]
  · intro cp v e hwf hcp
    have hwf1 : s1.Wf := wf_of_frame hwf hl (Nat.le_of_eq h3.symm) (fun b hb hbl _ => h6 b hb hbl)
    obtain ⟨s2, g1, g2, _⟩ := push_front_ok cp s1 this [] v e hwf1 h2 hcp
      (by simp only [List.length_nil]; decide)
    exact ⟨s2, s1.brk, g1, g2, by simpa using g2.size_eq, by simpa using g2.empty_eq⟩
  · intro hnil
    subst hnil
    rw [clear_nil fuel s this hl (by omega)] at h1
    cases h1
    rfl

/-- C11, at the concrete state: the list `{10, 30, 5}` at `3` is cleared. -/
theorem C11_clear_witness :
    IsList exampleState 3 exampleB ∧ exampleB.length < 5 ∧
      ∃ s1, clear 5 exampleState 3 = .ok s1 ∧
        size s1 3 = some 0 ∧ empty s1 3 = some true ∧ begin s1 3 = some end_ ∧
        IsList s1 3 [] ∧ (∃ d, getList s1 3 = some ⟨⟨d, none⟩, 0⟩) ∧
        (∀ b ∈ addrs exampleB, s1.mem b = none) ∧
        (∀ b, b ≠ 3 → b ∉ addrs exampleB → s1.mem b = exampleState.mem b) ∧
        (∀ (cp : CopyCtor Nat Unit) (v : Nat) (e : Unit), exampleState.Wf →
          cp s1.env v = (true, e) →
          ∃ s2 a, push_front cp s1 3 v = .ok () s2 ∧ IsList s2 3 [(a, v)] ∧
            size s2 3 = some 1 ∧ empty s2 3 = some false) ∧
        (exampleB = [] → s1 = exampleState) :=
  ⟨exampleState_B, by decide, C11_clear 5 exampleState 3 exampleB exampleState_B (by decide)⟩

/-- C13. Self-assignment `X = X` returns normally in the very state it was called
in: the memory (so the size, the elements, their order and the nodes of `X`, with
`begin()`), the allocation mark (no node is created) and the environment of the
element copy constructor (no element is copied) are unchanged, and no node is
destroyed. -/
theorem C13_self_assignment [Inhabited α] (cp : CopyCtor α E) (fuel : Nat) (s : State α E)
    (x : Nat) :
    ∃ s1, operator_assign cp fuel s x x = .ok () s1 ∧ s1 = s ∧
      size s1 x = size s x ∧ begin s1 x = begin s x ∧
      (∀ l, IsList s x l ↔ IsList s1 x l) ∧
      (∀ b, s1.mem b = s.mem b) ∧ s1.brk = s.brk ∧ s1.env = s.env :=
  ⟨s, by simp [operator_assign], rfl, rfl, rfl, fun _ => Iff.rfl, fun _ => rfl, rfl, rfl⟩

theorem swap_swap_mem (s s1 s2 : State α E) (a b : Nat) (la lb : List (Nat × α))
    (ha : IsList s a la) (hb : IsList s b lb) (h1 : swap s a b = some s1)
    (h2 : swap s1 a b = some s2) :
    (∀ c, s2.mem c = s.mem c) ∧ s2.brk = s.brk ∧ s2.env = s.env := by
  obtain ⟨A, hma, _⟩ := ha
  obtain ⟨B, hmb, _⟩ := hb
  by_cases hab : a = b
  · subst hab
    rw [hma] at hmb
    cases hmb
    simp only [swap, getList, hma, setNext, setSize, State.write_mem, if_true,
      Option.some.injEq] at h1
    subst h1
    simp only [swap, getList, setNext, setSize, State.write_mem, if_true,
      Option.some.injEq] at h2
    subst h2
    refine ⟨fun c => ?_, rfl, rfl⟩
    by_cases hc : c = a
    · subst hc
      simp [hma]
    · simp [hc]
  · have hba : b ≠ a := fun h => hab h.symm
    simp only [swap, getList, hma, hmb, setNext, setSize, State.write_mem, if_true, if_false,
      hab, hba, Option.some.injEq] at h1
    subst h1
    simp only [swap, getList, setNext, setSize, State.write_mem, if_true, if_false,
      hab, hba, Option.some.injEq] at h2
    subst h2
    refine ⟨fun c => ?_, rfl, rfl⟩
    by_cases hc : c = a
    · subst hc
      simp [hma, hab]
    · by_cases hc2 : c = b
      · subst hc2
        simp [hmb, hc]
      · simp [hc, hc2]

/-- C14. For two lists `A` (object `a`, nodes `la`) and `B` (object `b`, nodes `lb`):
two `swap(A, B)` in a row return, and afterwards the whole memory is as before the
first one: `A` and `B` have their original nodes, values and sizes, `A.begin()` and
`B.begin()` are the original iterators, and every iterator taken before the first swap
advances and dereferences as it did. -/
theorem C14_swap_involution (s : State α E) (a b : Nat) (la lb : List (Nat × α))
    (ha : IsList s a la) (hb : IsList s b lb) :
    ∃ s1 s2, swap_free s a b = some s1 ∧ swap_free s1 a b = some s2 ∧
      IsList s2 a la ∧ IsList s2 b lb ∧ size s2 a = size s a ∧ size s2 b = size s b ∧
      begin s2 a = begin s a ∧ begin s2 b = begin s b ∧
      (∀ c, s2.mem c = s.mem c) ∧ s2.brk = s.brk ∧ s2.env = s.env ∧
      (∀ it : BasicIterator, BasicIterator.deref s2 it = BasicIterator.deref s it ∧
        BasicIterator.inc s2 it = BasicIterator.inc s it) := by
  obtain ⟨s1, h1, h2, h3, _⟩ := swap_ok s a b la lb ha hb
  obtain ⟨s2, g1, g2, g3, _⟩ := swap_ok s1 a b lb la h2 h3
  obtain ⟨hm, hbrk, henv⟩ := swap_swap_mem s s1 s2 a b la lb ha hb h1 g1
  refine ⟨s1, s2, h1, g1, g2, g3, ?_, ?_, ?_, ?_, hm, hbrk, henv, fun it => ?_⟩
  · rw [g2.size_eq, ha.size_eq]
  · rw [g3.size_eq, hb.size_eq]
  · rw [g2.begin_eq, ha.begin_eq]
  · rw [g3.begin_eq, hb.begin_eq]
  · cases it with
    | mk p =>
      cases p with
      | none => simp [BasicIterator.deref, BasicIterator.inc]
      | some c => simp [BasicIterator.deref, BasicIterator.inc, valueOf, nextOf, hm c]

/-- C14, at the two lists of the concrete state. -/
theorem C14_swap_involution_witness :
    IsList exampleState 0 exampleA ∧ IsList exampleState 3 exampleB ∧
      ∃ s1 s2, swap_free exampleState 0 3 = some s1 ∧ swap_free s1 0 3 = some s2 ∧
        IsList s2 0 exampleA ∧ IsList s2 3 exampleB ∧
        size s2 0 = size exampleState 0 ∧ size s2 3 = size exampleState 3 ∧
        begin s2 0 = begin exampleState 0 ∧ begin s2 3 = begin exampleState 3 ∧
        (∀ c, s2.mem c = exampleState.mem c) ∧ s2.brk = exampleState.brk ∧
        s2.env = exampleState.env ∧
        (∀ it : BasicIterator,
          BasicIterator.deref s2 it = BasicIterator.deref exampleState it ∧
          BasicIterator.inc s2 it = BasicIterator.inc exampleState it) :=
  ⟨exampleState_A, exampleState_B,
    C14_swap_involution exampleState 0 3 exampleA exampleB exampleState_A exampleState_B⟩

/-- C15. For two lists `A` and `B` let `p` be the result of `A < B` and `r` the
result of `B < A`. Then `A > B` returns `r`, `A <= B` returns `!r` and `A >= B`
returns `!p`. If moreover the element `<` is a strict order, total up to `==` and
consistent with it (`x == y` exactly when neither `x < y` nor `y < x`), then with `q`
the result of `A == B`: `A <= B` is `true` iff `A < B` or `A == B` is, `A >= B` is
`true` iff `B < A` or `A == B` is, and `A <= A` and `A >= A` return `true`. -/
theorem C15_derived_comparisons (eq lt : α → α → Bool) (s : State α E) (a b : Nat)
    (la lb : List (Nat × α)) (ha : IsList s a la) (hb : IsList s b lb) (fuel : Nat)
    (hf1 : la.length < fuel) (hf2 : lb.length < fuel) :
    ∃ p r, operator_lt lt fuel s a b = .ok p ∧ operator_lt lt fuel s b a = .ok r ∧
      operator_gt lt fuel s a b = .ok r ∧
      operator_le lt fuel s a b = .ok (!r) ∧
      operator_ge lt fuel s a b = .ok (!p) ∧
      ((∀ x y, lt x y = true → lt y x = false) →
        (∀ x y, eq x y = true ↔ (lt x y = false ∧ lt y x = false)) →
        (∃ q, operator_eq eq fuel s a b = .ok q ∧
          ((!r) = true ↔ (p = true ∨ q = true)) ∧ ((!p) = true ↔ (r = true ∨ q = true))) ∧
        operator_le lt fuel s a a = .ok true ∧ operator_ge lt fuel s a a = .ok true) := by
  have hp := operator_lt_ok lt ha hb fuel hf1
  have hr := operator_lt_ok lt hb ha fuel hf2
  refine ⟨_, _, hp, hr, hr, by simp [operator_le, hr], by simp [operator_ge, hp], ?_⟩
  intro hasym hcons
  have hrefl : ∀ x, eq x x = true := fun x => by
    have hirr : lt x x = false := by
      cases h : lt x x with
      | false => rfl
      | true => rw [hasym x x h] at h; cases h
    exact (hcons x x).mpr ⟨hirr, hirr⟩
  have hq : operator_eq eq fuel s a b = .ok (listEq eq (vals la) (vals lb)) := by
    by_cases hab : a = b
    · subst hab
      have hll := ha.same_object hb
      subst hll
      simp [operator_eq, listEq_refl hrefl]
    · exact operator_eq_ok eq ha hb hab fuel hf1
  have htri := lex_trichotomy eq lt hasym hcons (vals la) (vals lb)
  have haa := operator_lt_ok lt ha ha fuel hf1
  rw [lexLt_irrefl hasym] at haa
  refine ⟨⟨_, hq, ?_, ?_⟩, by simp [operator_le, haa], by simp [operator_ge, haa]⟩
  · rcases htri with ⟨h1, h2, h3⟩ | ⟨h1, h2, h3⟩ | ⟨h1, h2, h3⟩ <;> simp [h1, h2, h3]
  · rcases htri with ⟨h1, h2, h3⟩ | ⟨h1, h2, h3⟩ | ⟨h1, h2, h3⟩ <;> simp [h1, h2, h3]

/-- C15, at the two lists of the concrete state, for `int`. -/
theorem C15_derived_comparisons_witness :
    IsList exampleState 0 exampleA ∧ IsList exampleState 3 exampleB ∧
      exampleA.length < 5 ∧ exampleB.length < 5 ∧
      (∀ x y : Nat, intLt x y = true → intLt y x = false) ∧
      (∀ x y : Nat, intEq x y = true ↔ (intLt x y = false ∧ intLt y x = false)) ∧
      ∃ p r, operator_lt intLt 5 exampleState 0 3 = .ok p ∧
        operator_lt intLt 5 exampleState 3 0 = .ok r ∧
        operator_gt intLt 5 exampleState 0 3 = .ok r ∧
        operator_le intLt 5 exampleState 0 3 = .ok (!r) ∧
        operator_ge intLt 5 exampleState 0 3 = .ok (!p) ∧
        ((∀ x y, intLt x y = true → intLt y x = false) →
          (∀ x y, intEq x y = true ↔ (intLt x y = false ∧ intLt y x = false)) →
          (∃ q, operator_eq intEq 5 exampleState 0 3 = .ok q ∧
            ((!r) = true ↔ (p = true ∨ q = true)) ∧
            ((!p) = true ↔ (r = true ∨ q = true))) ∧
          operator_le intLt 5 exampleState 0 0 = .ok true ∧
          operator_ge intLt 5 exampleState 0 0 = .ok true) :=
  ⟨exampleState_A, exampleState_B, by decide, by decide,
    fun x y h => by simp [intLt] at h ⊢; omega, fun x y => by simp [intLt, intEq]; omega,
    C15_derived_comparisons intEq intLt exampleState 0 3 exampleA exampleB exampleState_A
      exampleState_B 5 (by decide) (by decide)⟩

theorem IsList.std_next_eq {s : State α E} {this : Nat} {l : List (Nat × α)}
    (h : IsList s this l) (j k : Nat) (hjk : j + k ≤ l.length + 1) :
    std_next s (iterAt this l j) k = .ok (iterAt this l (j + k)) := by
  induction k generalizing j with
  | zero => rfl
  | succ k ih =>
    have h1 := h.inc_eq (k := j) (by omega)
    have h2 := ih (j + 1) (by omega)
    simp only [std_next, h1, h2]
    congr 2
    omega

/-- C16. For a list with nodes `l` (values `e_1..e_n`): advancing `before_begin()`
once gives `begin()`; advancing `begin()` `k` times for `k < n` gives an iterator
that is not `end()` and dereferences to `e_{k+1}`; advancing `begin()` `n` times
gives `end()`; all of these advances and dereferences return normally, none fails
the `assert(node_)` of the iterator (which advancing `end()` does); and `begin()`
is `end()` exactly when the list is empty. -/
theorem C16_forward_traversal (s : State α E) (this : Nat) (l : List (Nat × α))
    (hl : IsList s this l) :
    ∃ b, begin s this = some b ∧
      BasicIterator.inc s (before_begin this) = .ok b ∧
      (∀ (k : Nat) (hk : k < l.length), ∃ it, std_next s b k = .ok it ∧
        BasicIterator.ne it end_ = true ∧ BasicIterator.deref s it = .ok (l[k].2)) ∧
      std_next s b l.length = .ok end_ ∧
      (BasicIterator.eq b end_ = true ↔ l.length = 0) ∧
      (BasicIterator.eq b end_ = true ↔ empty s this = some true) ∧
      BasicIterator.inc s end_ = .error .assertion := by
  refine ⟨iterAt this l 1, hl.begin_eq, ?_, fun k hk => ?_, ?_, ?_, ?_, rfl⟩
  · rw [← iterAt_zero this l]
    exact hl.inc_eq (Nat.zero_le _)
  · refine ⟨iterAt this l (1 + k), hl.std_next_eq 1 k (by omega), ?_, ?_⟩
    · rw [Nat.add_comm]
      exact iterAt_ne_end hk
    · rw [Nat.add_comm]
      exact hl.deref_eq hk
  · rw [hl.std_next_eq 1 l.length (by omega), Nat.add_comm, iterAt_end]
  · cases l with
    | nil => simp [iterAt, end_, addrs, BasicIterator.eq]
    | cons hd tl => simp [iterAt, end_, addrs, BasicIterator.eq]
  · rw [hl.empty_eq]
    cases l with
    | nil => simp [iterAt, end_, addrs, BasicIterator.eq]
    | cons hd tl => simp [iterAt, end_, addrs, BasicIterator.eq]

/-- C16, at the list `{10, 30, 5}` of the concrete state. -/
theorem C16_forward_traversal_witness :
    IsList exampleState 3 exampleB ∧
      ∃ b, begin exampleState 3 = some b ∧
        BasicIterator.inc exampleState (before_begin 3) = .ok b ∧
        (∀ (k : Nat) (hk : k < exampleB.length), ∃ it, std_next exampleState b k = .ok it ∧
          BasicIterator.ne it end_ = true ∧
          BasicIterator.deref exampleState it = .ok (exampleB[k].2)) ∧
        std_next exampleState b exampleB.length = .ok end_ ∧
        (BasicIterator.eq b end_ = true ↔ exampleB.length = 0) ∧
        (BasicIterator.eq b end_ = true ↔ empty exampleState 3 = some true) ∧
        BasicIterator.inc exampleState end_ = .error .assertion :=
  ⟨exampleState_B, C16_forward_traversal exampleState 3 exampleB exampleState_B⟩

theorem vals_set (l : List (Nat × α)) (k : Nat) (a : Nat) (w : α) :
    vals (l.set k (a, w)) = (vals l).set k w := by
  simp [vals, List.map_set]

theorem addrs_set_self (l : List (Nat × α)) (k : Nat) (hk : k < l.length) (w : α) :
    addrs (l.set k (l[k].1, w)) = addrs l := by
  simp only [addrs, List.map_set]
  apply List.ext_getElem
  · simp
  · intro i h1 h2
    by_cases hik : k = i
    · subst hik
      simp
    · simp [List.getElem_set_ne hik]

theorem Seg.store {m m1 : Nat → Option (Cell α)} {l : List (Nat × α)} {p q : Ptr}
    (h : Seg m p l q) (hnd : (addrs l).Nodup) (k : Nat) (hk : k < l.length) (w : α)
    (nxt : Ptr) (hm1 : m1 (l[k].1) = some (.node ⟨w, nxt⟩))
    (hm0 : m (l[k].1) = some (.node ⟨l[k].2, nxt⟩))
    (hfr : ∀ b ∈ addrs l, b ≠ l[k].1 → m1 b = m b) :
    Seg m1 p (l.set k (l[k].1, w)) q := by
  induction l generalizing p k with
  | nil => simp at hk
  | cons hd tl ih =>
    obtain ⟨a, x⟩ := hd
    obtain ⟨hp, n0, hma, hrest⟩ := h
    simp only [addrs, List.map_cons, List.nodup_cons] at hnd
    cases k with
    | zero =>
      simp only [List.getElem_cons_zero] at hm1 hm0 hfr
      rw [hma] at hm0
      cases hm0
      refine ⟨hp, _, hm1, Seg.frame hrest (fun b hb => hfr b ?_ ?_)⟩
      · simp [addrs] at hb ⊢
        exact Or.inr hb
      · exact fun hba => hnd.1 (hba ▸ hb)
    | succ k =>
      simp only [List.getElem_cons_succ, List.length_cons] at hm1 hm0 hfr hk
      have hk1 : k < tl.length := by omega
      have hne : a ≠ tl[k].1 := by
        intro hka
        apply hnd.1
        rw [hka]
        exact List.mem_map.mpr ⟨tl[k], List.getElem_mem _, rfl⟩
      refine ⟨hp, n0, ?_, ih hrest hnd.2 k hk1 hm1 hm0 (fun b hb hbk => hfr b ?_ hbk)⟩
      · rw [hfr a (by simp [addrs]) hne, hma]
      · simp [addrs] at hb ⊢
        exact Or.inr hb

theorem store_ok (s : State α E) (this : Nat) (l : List (Nat × α)) (k : Nat) (w : α)
    (hl : IsList s this l) (hk : k < l.length) :
    ∃ s1, BasicIterator.store s (iterAt this l (k + 1)) w = .ok s1 ∧
      IsList s1 this (l.set k (l[k].1, w)) ∧ s1.brk = s.brk ∧ s1.env = s.env ∧
      ∀ b, b ≠ l[k].1 → s1.mem b = s.mem b := by
  have hnm := hl.this_not_mem
  obtain ⟨L, hm, hch, hsz, hb⟩ := hl
  have hg := Seg.getElem hch hk
  have hmem : l[k].1 ∈ addrs l := List.mem_map.mpr ⟨l[k], List.getElem_mem _, rfl⟩
  have hne : this ≠ l[k].1 := fun h => hnm (h ▸ hmem)
  have hit : (iterAt this l (k + 1)).node_ = some l[k].1 := by
    simp [iterAt, addrs, hk]
  refine ⟨s.write l[k].1 (.node ⟨w, (addrs l)[k + 1]?⟩), ?_, ⟨L, ?_, ?_, ?_, ?_⟩, rfl, rfl, ?_⟩
  · simp [BasicIterator.store, hit, hg]
  · simp [hne, hm]
  · exact Seg.store hch (Chain.nodup hch) k hk w _ (by simp) hg (fun b _ hbk => by simp [hbk])
  · simpa using hsz
  · simpa using hb
  · intro b hbk
    simp [hbk]

/-- C17. For a list with nodes `l` (values `e_1..e_n`) and `k` in `1..n` (here the
index `k - 1`): assigning `w` through the mutable iterator at the `k`-th element
returns, and afterwards the list has the same nodes in the same order with the value
of the `k`-th one replaced by `w` and every other value unchanged, `size()` is
unchanged, no other object is touched, and the read-only iterator reached from
`cbegin()` by `k - 1` advances is the same position and dereferences to `w`. -/
theorem C17_store_through_iterator (s : State α E) (this : Nat) (l : List (Nat × α))
    (k : Nat) (w : α) (hl : IsList s this l) (hk : k < l.length) :
    ∃ s1, BasicIterator.store s (iterAt this l (k + 1)) w = .ok s1 ∧
      IsList s1 this (l.set k (l[k].1, w)) ∧
      addrs (l.set k (l[k].1, w)) = addrs l ∧
      vals (l.set k (l[k].1, w)) = (vals l).set k w ∧
      size s1 this = size s this ∧
      (∀ b, b ≠ l[k].1 → s1.mem b = s.mem b) ∧
      ∃ cb it, begin s1 this = some cb ∧ std_next s1 cb k = .ok it ∧
        it = iterAt this l (k + 1) ∧ BasicIterator.deref s1 it = .ok w := by
  obtain ⟨s1, h1, h2, _, _, h5⟩ := store_ok s this l k w hl hk
  have hlen : (l.set k (l[k].1, w)).length = l.length := by simp
  have hk2 : k < (l.set k (l[k].1, w)).length := by omega
  have hiter : ∀ j, iterAt this (l.set k (l[k].1, w)) j = iterAt this l j := by
    intro j
    simp only [iterAt, addrs_set_self l k hk w]
  refine ⟨s1, h1, h2, addrs_set_self l k hk w, vals_set l k _ w, ?_, h5,
    iterAt this l 1, iterAt this l (k + 1), ?_, ?_, rfl, ?_⟩
  · rw [h2.size_eq, hl.size_eq, hlen]
  · rw [h2.begin_eq, hiter]
  · have h3 := h2.std_next_eq 1 k (by omega)
    rw [hiter, hiter, Nat.add_comm 1 k] at h3
    exact h3
  · have h4 := h2.deref_eq hk2
    rw [hiter] at h4
    simpa using h4

/-- C17, at the list `{10, 30, 5}` of the concrete state: `77` is written to the
second element. -/
theorem C17_store_through_iterator_witness :
    IsList exampleState 3 exampleB ∧
      ∃ (hk : 1 < exampleB.length) (s1 : State Nat Unit),
        BasicIterator.store exampleState (iterAt 3 exampleB (1 + 1)) 77 = .ok s1 ∧
        IsList s1 3 (exampleB.set 1 (exampleB[1].1, 77)) ∧
        addrs (exampleB.set 1 (exampleB[1].1, 77)) = addrs exampleB ∧
        vals (exampleB.set 1 (exampleB[1].1, 77)) = (vals exampleB).set 1 77 ∧
        size s1 3 = size exampleState 3 ∧
        (∀ b, b ≠ exampleB[1].1 → s1.mem b = exampleState.mem b) ∧
        ∃ cb it, begin s1 3 = some cb ∧ std_next s1 cb 1 = .ok it ∧
          it = iterAt 3 exampleB (1 + 1) ∧ BasicIterator.deref s1 it = .ok 77 :=
  ⟨exampleState_B, by decide,
    C17_store_through_iterator exampleState 3 exampleB 1 77 exampleState_B (by decide)⟩

theorem push_front_throw (cp : CopyCtor α E) (s : State α E) (this : Nat) (l : List (Nat × α))
    (v : α) (e : E) (hl : IsList s this l) (hcp : cp s.env v = (false, e)) :
    push_front cp s this v = .throw { s with env := e } := by
  obtain ⟨L, hm, _⟩ := hl
  simp [push_front, getList, hm, newNode, hcp]

/-- C18. For a list with nodes `l` and a value `v`: if the copy of `v` into the new
node throws, `push_front(v)` throws, and the memory is as before, so the list has
exactly its prior nodes, values and size and nothing is allocated; if the copy
succeeds (and the size stays a `size_t`), `push_front(v)` returns and the list is `v`
followed by the prior nodes, with size `n + 1`. -/
theorem C18_push_front_strong_guarantee (cp : CopyCtor α E) (s : State α E) (this : Nat)
    (l : List (Nat × α)) (v : α) (hwf : s.Wf) (hl : IsList s this l) :
    ((cp s.env v).1 = false →
      ∃ s1, push_front cp s this v = .throw s1 ∧ IsList s1 this l ∧
        size s1 this = size s this ∧ (∀ b, s1.mem b = s.mem b) ∧ s1.brk = s.brk) ∧
    ((cp s.env v).1 = true → l.length + 1 < SIZE_MOD →
      ∃ s1 a, push_front cp s this v = .ok () s1 ∧ IsList s1 this ((a, v) :: l) ∧
        size s1 this = some (l.length + 1)) ∧
    (∀ s1, push_front cp s this v = .throw s1 → (cp s.env v).1 = false) := by
  rcases hcp : cp s.env v with ⟨ok, e⟩
  cases ok with
  | false =>
    have ht := push_front_throw cp s this l v e hl hcp
    refine ⟨fun _ => ⟨_, ht, hl.transport rfl (fun _ _ => rfl), rfl, fun _ => rfl, rfl⟩,
      fun h => by simp at h, fun _ _ => rfl⟩
  | true =>
    refine ⟨fun h => by simp at h, fun _ hsz => ?_, fun s1 h => ?_⟩
    · obtain ⟨s1, h1, h2, _⟩ := push_front_ok cp s this l v e hwf hl hcp hsz
      exact ⟨s1, s.brk, h1, h2, by simpa using h2.size_eq⟩
    · obtain ⟨L, hm, _⟩ := hl
      simp [push_front, getList, hm, newNode, hcp, State.alloc] at h
      split at h <;> cases h

/-- C18, at the concrete state with an exhausted countdown: the copy of `7` throws. -/
theorem C18_push_front_strong_guarantee_witness :
    (exampleThrowState 0).Wf ∧ IsList (exampleThrowState 0) 0 exampleA ∧
      (throwOnCopy (exampleThrowState 0).env 7).1 = false ∧
      ∃ s1, push_front throwOnCopy (exampleThrowState 0) 0 7 = .throw s1 ∧
        IsList s1 0 exampleA ∧ size s1 0 = size (exampleThrowState 0) 0 ∧
        (∀ b, s1.mem b = (exampleThrowState 0).mem b) ∧ s1.brk = (exampleThrowState 0).brk :=
  ⟨exampleThrowState_wf 0, exampleThrowState_A 0, rfl,
    (C18_push_front_strong_guarantee throwOnCopy (exampleThrowState 0) 0 exampleA 7
      (exampleThrowState_wf 0) (exampleThrowState_A 0)).1 rfl⟩

/-! ## Mutations are local -/

/-- A mutation that allocates nothing is a local step. -/
theorem LocalStep.of_no_alloc {s s1 : State α E} {this : Nat} {l l1 : List (Nat × α)}
    (hwf : s.Wf) (hl : IsList s this l) (hl1 : IsList s1 this l1) (hbrk : s1.brk = s.brk)
    (hfr : ∀ b, b ≠ this → b ∉ addrs l → s1.mem b = s.mem b)
    (hsub : ∀ b ∈ addrs l1, b ∈ addrs l)
    (hdead : ∀ b ∈ addrs l, b ∉ addrs l1 → s1.mem b = none) : LocalStep s s1 this l l1 := by
  have hwf1 : s1.Wf := wf_of_frame hwf hl (Nat.le_of_eq hbrk.symm) (fun b h1 h2 _ => hfr b h1 h2)
  refine ⟨hl1, hwf1, fun b h1 h2 _ => hfr b h1 h2, fun b hb => Or.inl (hsub b hb),
    fun b h1 h2 h3 => ?_⟩
  rcases h3 with h3 | h3
  · exact hdead b h3 h2
  · exact hwf1 b (by omega)

/-- A mutation that allocates one node is a local step. -/
theorem LocalStep.of_alloc {s s1 : State α E} {this : Nat} {l l1 : List (Nat × α)}
    (hl1 : IsList s1 this l1) (hwf1 : s1.Wf) (hbrk : s1.brk = s.brk + 1)
    (hfr : ∀ b, b ≠ this → b ∉ addrs l → b ≠ s.brk → s1.mem b = s.mem b)
    (hsub : ∀ b ∈ addrs l1, b ∈ addrs l ∨ b = s.brk)
    (hsup : ∀ b ∈ addrs l, b ∈ addrs l1) (hnew : s.brk ∈ addrs l1) :
    LocalStep s s1 this l l1 := by
  refine ⟨hl1, hwf1, fun b h1 h2 h3 => hfr b h1 h2 (by omega), fun b hb => ?_,
    fun b h1 h2 h3 => ?_⟩
  · rcases hsub b hb with h | h
    · exact Or.inl h
    · exact Or.inr (by omega)
  · rcases h3 with h3 | h3
    · exact absurd (hsup b h3) h2
    · have hne : b ≠ s.brk := fun h => h2 (h ▸ hnew)
      exact hwf1 b (by omega)

theorem LocalStep.of_throw {s : State α E} {this : Nat} {l : List (Nat × α)} (e : E)
    (hwf : s.Wf) (hl : IsList s this l) : LocalStep s { s with env := e } this l l :=
  LocalStep.of_no_alloc hwf hl (hl.transport rfl (fun _ _ => rfl)) rfl (fun _ _ _ => rfl)
    (fun _ h => h) (fun _ h1 h2 => absurd h1 h2)

theorem mem_addrs_of_take_drop {l : List (Nat × α)} {k b : Nat} (hk : k < l.length)
    (hb : b ∈ addrs l) (hnb : b ∉ addrs (l.take k ++ l.drop (k + 1))) : b = l[k].1 := by
  have hsplit : l = l.take k ++ l[k] :: l.drop (k + 1) := by simp
  rw [hsplit] at hb
  simp only [addrs, List.map_append, List.map_cons, List.mem_append, List.mem_cons] at hb hnb
  rcases hb with h | h | h
  · exact absurd (Or.inl h) hnb
  · exact h
  · exact absurd (Or.inr h) hnb

theorem mem_addrs_insert {l : List (Nat × α)} {k b a : Nat} {v : α} :
    b ∈ addrs (l.take k ++ (a, v) :: l.drop k) ↔ b ∈ addrs l ∨ b = a := by
  have hsplit : addrs l = addrs (l.take k) ++ addrs (l.drop k) := by
    simp only [addrs, ← List.map_append, List.take_append_drop]
  rw [hsplit]
  simp only [addrs, List.map_append, List.map_cons, List.mem_append, List.mem_cons]
  tauto

/-- Every mutation of a list made within its contract returns or throws, and is a
local step. -/
theorem mutation_localStep [Inhabited α] (cp : CopyCtor α E) (fuel : Nat) (s : State α E)
    (c : Nat) (op : Op α) (l : List (Nat × α)) (hwf : s.Wf) (hl : IsList s c l)
    (hop : MutationOf fuel s c op) :
    ∃ s1 l1, (exec cp fuel s op = .ok () s1 ∨ exec cp fuel s op = .throw s1) ∧
      LocalStep s s1 c l l1 := by
  cases op with
  | ctor => exact absurd hop (by simp [MutationOf])
  | ctor_initializer_list values => exact absurd hop (by simp [MutationOf])
  | ctor_copy other => exact absurd hop (by simp [MutationOf])
  | dtor this => exact absurd hop (by simp [MutationOf])
  | swap this other => exact absurd hop (by simp [MutationOf])
  | operator_assign this other => exact absurd hop (by simp [MutationOf])
  | push_front this v =>
    obtain ⟨rfl, l0, hl0, hsz⟩ := hop
    have hll := hl0.same_object hl
    subst hll
    rcases hcp : cp s.env v with ⟨ok, e⟩
    cases ok with
    | false =>
      exact ⟨_, l0, Or.inr (push_front_throw cp s this l0 v e hl hcp), LocalStep.of_throw e hwf hl⟩
    | true =>
      obtain ⟨s1, h1, h2, h3, _, h5, h6⟩ := push_front_ok cp s this l0 v e hwf hl hcp hsz
      refine ⟨s1, _, Or.inl h1, LocalStep.of_alloc h2 h5 h3 h6 ?_ ?_ ?_⟩
      · intro b hb
        simp only [addrs, List.map_cons, List.mem_cons] at hb
        rcases hb with h | h
        · exact Or.inr h
        · exact Or.inl h
      · intro b hb
        simp only [addrs, List.map_cons, List.mem_cons]
        exact Or.inr hb
      · simp [addrs]
  | insert_after this pos v =>
    obtain ⟨rfl, l0, k, hl0, hk, rfl, hsz⟩ := hop
    have hll := hl0.same_object hl
    subst hll
    rcases hcp : cp s.env v with ⟨ok, e⟩
    cases ok with
    | false =>
      refine ⟨_, l0, Or.inr ?_, LocalStep.of_throw e hwf hl⟩
      simp only [exec, insert_after_throw cp s this l0 k v e hl hk hcp]
    | true =>
      obtain ⟨s1, h1, h2, h3, _, h5, h6⟩ := insert_after_ok cp s this l0 k v e hwf hl hk hcp hsz
      refine ⟨s1, _, Or.inl (by simp only [exec, h1]), LocalStep.of_alloc h2 h5 h3 h6 ?_ ?_ ?_⟩
      · intro b hb
        exact mem_addrs_insert.mp hb
      · intro b hb
        exact mem_addrs_insert.mpr (Or.inl hb)
      · exact mem_addrs_insert.mpr (Or.inr rfl)
  | pop_front this =>
    obtain ⟨rfl, l0, hl0, hne⟩ := hop
    have hll := hl0.same_object hl
    subst hll
    cases l0 with
    | nil => exact absurd rfl hne
    | cons hd tl =>
      obtain ⟨c0, y⟩ := hd
      obtain ⟨s1, h1, h2, h3, _, h5, h6⟩ := pop_front_ok s this c0 y tl hl
      refine ⟨s1, tl, Or.inl h1, LocalStep.of_no_alloc hwf hl h2 h3 ?_ ?_ ?_⟩
      · intro b hb hbl
        exact h6 b hb (fun h => hbl (by simp [addrs, h]))
      · intro b hb
        simp only [addrs, List.map_cons, List.mem_cons]
        exact Or.inr hb
      · intro b hb hnb
        simp only [addrs, List.map_cons, List.mem_cons] at hb
        rcases hb with h | h
        · rw [h, h5]
        · exact absurd h hnb
  | erase_after this pos =>
    obtain ⟨rfl, l0, k, hl0, hk, rfl⟩ := hop
    have hll := hl0.same_object hl
    subst hll
    obtain ⟨s1, h1, h2, h3, _, h5, h6⟩ := erase_after_ok s this l0 k hl hk
    refine ⟨s1, _, Or.inl (by simp only [exec, h1]), LocalStep.of_no_alloc hwf hl h2 h3 h6 ?_ ?_⟩
    · intro b hb
      simp only [addrs, List.map_append, List.mem_append] at hb
      rcases hb with h | h
      · exact mem_addrs_take h
      · exact mem_addrs_drop h
    · intro b hb hnb
      rw [mem_addrs_of_take_drop hk hb hnb, h5]
  | clear this =>
    obtain ⟨rfl, l0, hl0, hf⟩ := hop
    have hll := hl0.same_object hl
    subst hll
    obtain ⟨s1, h1, h2, h3, _, h5, h6⟩ := clear_ok fuel s this l0 hl hf
    refine ⟨s1, [], Or.inl (by simp only [exec, h1]), LocalStep.of_no_alloc hwf hl h2 h3 h6 ?_ ?_⟩
    · intro b hb
      simp [addrs] at hb
    · intro b hb _
      exact h5 b hb
  | store it w =>
    obtain ⟨l0, k, hl0, hk, rfl⟩ := hop
    have hll := hl0.same_object hl
    subst hll
    obtain ⟨s1, h1, h2, h3, _, h5⟩ := store_ok s c l0 k w hl hk
    have hmem : l0[k].1 ∈ addrs l0 := List.mem_map.mpr ⟨l0[k], List.getElem_mem _, rfl⟩
    refine ⟨s1, _, Or.inl (by simp only [exec, h1]), LocalStep.of_no_alloc hwf hl h2 h3 ?_ ?_ ?_⟩
    · intro b _ hbl
      exact h5 b (fun h => hbl (h ▸ hmem))
    · intro b hb
      rw [addrs_set_self l0 k hk w] at hb
      exact hb
    · intro b hb hnb
      rw [addrs_set_self l0 k hk w] at hnb
      exact absurd hb hnb

theorem mutation_localStep_of_exec [Inhabited α] (cp : CopyCtor α E) (fuel : Nat)
    (s s1 : State α E) (c : Nat) (op : Op α) (l : List (Nat × α)) (hwf : s.Wf)
    (hl : IsList s c l) (hop : MutationOf fuel s c op)
    (hex : exec cp fuel s op = .ok () s1 ∨ exec cp fuel s op = .throw s1) :
    ∃ l1, LocalStep s s1 c l l1 := by
  obtain ⟨s2, l1, hr, hstep⟩ := mutation_localStep cp fuel s c op l hwf hl hop
  have hs : s2 = s1 := by
    rcases hr with hr | hr <;> rcases hex with hex | hex <;> rw [hr] at hex <;> cases hex <;> rfl
  exact ⟨l1, hs ▸ hstep⟩

/-- A local step of `C` keeps a separate list `S` as it is. -/
theorem Separate.after_localStep {s s1 : State α E} {c o : Nat} {lC lC1 lS : List (Nat × α)}
    (h : Separate s c o lC lS) (hstep : LocalStep s s1 c lC lC1) : Separate s1 c o lC1 lS := by
  obtain ⟨hwf, hC, hS, hne, hdisj⟩ := h
  obtain ⟨hC1, hwf1, hfr, hnew, _⟩ := hstep
  have hltS := hS.lt_brk hwf
  refine ⟨hwf1, hC1, ?_, hne, fun b hb hbS => ?_⟩
  · refine hS.transport (hfr o (Ne.symm hne) (hS.not_mem_of_isList hC) hltS.1) (fun b hb => ?_)
    exact hfr b (fun h => hC.not_mem_of_isList hS (h ▸ hb)) (fun h => hdisj b h hb)
      (hltS.2 b hb)
  · rcases hnew b hb with h | h
    · exact hdisj b h hbS
    · have h9 := hltS.2 b hbS
      omega

/-- Mutations of `C`, however many, keep a separate list `S` as it is. -/
theorem Separate.mutated [Inhabited α] {cp : CopyCtor α E} {s s1 : State α E} {c o : Nat}
    {lC lS : List (Nat × α)} (h : Separate s c o lC lS) (hm : Mutated cp c s s1) :
    ∃ lC1, Separate s1 c o lC1 lS := by
  induction hm with
  | refl => exact ⟨lC, h⟩
  | ok fuel op s1 s2 _ hop hex ih =>
    obtain ⟨lC1, h1⟩ := ih
    obtain ⟨lC2, hstep⟩ := mutation_localStep_of_exec cp fuel s1 s2 c op lC1 h1.1 h1.2.1 hop
      (Or.inl hex)
    exact ⟨lC2, h1.after_localStep hstep⟩
  | throw fuel op s1 s2 _ hop hex ih =>
    obtain ⟨lC1, h1⟩ := ih
    obtain ⟨lC2, hstep⟩ := mutation_localStep_of_exec cp fuel s1 s2 c op lC1 h1.1 h1.2.1 hop
      (Or.inr hex)
    exact ⟨lC2, h1.after_localStep hstep⟩

/-- A local step of one list keeps the world well formed. -/
theorem World.localStep {s s1 : State α E} {L : Nat → Option (List (Nat × α))} {c : Nat}
    {l l1 : List (Nat × α)} (h : World s L) (hc : L c = some l) (hstep : LocalStep s s1 c l l1) :
    World s1 (Function.update L c (some l1)) := by
  obtain ⟨hwf, hlists, hdisj, hcover⟩ := h
  obtain ⟨hC1, hwf1, hfr, hnew, hdead⟩ := hstep
  have hC := hlists c l hc
  refine ⟨hwf1, fun o lo ho => ?_, fun o1 o2 l2 l3 hne h1 h2 b hb hb3 => ?_, fun b x hb => ?_⟩
  · by_cases hoc : o = c
    · subst hoc
      simp only [Function.update_same, Option.some.injEq] at ho
      exact ho ▸ hC1
    · rw [Function.update_noteq hoc] at ho
      have hO := hlists o lo ho
      have hltO := hO.lt_brk hwf
      refine hO.transport (hfr o hoc (hO.not_mem_of_isList hC) hltO.1) (fun b hb => ?_)
      exact hfr b (fun h => hC.not_mem_of_isList hO (h ▸ hb))
        (fun h => hdisj c o l lo (Ne.symm hoc) hc ho b h hb) (hltO.2 b hb)
  · by_cases h1c : o1 = c
    · subst h1c
      simp only [Function.update_same, Option.some.injEq] at h1
      subst h1
      rw [Function.update_noteq (Ne.symm hne)] at h2
      rcases hnew b hb with h | h
      · exact hdisj o1 o2 l l3 hne hc h2 b h hb3
      · have h9 := ((hlists o2 l3 h2).lt_brk hwf).2 b hb3
        omega
    · rw [Function.update_noteq h1c] at h1
      by_cases h2c : o2 = c
      · subst h2c
        simp only [Function.update_same, Option.some.injEq] at h2
        subst h2
        rcases hnew b hb3 with h | h
        · exact hdisj o1 o2 l2 l hne h1 hc b hb h
        · have h9 := ((hlists o1 l2 h1).lt_brk hwf).2 b hb
          omega
      · rw [Function.update_noteq h2c] at h2
        exact hdisj o1 o2 l2 l3 hne h1 h2 b hb hb3
  · by_cases hbc : b = c
    · exact Or.inl ⟨l1, by rw [hbc, Function.update_same]⟩
    · by_cases hb1 : b ∈ addrs l1
      · exact Or.inr ⟨c, l1, by rw [Function.update_same], hb1⟩
      · by_cases hold : b ∈ addrs l ∨ s.brk ≤ b
        · rw [hdead b hbc hb1 hold] at hb
          cases hb
        · simp only [not_or, not_le] at hold
          rw [hfr b hbc hold.1 hold.2] at hb
          rcases hcover b x hb with ⟨lb, hlb⟩ | ⟨o, lo, ho, hbo⟩
          · exact Or.inl ⟨lb, by rw [Function.update_noteq hbc, hlb]⟩
          · have hoc : o ≠ c := by
              intro hoc
              rw [hoc, hc] at ho
              cases ho
              exact hold.1 hbo
            exact Or.inr ⟨o, lo, by rw [Function.update_noteq hoc, ho], hbo⟩

/-! ## Every call keeps the world well formed -/

theorem World.init (e : E) : World (State.init e : State α E) (fun _ => none) := by
  refine ⟨fun _ _ => rfl, ?_, ?_, ?_⟩
  · intro o l h
    cases h
  · intro o1 o2 l1 l2 _ h
    cases h
  · intro b c h
    cases h

/-- A list object of a well-formed world is one of its lists. -/
theorem World.lookup {s : State α E} {L : Nat → Option (List (Nat × α))} (h : World s L)
    {o : Nat} {l : List (Nat × α)} (hl : IsList s o l) : L o = some l := by
  obtain ⟨X, hm, _⟩ := id hl
  rcases h.2.2.2 o _ hm with ⟨l1, h1⟩ | ⟨o1, l1, h1, hmem⟩
  · rw [h1, (h.2.1 o l1 h1).same_object hl]
  · exact absurd hmem (hl.not_mem_of_isList (h.2.1 o1 l1 h1))

theorem World.of_mem_eq {s s1 : State α E} {L : Nat → Option (List (Nat × α))} (h : World s L)
    (hwf1 : s1.Wf) (hmem : ∀ b, s1.mem b = s.mem b) : World s1 L := by
  obtain ⟨_, hlists, hdisj, hcover⟩ := h
  refine ⟨hwf1, fun o l ho => (hlists o l ho).transport (hmem o) (fun b _ => hmem b), hdisj,
    fun b x hb => ?_⟩
  rw [hmem b] at hb
  exact hcover b x hb

/-- A new list object, with new nodes, joins the world. -/
theorem World.add {s s1 : State α E} {L : Nat → Option (List (Nat × α))} {l1 : List (Nat × α)}
    (h : World s L) (hl1 : IsList s1 s.brk l1) (hwf1 : s1.Wf)
    (habove : ∀ b ∈ addrs l1, s.brk < b)
    (hfr : ∀ b, b ≠ s.brk → b ∉ addrs l1 → s1.mem b = s.mem b) :
    World s1 (Function.update L s.brk (some l1)) := by
  obtain ⟨hwf, hlists, hdisj, hcover⟩ := h
  have hold : ∀ o lo, L o = some lo → o < s.brk ∧ ∀ b ∈ addrs lo, b < s.brk :=
    fun o lo ho => (hlists o lo ho).lt_brk hwf
  have hne : ∀ o lo, L o = some lo → o ≠ s.brk := fun o lo ho => by
    have h9 := (hold o lo ho).1
    omega
  refine ⟨hwf1, fun o lo ho => ?_, fun o1 o2 l2 l3 hne12 h1 h2 b hb hb3 => ?_, fun b x hb => ?_⟩
  · by_cases hoc : o = s.brk
    · subst hoc
      simp only [Function.update_same, Option.some.injEq] at ho
      exact ho ▸ hl1
    · rw [Function.update_noteq hoc] at ho
      have hO := hold o lo ho
      refine (hlists o lo ho).transport (hfr o hoc (fun hm => ?_)) (fun b hb => hfr b ?_ ?_)
      · have h9 := habove o hm
        omega
      · have h9 := hO.2 b hb
        omega
      · intro hm
        have h8 := habove b hm
        have h9 := hO.2 b hb
        omega
  · by_cases h1c : o1 = s.brk
    · subst h1c
      simp only [Function.update_same, Option.some.injEq] at h1
      subst h1
      rw [Function.update_noteq (Ne.symm hne12)] at h2
      have h8 := habove b hb
      have h9 := (hold o2 l3 h2).2 b hb3
      omega
    · rw [Function.update_noteq h1c] at h1
      by_cases h2c : o2 = s.brk
      · subst h2c
        simp only [Function.update_same, Option.some.injEq] at h2
        subst h2
        have h8 := habove b hb3
        have h9 := (hold o1 l2 h1).2 b hb
        omega
      · rw [Function.update_noteq h2c] at h2
        exact hdisj o1 o2 l2 l3 hne12 h1 h2 b hb hb3
  · by_cases hbc : b = s.brk
    · exact Or.inl ⟨l1, by rw [hbc, Function.update_same]⟩
    · by_cases hb1 : b ∈ addrs l1
      · exact Or.inr ⟨s.brk, l1, by rw [Function.update_same], hb1⟩
      · rw [hfr b hbc hb1] at hb
        rcases hcover b x hb with ⟨lb, hlb⟩ | ⟨o, lo, ho, hbo⟩
        · exact Or.inl ⟨lb, by rw [Function.update_noteq hbc, hlb]⟩
        · exact Or.inr ⟨o, lo, by rw [Function.update_noteq (hne o lo ho), ho], hbo⟩

/-- A destroyed list object leaves the world, with its nodes. -/
theorem World.remove {s s1 : State α E} {L : Nat → Option (List (Nat × α))} {c : Nat}
    {l : List (Nat × α)} (h : World s L) (hc : L c = some l) (hbrk : s1.brk = s.brk)
    (hthis : s1.mem c = none) (hfree : ∀ b ∈ addrs l, s1.mem b = none)
    (hfr : ∀ b, b ≠ c → b ∉ addrs l → s1.mem b = s.mem b) :
    World s1 (Function.update L c none) := by
  obtain ⟨hwf, hlists, hdisj, hcover⟩ := h
  have hC := hlists c l hc
  have hwf1 : s1.Wf := wf_of_frame hwf hC (Nat.le_of_eq hbrk.symm) (fun b h1 h2 _ => hfr b h1 h2)
  refine ⟨hwf1, fun o lo ho => ?_, fun o1 o2 l2 l3 hne12 h1 h2 b hb hb3 => ?_, fun b x hb => ?_⟩
  · by_cases hoc : o = c
    · rw [hoc, Function.update_same] at ho
      cases ho
    · rw [Function.update_noteq hoc] at ho
      have hO := hlists o lo ho
      refine hO.transport (hfr o hoc (hO.not_mem_of_isList hC)) (fun b hb => hfr b ?_ ?_)
      · exact fun hbc => hC.not_mem_of_isList hO (hbc ▸ hb)
      · exact fun hm => hdisj c o l lo (Ne.symm hoc) hc ho b hm hb
  · by_cases h1c : o1 = c
    · rw [h1c, Function.update_same] at h1
      cases h1
    · by_cases h2c : o2 = c
      · rw [h2c, Function.update_same] at h2
        cases h2
      · rw [Function.update_noteq h1c] at h1
        rw [Function.update_noteq h2c] at h2
        exact hdisj o1 o2 l2 l3 hne12 h1 h2 b hb hb3
  · have hbc : b ≠ c := fun hbc => by
      rw [hbc, hthis] at hb
      cases hb
    have hbl : b ∉ addrs l := fun hm => by
      rw [hfree b hm] at hb
      cases hb
    rw [hfr b hbc hbl] at hb
    rcases hcover b x hb with ⟨lb, hlb⟩ | ⟨o, lo, ho, hbo⟩
    · exact Or.inl ⟨lb, by rw [Function.update_noteq hbc, hlb]⟩
    · have hoc : o ≠ c := by
        intro hoc
        rw [hoc, hc] at ho
        cases ho
        exact hbl hbo
      exact Or.inr ⟨o, lo, by rw [Function.update_noteq hoc, ho], hbo⟩

/-- Two list objects that exchanged their chains. -/
theorem World.swapped {s s1 : State α E} {L : Nat → Option (List (Nat × α))} {a b : Nat}
    {la lb : List (Nat × α)} (h : World s L) (ha : L a = some la) (hb : L b = some lb)
    (ha1 : IsList s1 a lb) (hb1 : IsList s1 b la) (hbrk : s1.brk = s.brk)
    (hfr : ∀ c, c ≠ a → c ≠ b → s1.mem c = s.mem c) :
    World s1 (fun o => if o = a then some lb else if o = b then some la else L o) := by
  obtain ⟨hwf, hlists, hdisj, hcover⟩ := h
  have hA := hlists a la ha
  have hB := hlists b lb hb
  -- the list object whose former chain the object `o` now has
  have hsrc : ∀ o lo, (if o = a then some lb else if o = b then some la else L o) = some lo →
      ∃ o1, L o1 = some lo ∧ (o1 = (if o = a then b else if o = b then a else o)) := by
    intro o lo ho
    by_cases hoa : o = a
    · simp only [hoa, if_true] at ho ⊢
      exact ⟨b, ho ▸ hb, rfl⟩
    · by_cases hob : o = b
      · subst hob
        simp only [hoa, if_true, if_false] at ho ⊢
        exact ⟨a, ho ▸ ha, rfl⟩
      · simp only [hoa, hob, if_false] at ho ⊢
        exact ⟨o, ho, rfl⟩
  have hwf1 : s1.Wf := by
    intro c hc
    rw [hbrk] at hc
    have h1 := (hA.lt_brk hwf).1
    have h2 := (hB.lt_brk hwf).1
    rw [hfr c (by omega) (by omega), hwf c hc]
  refine ⟨hwf1, fun o lo ho => ?_, fun o1 o2 l2 l3 hne12 h1 h2 c hc hc3 => ?_, fun c x hc => ?_⟩
  · by_cases hoa : o = a
    · simp only [hoa, if_true, Option.some.injEq] at ho
      rw [hoa, ← ho]
      exact ha1
    · by_cases hob : o = b
      · subst hob
        simp only [hoa, if_true, if_false, Option.some.injEq] at ho
        rw [← ho]
        exact hb1
      · simp only [hoa, hob, if_false] at ho
        have hO := hlists o lo ho
        refine hO.transport (hfr o hoa hob) (fun c hc => hfr c ?_ ?_)
        · exact fun hca => hA.not_mem_of_isList hO (hca ▸ hc)
        · exact fun hcb => hB.not_mem_of_isList hO (hcb ▸ hc)
  · obtain ⟨p1, hp1, he1⟩ := hsrc o1 l2 h1
    obtain ⟨p2, hp2, he2⟩ := hsrc o2 l3 h2
    refine hdisj p1 p2 l2 l3 ?_ hp1 hp2 c hc hc3
    rw [he1, he2]
    split_ifs <;> omega
  · have hsame : b = a → lb = la := fun hba => by
      rw [hba, ha] at hb
      cases hb
      rfl
    by_cases hca : c = a
    · exact Or.inl ⟨lb, by simp [hca]⟩
    · by_cases hcb : c = b
      · subst hcb
        exact Or.inl ⟨la, by simp [hca]⟩
      · rw [hfr c hca hcb] at hc
        rcases hcover c x hc with ⟨lc, hlc⟩ | ⟨o, lo, ho, hco⟩
        · exact Or.inl ⟨lc, by simp [hca, hcb, hlc]⟩
        · by_cases hoa : o = a
          · rw [hoa, ha] at ho
            cases ho
            by_cases hba : b = a
            · exact Or.inr ⟨a, lb, by simp, by rw [hsame hba]; exact hco⟩
            · exact Or.inr ⟨b, la, by simp [hba], hco⟩
          · by_cases hob : o = b
            · rw [hob, hb] at ho
              cases ho
              exact Or.inr ⟨a, lb, by simp, hco⟩
            · exact Or.inr ⟨o, lo, by simp [hoa, hob, ho], hco⟩

theorem MutationOf.isList {fuel : Nat} {s : State α E} {c : Nat} {op : Op α}
    (h : MutationOf fuel s c op) : ∃ l, IsList s c l := by
  cases op with
  | ctor => exact absurd h (by simp [MutationOf])
  | ctor_initializer_list values => exact absurd h (by simp [MutationOf])
  | ctor_copy other => exact absurd h (by simp [MutationOf])
  | dtor this => exact absurd h (by simp [MutationOf])
  | swap this other => exact absurd h (by simp [MutationOf])
  | operator_assign this other => exact absurd h (by simp [MutationOf])
  | push_front this v =>
    obtain ⟨_, l, hl, _⟩ := h
    exact ⟨l, hl⟩
  | insert_after this pos v =>
    obtain ⟨_, l, _, hl, _⟩ := h
    exact ⟨l, hl⟩
  | pop_front this =>
    obtain ⟨_, l, hl, _⟩ := h
    exact ⟨l, hl⟩
  | erase_after this pos =>
    obtain ⟨_, l, _, hl, _⟩ := h
    exact ⟨l, hl⟩
  | clear this =>
    obtain ⟨_, l, hl, _⟩ := h
    exact ⟨l, hl⟩
  | store it w =>
    obtain ⟨l, _, hl, _⟩ := h
    exact ⟨l, hl⟩

theorem World.mutation [Inhabited α] (cp : CopyCtor α E) (fuel : Nat) (s : State α E)
    (L : Nat → Option (List (Nat × α))) (c : Nat) (op : Op α) (h : World s L)
    (hop : MutationOf fuel s c op) :
    ∃ s1 L1, (exec cp fuel s op = .ok () s1 ∨ exec cp fuel s op = .throw s1) ∧ World s1 L1 := by
  obtain ⟨l, hl⟩ := hop.isList
  obtain ⟨s1, l1, hex, hstep⟩ := mutation_localStep cp fuel s c op l h.1 hl hop
  exact ⟨s1, _, hex, h.localStep (h.lookup hl) hstep⟩

/-- Every call made within its contract in a well-formed world returns or throws,
and leaves a well-formed world. -/
theorem World.step [Inhabited α] (cp : CopyCtor α E) (fuel : Nat) (s : State α E)
    (L : Nat → Option (List (Nat × α))) (op : Op α) (h : World s L) (hv : Valid fuel s op) :
    ∃ s1 L1, (exec cp fuel s op = .ok () s1 ∨ exec cp fuel s op = .throw s1) ∧ World s1 L1 := by
  have hwf := h.1
  cases op with
  | push_front this v =>
    obtain ⟨c, hop⟩ := hv
    exact h.mutation cp fuel s L c _ hop
  | pop_front this =>
    obtain ⟨c, hop⟩ := hv
    exact h.mutation cp fuel s L c _ hop
  | insert_after this pos v =>
    obtain ⟨c, hop⟩ := hv
    exact h.mutation cp fuel s L c _ hop
  | erase_after this pos =>
    obtain ⟨c, hop⟩ := hv
    exact h.mutation cp fuel s L c _ hop
  | clear this =>
    obtain ⟨c, hop⟩ := hv
    exact h.mutation cp fuel s L c _ hop
  | store it w =>
    obtain ⟨c, hop⟩ := hv
    exact h.mutation cp fuel s L c _ hop
  | ctor =>
    obtain ⟨_, ⟨hl1, hwf1, _, _, hold, hnone⟩, _, _⟩ := ctor_spec s hwf
    refine ⟨_, _, Or.inl rfl, h.add hl1 hwf1 (by simp [addrs]) (fun b hb _ => ?_)⟩
    rcases Nat.lt_or_gt_of_ne hb with hlt | hgt
    · exact hold b hlt
    · rw [hnone b hgt (by simp [addrs]), hwf b (by omega)]
  | ctor_initializer_list values =>
    obtain ⟨hn, hf⟩ := hv
    obtain ⟨s1, hwf1, _, hres⟩ := ctor_initializer_list_spec cp fuel s values hwf hn hf
    rcases hres with ⟨l1, _, hrun, hl1, _, hab, hfr⟩ | ⟨_, hrun, hfr⟩
    · exact ⟨s1, _, Or.inl (by simp only [exec, hrun]), h.add hl1 hwf1 hab hfr⟩
    · exact ⟨s1, L, Or.inr (by simp only [exec, hrun]), h.of_mem_eq hwf1 hfr⟩
  | ctor_copy other =>
    obtain ⟨lS, hS, hf⟩ := hv
    obtain ⟨s1, hwf1, _, hres⟩ := ctor_copy_spec cp fuel s other lS hwf hS hf
    rcases hres with ⟨l1, _, hrun, hl1, _, hab, hfr⟩ | ⟨_, hrun, hfr⟩
    · exact ⟨s1, _, Or.inl (by simp only [exec, hrun]), h.add hl1 hwf1 hab hfr⟩
    · exact ⟨s1, L, Or.inr (by simp only [exec, hrun]), h.of_mem_eq hwf1 hfr⟩
  | dtor this =>
    obtain ⟨l, hl, hf⟩ := hv
    obtain ⟨s1, hrun, hbrk, _, hthis, hfree, hfr⟩ := destroy_ok fuel s this l hl hf
    exact ⟨s1, _, Or.inl (by simp only [exec, hrun]),
      h.remove (h.lookup hl) hbrk hthis hfree hfr⟩
  | swap this other =>
    obtain ⟨⟨la, ha⟩, ⟨lb, hb⟩⟩ := hv
    obtain ⟨s1, hrun, ha1, hb1, hbrk, _, hfr⟩ := swap_ok s this other la lb ha hb
    exact ⟨s1, _, Or.inl (by simp only [exec, hrun]),
      h.swapped (h.lookup ha) (h.lookup hb) ha1 hb1 hbrk hfr⟩
  | operator_assign this other =>
    obtain ⟨lD, lS, hD, hS, hf1, hf2⟩ := hv
    by_cases hne : this = other
    · exact ⟨s, L, Or.inl (by simp [exec, operator_assign, hne]), h⟩
    · have hdisj := h.2.2.1 this other lD lS hne (h.lookup hD) (h.lookup hS)
      have hltD := hD.lt_brk hwf
      obtain ⟨s1, hwf1, _, hres⟩ := operator_assign_spec cp fuel s this other lD lS hwf hD hS
        hne hdisj hf1 hf2
      rcases hres with ⟨l1, _, hrun, hl1, _, hab, hfree, hfr⟩ | ⟨_, hrun, _, hfr⟩
      · refine ⟨s1, _, Or.inl hrun, h.localStep (h.lookup hD) ⟨hl1, hwf1, ?_, ?_, ?_⟩⟩
        · intro b h1 h2 h3
          exact hfr b h1 h2 (fun hm => by have h9 := hab b hm; omega)
        · intro b hb
          exact Or.inr (Nat.le_of_lt (hab b hb))
        · intro b h1 h2 h3
          by_cases hbd : b ∈ addrs lD
          · exact hfree b hbd
          · rcases h3 with h3 | h3
            · exact absurd h3 hbd
            · rw [hfr b h1 hbd h2, hwf b h3]
      · exact ⟨s1, L, Or.inr hrun, h.of_mem_eq hwf1 hfr⟩

theorem World.step_of_exec [Inhabited α] (cp : CopyCtor α E) (fuel : Nat) (s s1 : State α E)
    (L : Nat → Option (List (Nat × α))) (op : Op α) (h : World s L) (hv : Valid fuel s op)
    (hex : exec cp fuel s op = .ok () s1 ∨ exec cp fuel s op = .throw s1) :
    ∃ L1, World s1 L1 := by
  obtain ⟨s2, L1, hr, hw⟩ := h.step cp fuel s L op hv
  have hs : s2 = s1 := by
    rcases hr with hr | hr <;> rcases hex with hex | hex <;> rw [hr] at hex <;> cases hex <;> rfl
  exact ⟨L1, hs ▸ hw⟩

/-- Every reachable state is a well-formed world. -/
theorem Reach.world [Inhabited α] {cp : CopyCtor α E} {s : State α E} (h : Reach cp s) :
    ∃ L, World s L := by
  induction h with
  | init e => exact ⟨_, World.init e⟩
  | ok fuel op s s1 _ hv hex ih =>
    obtain ⟨L, hw⟩ := ih
    exact hw.step_of_exec cp fuel s s1 L op hv (Or.inl hex)
  | throw fuel op s s1 _ hv hex ih =>
    obtain ⟨L, hw⟩ := ih
    exact hw.step_of_exec cp fuel s s1 L op hv (Or.inr hex)

/-! ## Counting the live nodes -/

theorem IsList.mem_is_node {s : State α E} {o : Nat} {l : List (Nat × α)} (h : IsList s o l)
    {b : Nat} (hb : b ∈ addrs l) : ∃ n, s.mem b = some (.node n) := by
  obtain ⟨_, _, hch, _⟩ := h
  exact hch.node_of_mem hb

theorem IsList.addrs_nodup {s : State α E} {o : Nat} {l : List (Nat × α)} (h : IsList s o l) :
    (addrs l).Nodup := by
  obtain ⟨_, _, hch, _⟩ := h
  exact Chain.nodup hch

/-- In a well-formed world the live nodes are as many as the sizes of the live lists
add up to. -/
theorem World.liveNodes_eq {s : State α E} {L : Nat → Option (List (Nat × α))}
    (h : World s L) : liveNodes s = sumSizes s := by
  obtain ⟨hwf, hlists, hdisj, hcover⟩ := h
  let g : Nat → List Nat := fun o => match L o with
    | some l => addrs l
    | none => []
  have hsize : ∀ o, (match s.mem o with
      | some (.list X) => X.size_
      | _ => 0) = (g o).length := by
    intro o
    cases hLo : L o with
    | some l =>
      obtain ⟨X, hm, _, hsz, _⟩ := hlists o l hLo
      simp [g, hLo, hm, hsz, addrs]
    | none =>
      have hnl : ∀ X, s.mem o ≠ some (.list X) := by
        intro X hm
        rcases hcover o _ hm with ⟨l, hl⟩ | ⟨o1, l1, h1, hmem⟩
        · rw [hLo] at hl
          cases hl
        · obtain ⟨n, hn⟩ := (hlists o1 l1 h1).mem_is_node hmem
          rw [hm] at hn
          cases hn
      simp only [g, hLo, List.length_nil]
  have hmem : ∀ b, b ∈ (List.range s.brk).flatMap g ↔
      b ∈ (List.range s.brk).filter (fun b => match s.mem b with
        | some (.node _) => true
        | _ => false) := by
    intro b
    simp only [List.mem_flatMap, List.mem_range, List.mem_filter]
    constructor
    · rintro ⟨o, _, hb⟩
      cases hLo : L o with
      | none => simp [g, hLo] at hb
      | some l =>
        simp only [g, hLo] at hb
        have hO := hlists o l hLo
        obtain ⟨n, hn⟩ := hO.mem_is_node hb
        exact ⟨(hO.lt_brk hwf).2 b hb, by simp [hn]⟩
    · rintro ⟨hb, hnode⟩
      cases hm : s.mem b with
      | none => simp [hm] at hnode
      | some c =>
        rcases hcover b c hm with ⟨l, hl⟩ | ⟨o, l, ho, hbo⟩
        · obtain ⟨X, hX, _⟩ := hlists b l hl
          simp [hX] at hnode
        · exact ⟨o, ((hlists o l ho).lt_brk hwf).1, by simpa [g, ho] using hbo⟩
  have hnd : ((List.range s.brk).flatMap g).Nodup := by
    rw [List.nodup_flatMap]
    refine ⟨fun o _ => ?_, (List.nodup_range _).pairwise_of_forall_ne (fun o1 _ o2 _ hne => ?_)⟩
    · cases hLo : L o with
      | none => simp [g, hLo]
      | some l =>
        simp only [g, hLo]
        exact (hlists o l hLo).addrs_nodup
    · simp only [Function.onFun]
      intro b hb1 hb2
      cases h1 : L o1 with
      | none => simp [g, h1] at hb1
      | some l1 =>
        cases h2 : L o2 with
        | none => simp [g, h2] at hb2
        | some l2 =>
          simp only [g, h1] at hb1
          simp only [g, h2] at hb2
          exact hdisj o1 o2 l1 l2 hne h1 h2 b hb1 hb2
  have hperm := (List.perm_ext_iff_of_nodup hnd ((List.nodup_range s.brk).filter _)).mpr hmem
  have hlen := hperm.length_eq
  rw [List.length_flatMap] at hlen
  unfold liveNodes sumSizes
  rw [← hlen]
  congr 1
  apply List.map_congr_left
  intro o _
  exact (hsize o).symm

/-! ## A copy is independent of its source -/

/-- A list with the values of a separate list is an independent copy of it. -/
theorem independentCopy_of_separate [Inhabited α] (cp : CopyCtor α E) {s : State α E}
    {c o : Nat} {lC lS : List (Nat × α)} (h : Separate s c o lC lS) (hv : vals lC = vals lS) :
    IndependentCopy cp s c o lS := by
  have hsep := h
  obtain ⟨hwf, hC, hS, hne, hdisj⟩ := h
  refine ⟨lC, hC, hv, hS, hne, hdisj, fun hnil => ?_, fun s2 hm => ?_⟩
  · rw [hC.begin_eq, hS.begin_eq]
    have hlen := length_eq_of_vals_eq hv
    cases lS with
    | nil => exact absurd rfl hnil
    | cons a lS2 =>
      cases lC with
      | nil => simp at hlen
      | cons a1 lC2 =>
        intro heq
        have h1 : a1.1 = a.1 := by simpa [iterAt, addrs] using heq
        exact hdisj a1.1 (by simp [addrs]) (by simp [addrs, h1])
  · obtain ⟨lC1, hwf2, hC2, hS2, _, _⟩ := hsep.mutated hm
    refine ⟨hS2, hS2.size_eq, fun fuel hf => ⟨_, hS2.begin_eq, hS2.traverse_eq fuel hf⟩,
      fun fuel op hop => ?_⟩
    obtain ⟨s3, _, hr, _⟩ := mutation_localStep cp fuel s2 c op lC1 hwf2 hC2 hop
    exact ⟨s3, hr⟩

/-- C12. Let `S` be a list (object `other`, nodes `lS`) all of whose element copies
succeed. Copy construction from `S` returns a list `C` that is an independent copy
of `S`, and so does the assignment `D = S` to any other list `D` (object `this`,
sharing no node with `S`), with `C = D`: `C` holds the values of `S`, `C` and `S`
share no node, for a non-empty `S` the iterators `C.begin()` and `S.begin()` differ,
and after any sequence of mutations of `C` (`push_front`, `pop_front`,
`insert_after`, `erase_after`, `clear`, a write through an iterator to an element of
`C`; each returns or throws and none faults) `S` has its nodes, its values in
their order, and its size as before. -/
theorem C12_copy_independence [Inhabited α] (cp : CopyCtor α E) (fuel : Nat) (s : State α E)
    (other : Nat) (lS : List (Nat × α)) (e : E) (hwf : s.Wf) (hS : IsList s other lS)
    (hcopy : copyAll cp s.env (vals lS) = some e) (hf1 : lS.length < fuel) :
    (∃ s1 c, SingleLinkedList.ctor_copy cp fuel s other = .ok c s1 ∧
        IndependentCopy cp s1 c other lS) ∧
    (∀ (this : Nat) (lD : List (Nat × α)), IsList s this lD → this ≠ other →
      (∀ b ∈ addrs lD, b ∉ addrs lS) → lD.length < fuel →
      ∃ s1, operator_assign cp fuel s this other = .ok () s1 ∧
        IndependentCopy cp s1 this other lS) := by
  have hltS := hS.lt_brk hwf
  constructor
  · obtain ⟨s1, hwf1, hbrk1, hres⟩ := ctor_copy_spec cp fuel s other lS hwf hS hf1
    rcases hres with ⟨l1, hc, hrun, hl1, hv, hab, hfr⟩ | ⟨hc, _⟩
    · have hfr1 : ∀ b, b < s.brk → s1.mem b = s.mem b := fun b hb =>
        hfr b (by omega) (fun hm => by have h9 := hab b hm; omega)
      have hS1 : IsList s1 other lS :=
        hS.transport (hfr1 _ hltS.1) (fun b hb => hfr1 b (hltS.2 b hb))
      refine ⟨s1, s.brk, hrun, independentCopy_of_separate cp
        ⟨hwf1, hl1, hS1, by omega, fun b hb hbS => ?_⟩ hv⟩
      have h1 := hab b hb
      have h2 := hltS.2 b hbS
      omega
    · rw [hcopy] at hc
      cases hc
  · intro this lD hD hne hdisj hf2
    obtain ⟨s1, hwf1, hS1, hres⟩ := operator_assign_spec cp fuel s this other lD lS hwf hD hS
      hne hdisj hf1 hf2
    rcases hres with ⟨l1, hc, hrun, hl1, hv, hab, _⟩ | ⟨hc, _⟩
    · refine ⟨s1, hrun, independentCopy_of_separate cp
        ⟨hwf1, hl1, hS1, hne, fun b hb hbS => ?_⟩ hv⟩
      have h1 := hab b hb
      have h2 := hltS.2 b hbS
      omega
    · rw [hcopy] at hc
      cases hc

/-- C12, at the concrete state: the list `{10, 30, 5}` at `3` is copied, and assigned
to the list `{10, 20}` at `0`. -/
theorem C12_copy_independence_witness :
    exampleState.Wf ∧ IsList exampleState 3 exampleB ∧
      copyAll copyAlways exampleState.env (vals exampleB) = some () ∧ exampleB.length < 5 ∧
      IsList exampleState 0 exampleA ∧ (0 : Nat) ≠ 3 ∧
      (∀ b ∈ addrs exampleA, b ∉ addrs exampleB) ∧ exampleA.length < 5 ∧
      (∃ s1 c, SingleLinkedList.ctor_copy copyAlways 5 exampleState 3 = .ok c s1 ∧
        IndependentCopy copyAlways s1 c 3 exampleB) ∧
      (∃ s1, operator_assign copyAlways 5 exampleState 0 3 = .ok () s1 ∧
        IndependentCopy copyAlways s1 0 3 exampleB) :=
  have h := C12_copy_independence copyAlways 5 exampleState 3 exampleB () exampleState_wf
    exampleState_B rfl (by decide)
  ⟨exampleState_wf, exampleState_B, rfl, by decide, exampleState_A, by decide,
    example_disjoint, by decide, h.1,
    h.2 0 exampleA exampleState_A (by decide) example_disjoint (by decide)⟩

/-- The addresses counted by `liveNodes` are those of the live nodes. -/
theorem mem_liveNodes_filter {s : State α E} (hwf : s.Wf) (b : Nat) :
    b ∈ ((List.range s.brk).filter fun b =>
      match s.mem b with
      | some (.node _) => true
      | _ => false) ↔ ∃ n, s.mem b = some (.node n) := by
  simp only [List.mem_filter, List.mem_range]
  constructor
  · rintro ⟨_, h⟩
    cases hm : s.mem b with
    | none => simp [hm] at h
    | some c =>
      cases c with
      | node n => exact ⟨n, rfl⟩
      | list X => simp [hm] at h
  · rintro ⟨n, hn⟩
    refine ⟨?_, by simp [hn]⟩
    by_contra hlt
    have h9 := hwf b (by omega)
    rw [hn] at h9
    cases h9

/-- Freeing the nodes `A`, and no other node, takes `A.length` from the number of live
nodes. -/
theorem liveNodes_eq_add {s s1 : State α E} (hwf : s.Wf) (hwf1 : s1.Wf) (A : List Nat)
    (hnd : A.Nodup) (hA : ∀ b ∈ A, ∃ n, s.mem b = some (.node n))
    (hA1 : ∀ b ∈ A, s1.mem b = none)
    (hfr : ∀ b, b ∉ A → ((∃ n, s1.mem b = some (.node n)) ↔ ∃ n, s.mem b = some (.node n))) :
    liveNodes s = liveNodes s1 + A.length := by
  unfold liveNodes
  rw [← List.length_append]
  apply List.Perm.length_eq
  rw [List.perm_ext_iff_of_nodup ((List.nodup_range _).filter _)]
  · intro b
    rw [List.mem_append, mem_liveNodes_filter hwf, mem_liveNodes_filter hwf1]
    by_cases hb : b ∈ A
    · simp [hb, hA b hb]
    · simp [hb, hfr b hb]
  · rw [List.nodup_append]
    refine ⟨(List.nodup_range _).filter _, hnd, fun b hb1 hb2 => ?_⟩
    rw [mem_liveNodes_filter hwf1] at hb1
    obtain ⟨n, hn⟩ := hb1
    rw [hA1 b hb2] at hn
    cases hn

/-- The number of live nodes is a function of the memory. -/
theorem liveNodes_congr {s s1 : State α E} (hwf : s.Wf) (hwf1 : s1.Wf)
    (hfr : ∀ b, s1.mem b = s.mem b) : liveNodes s1 = liveNodes s := by
  have h := liveNodes_eq_add hwf hwf1 [] List.nodup_nil (by simp) (by simp)
    (fun b _ => by rw [hfr b])
  simpa using h.symm

/-- A list object is not a node. -/
theorem IsList.this_not_node {s : State α E} {this : Nat} {l : List (Nat × α)}
    (h : IsList s this l) : ¬ ∃ n, s.mem this = some (.node n) := by
  obtain ⟨L, hm, _⟩ := h
  rintro ⟨n, hn⟩
  rw [hm] at hn
  cases hn

/-- C19. Let `this` be a list with the nodes `l` (`n = l.length` elements) in a
well-formed state. The destructor returns, frees the list object and each of its `n`
nodes, keeps every other object, and the number of live nodes drops by exactly `n`;
`clear()` does the same and keeps the list object, now empty. `erase_after` at a
position with a successor, and `pop_front()` on a non-empty list, return and free the
removed node, every other live node stays live, and the number of live nodes drops
by exactly one. (A node is freed once: `delete` of a node that is not live is a
fault, and these calls return.) A copy construction from the list, or an assignment
of the list to another, in which an element copy throws, throws and leaves the
memory exactly as it was, every object built for the temporary freed. And in every
state a program reaches by calls made within their contracts, the number of live
nodes is the sum of the sizes of the live lists. -/
theorem C19_destroyed_exactly_once [Inhabited α] (cp : CopyCtor α E) (fuel : Nat)
    (s : State α E) (this : Nat) (l : List (Nat × α)) (hwf : s.Wf) (hl : IsList s this l)
    (hf : l.length < fuel) :
    (∃ s1, destroy fuel s this = .ok s1 ∧ s1.mem this = none ∧
        (∀ b ∈ addrs l, s1.mem b = none) ∧
        (∀ b, b ≠ this → b ∉ addrs l → s1.mem b = s.mem b) ∧
        liveNodes s1 + l.length = liveNodes s) ∧
    (∃ s1, clear fuel s this = .ok s1 ∧ IsList s1 this [] ∧
        (∀ b ∈ addrs l, s1.mem b = none) ∧
        (∀ b, b ≠ this → b ∉ addrs l → s1.mem b = s.mem b) ∧
        liveNodes s1 + l.length = liveNodes s) ∧
    (∀ (k : Nat) (hk : k < l.length),
      ∃ s1 it, erase_after s this (iterAt this l k) = .ok it s1 ∧
        IsList s1 this (l.take k ++ l.drop (k + 1)) ∧ s1.mem (l[k].1) = none ∧
        (∀ b, b ≠ l[k].1 →
          ((∃ n, s1.mem b = some (.node n)) ↔ ∃ n, s.mem b = some (.node n))) ∧
        liveNodes s1 + 1 = liveNodes s) ∧
    (∀ (c : Nat) (y : α) (l2 : List (Nat × α)), l = (c, y) :: l2 →
      ∃ s1, pop_front s this = .ok () s1 ∧ IsList s1 this l2 ∧ s1.mem c = none ∧
        (∀ b, b ≠ this → b ≠ c → s1.mem b = s.mem b) ∧
        liveNodes s1 + 1 = liveNodes s) ∧
    (copyAll cp s.env (vals l) = none →
      ∃ s1, SingleLinkedList.ctor_copy cp fuel s this = .throw s1 ∧ s1.Wf ∧
        (∀ b, s1.mem b = s.mem b) ∧ liveNodes s1 = liveNodes s) ∧
    (copyAll cp s.env (vals l) = none →
      ∀ (dst : Nat) (lD : List (Nat × α)), IsList s dst lD → dst ≠ this →
        (∀ b ∈ addrs lD, b ∉ addrs l) → lD.length < fuel →
        ∃ s1, operator_assign cp fuel s dst this = .throw s1 ∧ s1.Wf ∧
          (∀ b, s1.mem b = s.mem b) ∧ liveNodes s1 = liveNodes s) ∧
    (∀ s0, Reach cp s0 → liveNodes s0 = sumSizes s0) := by
  have hnm := hl.this_not_mem
  have hnn := hl.this_not_node
  refine ⟨?_, ?_, fun k hk => ?_, fun c y l2 hc => ?_, fun hcopy => ?_,
    fun hcopy dst lD hD hne hdisj hf2 => ?_, fun s0 h0 => ?_⟩
  · obtain ⟨s1, hrun, hbrk, _, hthis, hfree, hfr⟩ := destroy_ok fuel s this l hl hf
    have hwf1 : s1.Wf :=
      wf_of_frame hwf hl (Nat.le_of_eq hbrk.symm) (fun b h1 h2 _ => hfr b h1 h2)
    refine ⟨s1, hrun, hthis, hfree, hfr, ?_⟩
    have hlen : (addrs l).length = l.length := by simp [addrs]
    rw [← hlen]
    refine (liveNodes_eq_add hwf hwf1 (addrs l) hl.addrs_nodup (fun b hb => hl.mem_is_node hb)
      hfree (fun b hb => ?_)).symm
    by_cases hbt : b = this
    · subst hbt
      refine ⟨fun h => ?_, fun h => absurd h hnn⟩
      obtain ⟨n, hn⟩ := h
      rw [hthis] at hn
      cases hn
    · rw [hfr b hbt hb]
  · obtain ⟨s1, hrun, hl1, hbrk, _, hfree, hfr⟩ := clear_ok fuel s this l hl hf
    have hwf1 : s1.Wf :=
      wf_of_frame hwf hl (Nat.le_of_eq hbrk.symm) (fun b h1 h2 _ => hfr b h1 h2)
    refine ⟨s1, hrun, hl1, hfree, hfr, ?_⟩
    have hlen : (addrs l).length = l.length := by simp [addrs]
    rw [← hlen]
    refine (liveNodes_eq_add hwf hwf1 (addrs l) hl.addrs_nodup (fun b hb => hl.mem_is_node hb)
      hfree (fun b hb => ?_)).symm
    by_cases hbt : b = this
    · subst hbt
      exact ⟨fun h => absurd h hl1.this_not_node, fun h => absurd h hnn⟩
    · rw [hfr b hbt hb]
  · obtain ⟨s1, hrun, hl1, hbrk, _, hfree, hfr⟩ := erase_after_ok s this l k hl hk
    have hwf1 : s1.Wf :=
      wf_of_frame hwf hl (Nat.le_of_eq hbrk.symm) (fun b h1 h2 _ => hfr b h1 h2)
    have hlive : ∀ b, b ≠ l[k].1 →
        ((∃ n, s1.mem b = some (.node n)) ↔ ∃ n, s.mem b = some (.node n)) := by
      intro b hb
      by_cases hbt : b = this
      · subst hbt
        exact ⟨fun h => absurd h hl1.this_not_node, fun h => absurd h hnn⟩
      · by_cases hbl : b ∈ addrs l
        · have hb1 : b ∈ addrs (l.take k ++ l.drop (k + 1)) := by
            by_contra hnb
            exact hb (mem_addrs_of_take_drop hk hbl hnb)
          exact ⟨fun _ => hl.mem_is_node hbl, fun _ => hl1.mem_is_node hb1⟩
        · rw [hfr b hbt hbl]
    refine ⟨s1, _, hrun, hl1, hfree, hlive, ?_⟩
    refine (liveNodes_eq_add hwf hwf1 [l[k].1] (List.nodup_singleton _) (fun b hb => ?_)
      (fun b hb => ?_) (fun b hb => ?_)).symm
    · rw [List.mem_singleton] at hb
      subst hb
      exact hl.mem_is_node (List.mem_map.mpr ⟨l[k], List.getElem_mem _, rfl⟩)
    · rw [List.mem_singleton] at hb
      subst hb
      exact hfree
    · exact hlive b (by simpa using hb)
  · subst hc
    obtain ⟨s1, hrun, hl1, hbrk, _, hfree, hfr⟩ := pop_front_ok s this c y l2 hl
    have hwf1 : s1.Wf := wf_of_frame hwf hl (Nat.le_of_eq hbrk.symm)
      (fun b h1 h2 _ => hfr b h1 (fun h => h2 (by simp [addrs, h])))
    refine ⟨s1, hrun, hl1, hfree, hfr, ?_⟩
    refine (liveNodes_eq_add hwf hwf1 [c] (List.nodup_singleton _) (fun b hb => ?_)
      (fun b hb => ?_) (fun b hb => ?_)).symm
    · rw [List.mem_singleton] at hb
      subst hb
      exact hl.mem_is_node (by simp [addrs])
    · rw [List.mem_singleton] at hb
      subst hb
      exact hfree
    · have hbc : b ≠ c := by simpa using hb
      by_cases hbt : b = this
      · subst hbt
        exact ⟨fun h => absurd h hl1.this_not_node, fun h => absurd h hnn⟩
      · rw [hfr b hbt hbc]
  · obtain ⟨s1, hwf1, _, hres⟩ := ctor_copy_spec cp fuel s this l hwf hl hf
    rcases hres with ⟨l1, hc, _⟩ | ⟨_, hrun, hfr⟩
    · rw [hcopy] at hc
      cases hc
    · exact ⟨s1, hrun, hwf1, hfr, liveNodes_congr hwf hwf1 hfr⟩
  · obtain ⟨s1, hwf1, _, hres⟩ := operator_assign_spec cp fuel s dst this lD l hwf hD hl
      hne hdisj hf hf2
    rcases hres with ⟨l1, hc, _⟩ | ⟨_, hrun, _, hfr⟩
    · rw [hcopy] at hc
      cases hc
    · exact ⟨s1, hrun, hwf1, hfr, liveNodes_congr hwf hwf1 hfr⟩
  · obtain ⟨L, hw⟩ := h0.world
    exact hw.liveNodes_eq

theorem exampleReached_exec :
    exec throwOnCopy 5 (State.init 10) (.ctor_initializer_list [1, 2, 3]) =
      .ok () exampleReached := rfl

theorem exampleReached_reach : Reach throwOnCopy exampleReached :=
  Reach.ok 5 (.ctor_initializer_list [1, 2, 3]) (State.init 10) exampleReached (Reach.init 10)
    ⟨by decide, by decide⟩ exampleReached_exec

/-- C19, at the concrete state with a countdown of `1`: the list `{10, 20}` at `0` is
destroyed; its copy throws at the second element; and the state reached by
`SingleLinkedList<T> a{1, 2, 3};` has as many live nodes as the size of its list. -/
theorem C19_destroyed_exactly_once_witness :
    (exampleThrowState 1).Wf ∧ IsList (exampleThrowState 1) 0 exampleA ∧ exampleA.length < 5 ∧
      (∃ s1, destroy 5 (exampleThrowState 1) 0 = .ok s1 ∧ s1.mem 0 = none ∧
        (∀ b ∈ addrs exampleA, s1.mem b = none) ∧
        (∀ b, b ≠ 0 → b ∉ addrs exampleA → s1.mem b = (exampleThrowState 1).mem b) ∧
        liveNodes s1 + exampleA.length = liveNodes (exampleThrowState 1)) ∧
      (∃ s1, SingleLinkedList.ctor_copy throwOnCopy 5 (exampleThrowState 1) 0 = .throw s1 ∧
        s1.Wf ∧ (∀ b, s1.mem b = (exampleThrowState 1).mem b) ∧
        liveNodes s1 = liveNodes (exampleThrowState 1)) ∧
      liveNodes exampleReached = sumSizes exampleReached :=
  have h := C19_destroyed_exactly_once throwOnCopy 5 (exampleThrowState 1) 0 exampleA
    (exampleThrowState_wf 1) (exampleThrowState_A 1) (by decide)
  ⟨exampleThrowState_wf 1, exampleThrowState_A 1, by decide, h.1, h.2.2.2.2.1 rfl,
    h.2.2.2.2.2.2 exampleReached exampleReached_reach⟩

/-! ## The count invariant -/

/-- C20. In every state a program reaches from the empty state by calls made within
their contracts (the constructors, `push_front`, `pop_front` on a non-empty list,
`insert_after` and `erase_after` at positions of the same list, `clear`, `swap`,
copy assignment, and also the destructor and writes through iterators; whether a call
returns or throws), every live list object has a finite chain of nodes `l` hanging
off its sentinel that ends in null and visits no node twice, and it is the only such
chain; `size_`, and so `size()`, is the number of nodes of that chain; and `empty()`
is `true` iff that number is zero. And every call made within its contract in such a
state returns or throws, into such a state again. -/
theorem C20_count_invariant [Inhabited α] (cp : CopyCtor α E) (s : State α E)
    (h : Reach cp s) :
    (∀ (this : Nat) (X : SingleLinkedList α), s.mem this = some (.list X) →
      ∃ l, Chain s.mem X.head_.next_node l ∧ (addrs l).Nodup ∧
        (∀ l2, Chain s.mem X.head_.next_node l2 → l2 = l) ∧
        X.size_ = l.length ∧ size s this = some l.length ∧
        ∃ e, empty s this = some e ∧ (e = true ↔ l.length = 0)) ∧
    (∀ (fuel : Nat) (op : Op α), Valid fuel s op →
      ∃ s1, (exec cp fuel s op = .ok () s1 ∨ exec cp fuel s op = .throw s1) ∧ Reach cp s1) := by
  obtain ⟨L, hw⟩ := h.world
  refine ⟨fun this X hm => ?_, fun fuel op hv => ?_⟩
  · obtain ⟨_, hlists, _, hcover⟩ := hw
    have hL : ∃ l, L this = some l := by
      rcases hcover this _ hm with hl | ⟨o, l, ho, hmem⟩
      · exact hl
      · obtain ⟨n, hn⟩ := (hlists o l ho).mem_is_node hmem
        rw [hm] at hn
        cases hn
    obtain ⟨l, hl⟩ := hL
    have hlist := hlists this l hl
    have hsize := hlist.size_eq
    have hempty := hlist.empty_eq
    obtain ⟨X1, hm1, hch, hsz, _⟩ := hlist
    rw [hm] at hm1
    cases hm1
    exact ⟨l, hch, Chain.nodup hch, fun l2 h2 => Chain.functional h2 hch, hsz,
      hsize, decide (l.length = 0), hempty, decide_eq_true_iff⟩
  · obtain ⟨s1, _, hr, _⟩ := hw.step cp fuel s L op hv
    rcases hr with hr | hr
    · exact ⟨s1, Or.inl hr, Reach.ok fuel op s s1 h hv hr⟩
    · exact ⟨s1, Or.inr hr, Reach.throw fuel op s s1 h hv hr⟩

/-- C20, at the state reached by `SingleLinkedList<T> a{1, 2, 3};`: the list object at
`0` has three nodes and size `3`, and is not empty. -/
theorem C20_count_invariant_witness :
    Reach throwOnCopy exampleReached ∧
      exampleReached.mem 0 = some (.list ⟨⟨default, some 2⟩, 3⟩) ∧
      ∃ l, Chain exampleReached.mem (some 2) l ∧ (addrs l).Nodup ∧
        (∀ l2, Chain exampleReached.mem (some 2) l2 → l2 = l) ∧
        3 = l.length ∧ size exampleReached 0 = some l.length ∧
        ∃ e, empty exampleReached 0 = some e ∧ (e = true ↔ l.length = 0) :=
  ⟨exampleReached_reach, rfl,
    (C20_count_invariant throwOnCopy exampleReached exampleReached_reach).1 0
      ⟨⟨default, some 2⟩, 3⟩ rfl⟩

/-! ## The front operations are the positional ones at `before_begin()` -/

/-- C21. For a list `L` (object `this`, nodes `l`) and a value `v`: `push_front(v)`
has the very outcome of `insert_after(before_begin(), v)` with the iterator dropped
(the same final state when it returns, the same state when the copy throws), and
for a non-empty `L`, `pop_front()` has the very outcome of
`erase_after(before_begin())`. When the copy of `v` succeeds (and the size stays a
`size_t`) both insertions return the one state in which `L` is `v`, in a new node,
followed by the prior nodes, with size `n + 1`, and `begin()` is the iterator that
`insert_after` returns; on a non-empty `L` both removals return the one state in
which `L` is its prior nodes without the first, with size `n - 1`, and `begin()` is
the iterator that `erase_after` returns. -/
theorem C21_front_ops_are_positional (cp : CopyCtor α E) (s : State α E) (this : Nat)
    (l : List (Nat × α)) (v : α) (hl : IsList s this l) :
    push_front cp s this v = push_front_spec cp s this v ∧
    (l ≠ [] → pop_front s this = pop_front_spec s this) ∧
    (∀ e, s.Wf → cp s.env v = (true, e) → l.length + 1 < SIZE_MOD →
      ∃ s1 it, insert_after cp s this (before_begin this) v = .ok it s1 ∧
        push_front cp s this v = .ok () s1 ∧ IsList s1 this ((s.brk, v) :: l) ∧
        size s1 this = some (l.length + 1) ∧ begin s1 this = some it) ∧
    (l ≠ [] →
      ∃ s1 it, erase_after s this (before_begin this) = .ok it s1 ∧
        pop_front s this = .ok () s1 ∧ IsList s1 this l.tail ∧
        size s1 this = some (l.length - 1) ∧ begin s1 this = some it) := by
  have hpush : push_front cp s this v = push_front_spec cp s this v := by
    obtain ⟨L, hm, _⟩ := hl
    exact push_front_eq_insert_after cp s this v L hm
  have hpop : l ≠ [] → pop_front s this = pop_front_spec s this := by
    intro hne
    obtain ⟨L, hm, hch, _⟩ := hl
    cases l with
    | nil => exact absurd rfl hne
    | cons a l2 =>
      have hp : L.head_.next_node = some a.1 := hch.1
      simp [pop_front, pop_front_spec, getList, hm, hp]
  refine ⟨hpush, hpop, fun e hwf hcp hsz => ?_, fun hne => ?_⟩
  · obtain ⟨s1, h1, h2, _⟩ := insert_after_ok cp s this l 0 v e hwf hl (Nat.zero_le _) hcp hsz
    rw [iterAt_zero] at h1
    have h3 : IsList s1 this ((s.brk, v) :: l) := by simpa using h2
    refine ⟨s1, _, h1, ?_, h3, by simpa using h3.size_eq, ?_⟩
    · rw [hpush]
      simp [push_front_spec, h1]
    · rw [h3.begin_eq]
      simp [iterAt, addrs]
  · cases l with
    | nil => exact absurd rfl hne
    | cons a l2 =>
      obtain ⟨c, y⟩ := a
      obtain ⟨s1, h1, h2, _⟩ := erase_after_front s this c y l2 hl
      refine ⟨s1, _, h1, ?_, h2, by simpa using h2.size_eq, ?_⟩
      · rw [hpop hne]
        simp [pop_front_spec, before_begin, h1]
      · rw [h2.begin_eq]
        simp [iterAt, addrs]

/-- C21, at the concrete state: `7` is pushed onto the list `{10, 20}` at `0`, and
its first element is popped. -/
theorem C21_front_ops_are_positional_witness :
    IsList exampleState 0 exampleA ∧
      push_front copyAlways exampleState 0 7 = push_front_spec copyAlways exampleState 0 7 ∧
      pop_front exampleState 0 = pop_front_spec exampleState 0 ∧
      (∃ s1 it, insert_after copyAlways exampleState 0 (before_begin 0) 7 = .ok it s1 ∧
        push_front copyAlways exampleState 0 7 = .ok () s1 ∧
        IsList s1 0 ((exampleState.brk, 7) :: exampleA) ∧
        size s1 0 = some (exampleA.length + 1) ∧ begin s1 0 = some it) ∧
      (∃ s1 it, erase_after exampleState 0 (before_begin 0) = .ok it s1 ∧
        pop_front exampleState 0 = .ok () s1 ∧ IsList s1 0 exampleA.tail ∧
        size s1 0 = some (exampleA.length - 1) ∧ begin s1 0 = some it) :=
  have h := C21_front_ops_are_positional copyAlways exampleState 0 exampleA 7 exampleState_A
  ⟨exampleState_A, h.1, h.2.1 (by decide), h.2.2.1 () exampleState_wf rfl (by decide),
    h.2.2.2 (by decide)⟩

/-! ## Calls outside the contract -/

/-- The position of a list that has no successor (the last node, or `before_begin()`
of an empty list) references an object whose `next_node` is null. -/
theorem IsList.nextOf_last {s : State α E} {this : Nat} {l : List (Nat × α)}
    (h : IsList s this l) :
    ∃ a, iterAt this l l.length = ⟨some a⟩ ∧ nextOf s a = some none := by
  have hinc := h.inc_eq (Nat.le_refl l.length)
  rw [iterAt_end] at hinc
  have hlen : l.length < (this :: addrs l).length := by simp [addrs]
  have hpos : iterAt this l l.length = ⟨some ((this :: addrs l)[l.length])⟩ := by
    simp only [iterAt, List.getElem?_eq_getElem hlen]
  refine ⟨_, hpos, ?_⟩
  rw [hpos] at hinc
  simp only [BasicIterator.inc] at hinc
  cases hn : nextOf s ((this :: addrs l)[l.length]) with
  | none =>
    rw [hn] at hinc
    cases hinc
  | some q =>
    rw [hn] at hinc
    cases q with
    | none => rfl
    | some b =>
      simp only [end_] at hinc
      cases hinc

/-- C22. What the code does at and within the contracts of the positional
operations, for a list `L` (object `this`, nodes `l`). `erase_after` at the position
of `L` that has no successor (the last element, or `before_begin()` of an empty `L`)
does NOT fail an assertion: the function has none, it reads the null `next_node` and
then reads through it, which is undefined behaviour; so does `erase_after(end())`.
The rest is as claimed: `pop_front()` on an empty list fails its
`assert(head_.next_node != nullptr)`; `insert_after(end(), v)` fails its
`assert(prev_node)`; an assertion failure aborts the call before any write. And
within the contract none of them fails an assertion: `erase_after` at a position
with a successor returns, `pop_front()` on a non-empty list returns, and
`insert_after` at a position of the list returns or throws (in a well-formed state,
the size staying a `size_t`). -/
theorem C22_contract_violations (s : State α E) (this : Nat) (l : List (Nat × α))
    (hl : IsList s this l) :
    erase_after s this (iterAt this l l.length) = .fault .undefined ∧
    erase_after s this end_ = .fault .undefined ∧
    (l = [] → pop_front s this = .fault .assertion) ∧
    (∀ (cp : CopyCtor α E) (v : α), insert_after cp s this end_ v = .fault .assertion) ∧
    (∀ k, k < l.length → ∃ it s1, erase_after s this (iterAt this l k) = .ok it s1) ∧
    (l ≠ [] → ∃ s1, pop_front s this = .ok () s1) ∧
    (∀ (cp : CopyCtor α E) (v : α) (k : Nat), k ≤ l.length →
      insert_after cp s this (iterAt this l k) v ≠ .fault .assertion ∧
      (s.Wf → l.length + 1 < SIZE_MOD →
        ∃ s1, (∃ it, insert_after cp s this (iterAt this l k) v = .ok it s1) ∨
          insert_after cp s this (iterAt this l k) v = .throw s1)) := by
  refine ⟨?_, by simp [erase_after, end_], fun hnil => ?_, fun cp v => by simp [insert_after, end_],
    fun k hk => ?_, fun hne => ?_, fun cp v k hk => ⟨?_, fun hwf hsz => ?_⟩⟩
  · obtain ⟨a, hpos, hnext⟩ := hl.nextOf_last
    rw [hpos]
    simp [erase_after, hnext]
  · subst hnil
    obtain ⟨L, hm, hch, _⟩ := hl
    have hp : L.head_.next_node = none := hch
    simp [pop_front, getList, hm, hp]
  · obtain ⟨s1, h1, _⟩ := erase_after_ok s this l k hl hk
    exact ⟨_, s1, h1⟩
  · cases l with
    | nil => exact absurd rfl hne
    | cons a l2 =>
      obtain ⟨c, y⟩ := a
      obtain ⟨s1, h1, _⟩ := pop_front_ok s this c y l2 hl
      exact ⟨s1, h1⟩
  · have hlen : k < (this :: addrs l).length := by simp [addrs]; omega
    have hpos : iterAt this l k = ⟨some ((this :: addrs l)[k])⟩ := by
      simp only [iterAt, List.getElem?_eq_getElem hlen]
    rw [hpos]
    simp only [insert_after, newNode]
    rcases cp s.env v with ⟨ok, e⟩
    cases ok
    all_goals simp only [State.alloc]
    all_goals repeat' split
    all_goals simp
  · rcases hcp : cp s.env v with ⟨ok, e⟩
    cases ok with
    | true =>
      obtain ⟨s1, h1, _⟩ := insert_after_ok cp s this l k v e hwf hl hk hcp hsz
      exact ⟨s1, Or.inl ⟨_, h1⟩⟩
    | false => exact ⟨_, Or.inr (insert_after_throw cp s this l k v e hl hk hcp)⟩

theorem exampleEmptyState_isList : IsList exampleEmptyState 0 [] :=
  ⟨_, rfl, rfl, rfl, by decide⟩

/-- C22, at the concrete states: on the list `{10, 30, 5}` at `3`, `erase_after` at
the last element (the node `6`) is undefined behaviour and not an assertion failure,
and `insert_after(end(), 7)` fails its assertion; on the empty list,
`erase_after(before_begin())` is undefined behaviour and `pop_front()` fails its
assertion; and on `{10, 30, 5}` the operations within the contract return. -/
theorem C22_contract_violations_witness :
    IsList exampleState 3 exampleB ∧
      erase_after exampleState 3 ⟨some 6⟩ = .fault .undefined ∧
      insert_after copyAlways exampleState 3 end_ 7 = .fault .assertion ∧
      (∃ it s1, erase_after exampleState 3 ⟨some 5⟩ = .ok it s1) ∧
      (∃ s1, pop_front exampleState 3 = .ok () s1) ∧
      IsList exampleEmptyState 0 [] ∧
      erase_after exampleEmptyState 0 (before_begin 0) = .fault .undefined ∧
      pop_front exampleEmptyState 0 = .fault .assertion :=
  have h := C22_contract_violations exampleState 3 exampleB exampleState_B
  have h0 := C22_contract_violations exampleEmptyState 0 [] exampleEmptyState_isList
  ⟨exampleState_B, h.1, h.2.2.2.1 copyAlways 7, h.2.2.2.2.1 2 (by decide),
    h.2.2.2.2.2.1 (by decide), exampleEmptyState_isList, h0.1, h0.2.2.1 rfl⟩

/-! # The assertions of `tests.h` hold on the embedding -/

theorem testLexicographic_eq : testLexicographic = some [true, true, true, true] := by rfl
theorem testInsertAfter_eq :
    testInsertAfter = some ([123, 555, 1, 2, 3], true, 123, 555) := by rfl
theorem testEraseAfter_eq :
    testEraseAfter = some ([2, 3, 4], [1, 3, 4], [1, 2, 3], true) := by rfl
theorem testAssign_eq : testAssign = some ([1, 2, 3, 4], [1, 2, 3, 4], true, true) := by rfl
theorem testPopFront_eq : testPopFront = some [14, 15, 92, 6] := by rfl

end SLL
